import Mathlib

/-!
# loadgen: configuration, suite manager and ramp-up, embedded in Lean

A shallow embedding of the Go package `loadgen` (config.go, manager.go,
runner.go, rampup.go, suite.go).  Go `int` is the 64-bit signed integer; it
is embedded as `Int`, and the products the code forms are wrapped to 64 bits
explicitly (`wrap64`).  Calls that end the process (`log.Fatal`, a nil
dereference) are embedded as `Except Abort`.
-/

namespace Loadgen

/-! ## config.go -/

/-- Config holds settings for a Runner (config.go, `type Config`).  The two
maps are association lists. -/
structure Config where
  HandleName : String := ""
  RPS : Int := 0
  AttackTimeSec : Int := 0
  RampUpTimeSec : Int := 0
  RampUpStrategy : String := ""
  MaxAttackers : Int := 0
  OutputFilename : String := ""
  Verbose : Bool := false
  Metadata : List (String × String) := []
  DoTimeoutSec : Int := 0
  StoreData : Bool := false
  RecycleData : Bool := false
  ReadFromCsvName : String := ""
  WriteToCsvName : String := ""
  HandleParams : List (String × String) := []
  SequenceNum : Int := 0
deriving DecidableEq, Repr

/-- The message appended when `c.RPS <= 0`. -/
def msgRPS : String := "please set the RPS to a positive number of seconds"

/-- The message appended when `c.AttackTimeSec < 2`. -/
def msgAttackTime : String := "please set the attack time to a positive number of seconds > 1"

/-- The message appended when `c.RampUpTimeSec < 1` (the source words it as
an attack-time message too, with `> 0`). -/
def msgRampUpTime : String := "please set the attack time to a positive number of seconds > 0"

/-- The message appended when `c.MaxAttackers <= 0`. -/
def msgMaxAttackers : String := "please set a positive maximum number of attackers"

/-- The message appended when `c.DoTimeoutSec <= 0`. -/
def msgDoTimeout : String := "please set the Do() timeout to a positive maximum number of seconds"

/-- Validate checks all settings and returns a list of strings with problems
(config.go, `Config.Validate`): five independent `if`s, each appending to the
named result `list`. -/
def Config.Validate (c : Config) : List String :=
  let list : List String := []
  let list := if c.RPS ≤ 0 then list ++ [msgRPS] else list
  let list := if c.AttackTimeSec < 2 then list ++ [msgAttackTime] else list
  let list := if c.RampUpTimeSec < 1 then list ++ [msgRampUpTime] else list
  let list := if c.MaxAttackers ≤ 0 then list ++ [msgMaxAttackers] else list
  let list := if c.DoTimeoutSec ≤ 0 then list ++ [msgDoTimeout] else list
  list

/-- The five constraints of the configuration table, in the order the claim
lists them, each with the message reported when it is violated (written
from the specification, to be compared with `Config.Validate`). -/
def Config.constraints (c : Config) : List (Bool × String) :=
  [ (decide (0 < c.RPS), msgRPS),
    (decide (2 ≤ c.AttackTimeSec), msgAttackTime),
    (decide (1 ≤ c.RampUpTimeSec), msgRampUpTime),
    (decide (0 < c.MaxAttackers), msgMaxAttackers),
    (decide (0 < c.DoTimeoutSec), msgDoTimeout) ]

/-- One message per violated constraint, in table order (the specification's
reading of the problem list). -/
def Config.violations (c : Config) : List String :=
  ((c.constraints).filter (fun p => !p.1)).map (fun p => p.2)

/-! ## Process exits, 64-bit integers, float64 -/

/-- How a call ends the process early: `log.Fatal`/`log.Fatalf` (exit status
1) or a runtime panic such as a nil dereference (exit status 2). -/
inductive Abort where
  | fatal
  | panic
deriving DecidableEq, Repr

/-- Two's-complement wrap of an integer to Go's 64-bit `int`. -/
def wrap64 (x : Int) : Int := (x + 2 ^ 63) % 2 ^ 64 - 2 ^ 63

/-- Go's `/` on `int`: the quotient truncated toward zero.  The divisor is
`RampUpTimeSec` or `time.Millisecond` at every use, and is non-zero there
(the ramp-up loops run only for `1 <= i <= RampUpTimeSec`). -/
def goDiv (a b : Int) : Int := Int.tdiv a b

/-- `strconv.Itoa` and the `%d` verb: the decimal text of an integer. -/
def Itoa : Int → String
  | Int.ofNat k => Nat.repr k
  | Int.negSucc k => "-" ++ Nat.repr (k + 1)

/-- The values a Go `float64` can take, as extended rationals: every finite
float64 is a rational; the infinities and NaN are separate. -/
inductive F64 where
  | fin (q : ℚ)
  | posInf
  | negInf
  | nan
deriving DecidableEq

/-- The float64 operations the code uses.  They are a parameter of the
embedding, so that what is proved holds for IEEE-754 arithmetic with its
rounding as for any other implementation. -/
structure FloatArith where
  /-- the conversion `float64(n)` of an integer -/
  ofInt : Int → F64
  /-- the quotient `x / y` -/
  div : F64 → F64 → F64
  /-- the product `x * y` -/
  mul : F64 → F64 → F64
  /-- the comparison `x < y` -/
  lt : F64 → F64 → Bool
  /-- the comparison `x >= y` -/
  ge : F64 → F64 → Bool
  /-- the conversion `int(math.Ceil(x))` -/
  ceilToInt : F64 → Int

/-- The sign-aware quotient of exact arithmetic: a finite quotient when the
divisor is non-zero, an infinity for a non-zero dividend over zero, NaN for
zero over zero and for the undetermined forms. -/
def F64.exactDiv : F64 → F64 → F64
  | .fin a, .fin b =>
      if b = 0 then (if 0 < a then .posInf else if a < 0 then .negInf else .nan)
      else .fin (a / b)
  | .fin _, .posInf => .fin 0
  | .fin _, .negInf => .fin 0
  | .posInf, .fin b => if 0 ≤ b then .posInf else .negInf
  | .negInf, .fin b => if 0 ≤ b then .negInf else .posInf
  | _, _ => .nan

/-- The product of exact arithmetic. -/
def F64.exactMul : F64 → F64 → F64
  | .fin a, .fin b => .fin (a * b)
  | .nan, _ => .nan
  | _, .nan => .nan
  | .fin a, .posInf => if 0 < a then .posInf else if a < 0 then .negInf else .nan
  | .fin a, .negInf => if 0 < a then .negInf else if a < 0 then .posInf else .nan
  | .posInf, .fin b => if 0 < b then .posInf else if b < 0 then .negInf else .nan
  | .negInf, .fin b => if 0 < b then .negInf else if b < 0 then .posInf else .nan
  | .posInf, .posInf => .posInf
  | .negInf, .negInf => .posInf
  | .posInf, .negInf => .negInf
  | .negInf, .posInf => .negInf

/-- The order `x < y` of float64: false as soon as one side is NaN. -/
def F64.exactLt : F64 → F64 → Bool
  | .fin a, .fin b => decide (a < b)
  | .fin _, .posInf => true
  | .negInf, .fin _ => true
  | .negInf, .posInf => true
  | _, _ => false

/-- The order `x >= y` of float64: false as soon as one side is NaN. -/
def F64.exactGe : F64 → F64 → Bool
  | .fin a, .fin b => decide (b ≤ a)
  | .posInf, .fin _ => true
  | .posInf, .posInf => true
  | .posInf, .negInf => true
  | .fin _, .negInf => true
  | .negInf, .negInf => true
  | _, _ => false

/-- Exact arithmetic on the extended rationals.  It agrees with IEEE-754
wherever operands and result are representable without rounding, which is
the case at the concrete inputs evaluated below (small integers, halves).
The conversion to `int` of a value outside the 64-bit range, of an infinity
or of NaN yields the least 64-bit integer, as on amd64. -/
def exactArith : FloatArith where
  ofInt := fun n => .fin n
  div := F64.exactDiv
  mul := F64.exactMul
  lt := F64.exactLt
  ge := F64.exactGe
  ceilToInt := fun x =>
    match x with
    | .fin q => if -(2 : Int) ^ 63 ≤ Int.ceil q ∧ Int.ceil q < 2 ^ 63 then Int.ceil q
                else -(2 : Int) ^ 63
    | _ => -(2 : Int) ^ 63

/-- The integer nearest to `x`, the even one of the two when `x` lies half
way between them. -/
def F64.roundHalfEven (x : ℚ) : Int :=
  if x - ⌊x⌋ < 1 / 2 then ⌊x⌋
  else if 1 / 2 < x - ⌊x⌋ then ⌊x⌋ + 1
  else if ⌊x⌋ % 2 = 0 then ⌊x⌋ else ⌊x⌋ + 1

/-- The binary exponent of the last place of a float64 at the magnitude of
`q`: 52 places below the leading bit (53 significant bits), and `-1074`
for every magnitude below `2^-1022`. -/
def F64.ulpExp (q : ℚ) : Int := max (Int.log 2 |q|) (-1022) - 52

/-- The multiple of the last place that is nearest to `q`, ties going to the
even multiple: the value IEEE-754 rounding to nearest gives `q` in binary64
when the exponent range is not exceeded. -/
def F64.nearest (q : ℚ) : ℚ :=
  (F64.roundHalfEven (q / 2 ^ F64.ulpExp q) : ℚ) * 2 ^ F64.ulpExp q

/-- Rounding of an exact result to float64: the nearest value, and an
infinity when that value reaches `2^1024` in magnitude. -/
def F64.round (q : ℚ) : F64 :=
  if 2 ^ 1024 ≤ F64.nearest q then .posInf
  else if F64.nearest q ≤ -2 ^ 1024 then .negInf
  else .fin (F64.nearest q)

/-- The float64 arithmetic of Go (IEEE-754 binary64, round to nearest, ties
to even): each operation is the exact one followed by rounding.  The
comparisons are exact; `int(math.Ceil(x))` is as in `exactArith`.  The carrier
has a single zero, so the sign of a zero result is not kept. -/
def ieeeArith : FloatArith where
  ofInt := fun n => F64.round n
  div := fun x y =>
    match F64.exactDiv x y with
    | .fin q => F64.round q
    | z => z
  mul := fun x y =>
    match F64.exactMul x y with
    | .fin q => F64.round q
    | z => z
  lt := F64.exactLt
  ge := F64.exactGe
  ceilToInt := exactArith.ceilToInt

/-! ## Reports and metrics (types declared outside the files embedded here) -/

/-- Modelled from the spec: the declaration of the latency summary is not
among the source files; the report format gives it P50, P95, P99 and Mean.
Each is a `time.Duration`, a 64-bit count of nanoseconds. -/
structure LatencyMetrics where
  P50 : Int := 0
  P95 : Int := 0
  P99 : Int := 0
  Mean : Int := 0
deriving DecidableEq

/-- Modelled from the spec: the declaration of `Metrics` is not among the
source files; the report format gives it Requests, Errors, Rate and
Latencies.  The code uses `len(m.Errors)`, `m.Rate` as a float64 and
`m.Latencies.P50` as a duration, so `Errors` is the collection of recorded
errors. -/
structure Metrics where
  Requests : Nat := 0
  Errors : List String := []
  Rate : F64 := .fin 0
  Latencies : LatencyMetrics := {}
deriving DecidableEq

/-- Modelled from the spec: the declaration of `RunReport` is not among the
source files; its fields are those `Runner.reportMetrics` assigns.  The
timestamps are unix seconds, `Metrics` is the `map[string]*Metrics` keyed by
request label, `Output` the free-form output map. -/
structure RunReport where
  StartedAt : Int := 0
  FinishedAt : Int := 0
  Configuration : Config := {}
  Metrics : List (String × Metrics) := []
  Failed : Bool := false
  Output : List (String × String) := []
deriving DecidableEq

/-- The JSON encoding of reports (`json.MarshalIndent`, `json.Unmarshal`),
a parameter of the embedding; `none` is the error return. -/
structure JsonCodec where
  marshal : RunReport → Option String
  unmarshal : String → Option RunReport

/-! ## manager.go -/

/-- The files of the report directory: path to contents, `none` when no file
has that path.  The directory exists and is writable, so a write succeeds. -/
abbrev FS := String → Option String

/-- The effect of `ioutil.WriteFile` and of `os.Create` on the file store. -/
def FS.write (fs : FS) (path data : String) : FS :=
  fun q => if q = path then some data else fs q

/-- `filepath.Join(dir, name)` for a directory and a file name that are
already in clean form. -/
def Join (dir name : String) : String := dir ++ "/" ++ name

/-- `fmt.Sprintf(ReportFileTmpl, handleName, ts)` with
`ReportFileTmpl = "%s-%d.json"`. -/
def reportFileName (handleName : String) (ts : Int) : String :=
  handleName ++ "-" ++ Itoa ts ++ ".json"

/-- LoadManager manages data and finish criteria (manager.go): the fields
the embedded methods read or assign. -/
structure LoadManager where
  Reports : List (String × RunReport) := []
  ReportDir : String := "load/reports"
  Degradation : Bool := false
  Failed : Bool := false
deriving DecidableEq

/-- `NewLoadManager`: empty report map, `Degradation: false`, `Failed` at
its zero value. -/
def NewLoadManager : LoadManager := {}

/-- `createIfNotExists` (manager.go): `os.Stat` succeeds on an existing file
and the function ends in `log.Fatalf`; otherwise `os.Create` makes the file,
empty. -/
def createIfNotExists (fs : FS) (fname : String) : Except Abort Unit × FS :=
  match fs fname with
  | some _ => (.error .fatal, fs)
  | none => (.ok (), fs.write fname "")

/-- `LoadManager.WriteLastSuccess` (manager.go): `createIfNotExists` on
`<dir>/<handle>_last`, then `ioutil.WriteFile` of `strconv.Itoa(int(ts))`. -/
def LoadManager.WriteLastSuccess (m : LoadManager) (fs : FS) (handleName : String)
    (ts : Int) : Except Abort Unit × FS :=
  let lastSuccessFile := Join m.ReportDir (handleName ++ "_last")
  match createIfNotExists fs lastSuccessFile with
  | (.error e, fs1) => (.error e, fs1)
  | (.ok _, fs1) => (.ok (), fs1.write lastSuccessFile (Itoa ts))

/-- The body of the loop of `StoreHandleReports` over the entries of
`m.Reports`, in the order the map iteration yields them. -/
def LoadManager.storeLoop (m : LoadManager) (J : JsonCodec) (ts : Int) :
    List (String × RunReport) → FS → Except Abort Unit × FS
  | [], fs => (.ok (), fs)
  | (handleName, r) :: rest, fs =>
    match J.marshal r with
    | none => (.error .fatal, fs)
    | some b =>
      let repPath := Join m.ReportDir (reportFileName handleName ts)
      let fs1 := fs.write repPath b
      if !m.Degradation then
        match m.WriteLastSuccess fs1 handleName ts with
        | (.error e, fs2) => (.error e, fs2)
        | (.ok _, fs2) => m.storeLoop J ts rest fs2
      else m.storeLoop J ts rest fs1

/-- StoreHandleReports stores report for every handle in suite (manager.go);
`ts` is `time.Now().Unix()`. -/
def LoadManager.StoreHandleReports (m : LoadManager) (J : JsonCodec) (ts : Int) (fs : FS) :
    Except Abort Unit × FS :=
  m.storeLoop J ts m.Reports fs

/-- The loop of `CheckErrors`: `currentReport.Metrics[handleName]` is a nil
`*Metrics` when the label is absent, and reading `.Errors` through it
panics. -/
def LoadManager.checkErrorsLoop : List (String × RunReport) → LoadManager →
    Except Abort LoadManager
  | [], m => .ok m
  | (handleName, currentReport) :: rest, m =>
    match currentReport.Metrics.lookup handleName with
    | none => .error .panic
    | some b =>
      if b.Errors.length > 0 then checkErrorsLoop rest { m with Failed := true }
      else checkErrorsLoop rest m

/-- CheckErrors check errors logic (manager.go). -/
def LoadManager.CheckErrors (m : LoadManager) : Except Abort LoadManager :=
  LoadManager.checkErrorsLoop m.Reports m

/-- LastSuccessReportForHandle gets last successful report for a handle
(manager.go).  `.ok none` is the return `(nil, err)` with `os.IsNotExist(err)`
when `<handle>_last` is absent; a missing or undecodable report file ends in
`log.Fatal`. -/
def LoadManager.LastSuccessReportForHandle (m : LoadManager) (J : JsonCodec) (fs : FS)
    (handleName : String) : Except Abort (Option RunReport) :=
  match fs (Join m.ReportDir (handleName ++ "_last")) with
  | none => .ok none
  | some lastTs =>
    match fs (Join m.ReportDir (handleName ++ "-" ++ lastTs ++ ".json")) with
    | none => .error .fatal
    | some data =>
      match J.unmarshal data with
      | none => .error .fatal
      | some runReport => .ok (some runReport)

/-- `time.Millisecond` as a `time.Duration` (nanoseconds). -/
def Millisecond : Int := 1000000

/-- The test `float64(currentMean)/float64(lastMean) >= handleThreshold` of
`CheckDegradation`, with `currentMean` and `lastMean` the two p50 durations
divided by `time.Millisecond` in integer arithmetic. -/
def degraded (A : FloatArith) (handleThreshold : F64) (current last : Metrics) : Bool :=
  let currentMean := goDiv current.Latencies.P50 Millisecond
  let lastMean := goDiv last.Latencies.P50 Millisecond
  A.ge (A.div (A.ofInt currentMean) (A.ofInt lastMean)) handleThreshold

/-- The loop of `CheckDegradation` over the entries of `m.Reports`. -/
def LoadManager.checkDegradationLoop (A : FloatArith) (J : JsonCodec) (handleThreshold : F64)
    (fs : FS) : List (String × RunReport) → LoadManager → Except Abort LoadManager
  | [], m => .ok m
  | (handleName, currentReport) :: rest, m =>
    match m.LastSuccessReportForHandle J fs handleName with
    | .error e => .error e
    | .ok none => checkDegradationLoop A J handleThreshold fs rest m
    | .ok (some lastReport) =>
      match lastReport.Metrics.lookup handleName with
      | none => .error .fatal
      | some last =>
        match currentReport.Metrics.lookup handleName with
        | none => .error .fatal
        | some current =>
          if degraded A handleThreshold current last then
            checkDegradationLoop A J handleThreshold fs rest { m with Degradation := true }
          else checkDegradationLoop A J handleThreshold fs rest m

/-- CheckDegradation checks handle performance degradation to last successful
run stored in `<handle>_last` (manager.go); `handleThreshold` is
`viper.GetFloat64("checks.handle_threshold_percent")`. -/
def LoadManager.CheckDegradation (m : LoadManager) (A : FloatArith) (J : JsonCodec)
    (handleThreshold : F64) (fs : FS) : Except Abort LoadManager :=
  LoadManager.checkDegradationLoop A J handleThreshold fs m.Reports m

/-! ## suite.go -/

/-- The part of `CIRun` that follows `lm.RunSuite()`: `CheckDegradation`,
`StoreHandleReports`, then `os.Exit(1)` when `lm.Degradation || lm.Failed`.
The result is the exit status of the process (1 after `log.Fatal`, 2 after a
panic, 0 when `CIRun` returns) and the file store it leaves. -/
def CIRun.afterRunSuite (lm : LoadManager) (A : FloatArith) (J : JsonCodec)
    (handleThreshold : F64) (ts : Int) (fs : FS) : Int × FS :=
  match lm.CheckDegradation A J handleThreshold fs with
  | .error .fatal => (1, fs)
  | .error .panic => (2, fs)
  | .ok lm1 =>
    match lm1.StoreHandleReports J ts fs with
    | (.error .fatal, fs1) => (1, fs1)
    | (.error .panic, fs1) => (2, fs1)
    | (.ok _, fs1) => if lm1.Degradation || lm1.Failed then (1, fs1) else (0, fs1)

/-- `CIRun` (suite.go) on the reports the runners insert during `RunSuite`:
`SuiteFromHandles` starts from `NewLoadManager`, and `RunSuite` assigns
neither `Failed` nor `Degradation`, so the manager after `RunSuite` is the
new manager with its `Reports` filled. -/
def CIRun (reports : List (String × RunReport)) (A : FloatArith) (J : JsonCodec)
    (handleThreshold : F64) (ts : Int) (fs : FS) : Int × FS :=
  CIRun.afterRunSuite { NewLoadManager with Reports := reports } A J handleThreshold ts fs

/-! ## runner.go and rampup.go -/

/-- Modelled from the spec: the declaration of `DoResult` is not among the
source files; a result record carries the request label assigned by the
attacker, a status code and an error, if any. -/
structure DoResult where
  RequestLabel : String := ""
  StatusCode : Int := 0
  Error : Option String := none
deriving DecidableEq

/-- Modelled from the spec: the declaration of `result` is not among the
source files; `attack` fills it with the `DoResult`, the begin and end
timestamps and the elapsed duration (here in nanoseconds). -/
structure result where
  doResult : DoResult := {}
  begin : Int := 0
  end_ : Int := 0
  elapsed : Int := 0
deriving DecidableEq

/-- The two methods of `Metrics` the runner calls, `add` and
`updateLatencies`; their bodies are not among the source files, so they are
parameters of the embedding. -/
structure MetricsOps where
  add : Metrics → result → Metrics
  updateLatencies : Metrics → Metrics

/-- The optional lifecycle interfaces of the prototype attacker.  `none`:
the prototype does not implement the interface.  `BeforeRun` returns an
error or nil; `AfterRun` receives a pointer to a report, so it is embedded
as the report it leaves behind together with the error it returns. -/
structure Prototype where
  BeforeRun : Option (Config → Option String) := none
  AfterRun : Option (RunReport → RunReport × Option String) := none

/-- What the runner does that is visible from outside, in order. -/
inductive Event where
  /-- `BeforeRun(c)` was called on the prototype -/
  | beforeRun (c : Config)
  /-- `prototype.Clone()` returned its `id`-th clone -/
  | clone (id : Nat)
  /-- `Setup` of clone `id` returned an error -/
  | setupFailed (id : Nat)
  /-- clone `id` was appended to the pool and its worker started; `pool`
  is the size of the pool after the append -/
  | spawned (id : Nat) (pool : Nat)
  /-- `ratelimit.New(rps)` -/
  | limiter (rps : Int)
  /-- one send `r.next <- true` -/
  | go
  /-- one send `r.quit <- true` -/
  | quit
  /-- `Teardown` was called on clone `id` -/
  | teardown (id : Nat)
  /-- `AfterRun(&report)` was called on the prototype -/
  | afterRun
deriving DecidableEq

/-- What the environment decides during a run: the outcome of `Setup` for
each clone, how many times each timed loop gets round before its deadline,
which results reach the collector and what the ramp-local aggregator shows
at the end of each ramp-up second, and the clock readings stored in the
report. -/
structure World where
  /-- whether `Setup` succeeds for the `id`-th clone -/
  setupOk : Nat → Bool
  /-- iterations of the one-second loop of ramp-up second `s` -/
  rampTicks : Int → Nat
  /-- results the collector routes during ramp-up second `s` -/
  rampResults : Int → List result
  /-- the ramp-local `Metrics` of second `s` after `updateLatencies` -/
  rampMetrics : Int → Metrics
  /-- iterations of the loop of `fullAttack` -/
  fullTicks : Nat
  /-- results the collector routes after ramp-up, before the report -/
  fullResults : List result
  /-- the package variable `fullAttackStartedAt` when the report is made -/
  fullAttackStartedAt : Int
  /-- `time.Now()` when the report is made -/
  finishedAt : Int

/-- The function stored in `Runner.resultsPipeline`: the method `addResult`,
or the closure `takeDuringOneRampupSecond` installs for ramp-up second
`second`, which adds to that second's local `Metrics` only. -/
inductive Pipeline where
  | addResult
  | rampLocal (second : Int)
deriving DecidableEq

/-- `Runner` (runner.go).  The attackers are named by clone number; the
channels are represented by the sends recorded in `log`, and `clones`
counts the calls of `prototype.Clone()` so far. -/
structure Runner where
  name : String := ""
  sequence : Int := 0
  config : Config := {}
  attackers : List Nat := []
  prototype : Prototype := {}
  metrics : List (String × Metrics) := []
  resultsPipeline : Pipeline := .addResult
  clones : Nat := 0
  log : List Event := []

/-- The fields `NewRunner` assigns, followed by `Runner.init`: empty pool,
empty metrics map, pipeline `addResult`. -/
def Runner.init (name : String) (a : Prototype) (c : Config) : Runner :=
  { name := name, sequence := c.SequenceNum, config := c, attackers := [], prototype := a,
    metrics := [], resultsPipeline := .addResult }

/-- `Runner.spawnAttacker` (runner.go): clone the prototype, call `Setup`;
on error return without touching the pool, otherwise append the attacker and
start its worker. -/
def Runner.spawnAttacker (w : World) (r : Runner) : Runner :=
  let id := r.clones
  let r1 := { r with clones := id + 1, log := r.log ++ [Event.clone id] }
  if w.setupOk id then
    { r1 with attackers := r1.attackers ++ [id],
              log := r1.log ++ [Event.spawned id (r1.attackers.length + 1)] }
  else
    { r1 with log := r1.log ++ [Event.setupFailed id] }

/-- The loop `for s := len(r.attackers); s < routines; s++ { r.spawnAttacker() }`
with `n` iterations left: the counter `s` advances once per attempt, whether
or not the attempt added an attacker. -/
def spawnLoop (w : World) : Nat → Runner → Runner
  | 0, r => r
  | n + 1, r => spawnLoop w n (r.spawnAttacker w)

/-- `spawnAttackersToSize` (rampup.go): cap `count` at `MaxAttackers`, then
attempt one spawn for each number from `len(r.attackers)` up to the cap. -/
def spawnAttackersToSize (w : World) (r : Runner) (count : Int) : Runner :=
  let routines := if count > r.config.MaxAttackers then r.config.MaxAttackers else count
  spawnLoop w (routines - (r.attackers.length : Int)).toNat r

/-- The collector applying the current pipeline to one result: `addResult`
looks up the bucket of the request label, creates it when absent, and adds
the result to it; the ramp-local closure leaves the runner alone. -/
def Runner.route (M : MetricsOps) (r : Runner) (s : result) : Runner :=
  match r.resultsPipeline with
  | .rampLocal _ => r
  | .addResult =>
    match r.metrics.lookup s.doResult.RequestLabel with
    | some m =>
      { r with metrics := r.metrics.map (fun p =>
          if p.1 = s.doResult.RequestLabel then (p.1, M.add m s) else p) }
    | none =>
      { r with metrics := r.metrics ++ [(s.doResult.RequestLabel, M.add {} s)] }

/-- `Runner.collectResults` (runner.go) over the results that arrive in a
phase: each is routed by the pipeline in force. -/
def Runner.collectResults (M : MetricsOps) (r : Runner) (results : List result) : Runner :=
  results.foldl (fun r s => r.route M s) r

/-- `takeDuringOneRampupSecond` (rampup.go).  With an empty pool it returns
`(0, new(Metrics))` at once.  Otherwise it installs the ramp-local pipeline,
computes `rps := second * r.config.RPS / r.config.RampUpTimeSec` in 64-bit
arithmetic (1 when that is 0), creates a limiter at `rps`, sends go signals
for one second and returns `rps` with the second's metrics. -/
def takeDuringOneRampupSecond (M : MetricsOps) (w : World) (r : Runner) (second : Int) :
    (Int × Metrics) × Runner :=
  if r.attackers.length = 0 then ((0, {}), r)
  else
    let r1 := { r with resultsPipeline := Pipeline.rampLocal second }
    let rps := goDiv (wrap64 (second * r1.config.RPS)) r1.config.RampUpTimeSec
    let rps := if rps = 0 then 1 else rps
    let r2 := { r1 with log := r1.log ++ Event.limiter rps ::
                  List.replicate (w.rampTicks second) Event.go }
    let r3 := r2.collectResults M (w.rampResults second)
    ((rps, w.rampMetrics second), r3)

/-- The loop `for i := 1; i <= RampUpTimeSec; i++` of the linear strategy,
with `n` iterations left and counter `i`. -/
def linearLoop (M : MetricsOps) (w : World) : Nat → Int → Runner → Runner
  | 0, _, r => r
  | n + 1, i, r =>
    let r1 := spawnAttackersToSize w r
      (goDiv (wrap64 (i * r.config.MaxAttackers)) r.config.RampUpTimeSec)
    let r2 := (takeDuringOneRampupSecond M w r1 i).2
    linearLoop M w n (i + 1) r2

/-- `linearIncreasingGoroutinesAndRequestsPerSecondStrategy.execute`
(rampup.go). -/
def linearExecute (M : MetricsOps) (w : World) (r : Runner) : Runner :=
  linearLoop M w r.config.RampUpTimeSec.toNat 1 (r.spawnAttacker w)

/-- The loop `for i := 1; i <= RampUpTimeSec; i++` of the exp2 strategy,
with `n` iterations left and counter `i`; `factor > 2.0` is `2.0 < factor`. -/
def exp2Loop (A : FloatArith) (M : MetricsOps) (w : World) : Nat → Int → Runner → Runner
  | 0, _, r => r
  | n + 1, i, r =>
    let out := takeDuringOneRampupSecond M w r i
    let targetRate := out.1.1
    let currentRate := out.1.2.Rate
    let r1 := out.2
    let r2 :=
      if A.lt currentRate (A.ofInt targetRate) then
        let factor := A.div (A.ofInt targetRate) currentRate
        let factor := if A.lt (F64.fin 2) factor then F64.fin 2 else factor
        spawnAttackersToSize w r1
          (wrap64 (A.ceilToInt (A.mul (A.ofInt (r1.attackers.length : Int)) factor)))
      else r1
    exp2Loop A M w n (i + 1) r2

/-- `spawnAsWeNeedStrategy.execute` (rampup.go). -/
def exp2Execute (A : FloatArith) (M : MetricsOps) (w : World) (r : Runner) : Runner :=
  exp2Loop A M w r.config.RampUpTimeSec.toNat 1 (r.spawnAttacker w)

/-- `defaultRampupStrategy` (rampup.go). -/
def defaultRampupStrategy : String := "exp2"

/-- `Config.rampupStrategy` (config.go). -/
def Config.rampupStrategy (c : Config) : String :=
  if c.RampUpStrategy.length = 0 then defaultRampupStrategy else c.RampUpStrategy

/-- `Runner.rampUp` (runner.go): run the strategy named by the configuration
(nothing for a name that is neither "linear" nor "exp2"), then restore the
pipeline to `addResult`. -/
def Runner.rampUp (A : FloatArith) (M : MetricsOps) (w : World) (r : Runner) : Runner :=
  let strategy := r.config.rampupStrategy
  let r1 :=
    if strategy = "linear" then linearExecute M w r
    else if strategy = "exp2" then exp2Execute A M w r
    else r
  { r1 with resultsPipeline := Pipeline.addResult }

/-- `Runner.fullAttack` (runner.go): return at once on an empty pool;
otherwise create a limiter at `RPS` and send go signals until the deadline. -/
def Runner.fullAttack (w : World) (r : Runner) : Runner :=
  if r.attackers.length = 0 then r
  else { r with log := r.log ++ Event.limiter r.config.RPS ::
           List.replicate w.fullTicks Event.go }

/-- `Runner.quitAttackers` (runner.go): one quit signal per attacker. -/
def Runner.quitAttackers (r : Runner) : Runner :=
  { r with log := r.log ++ r.attackers.map (fun _ => Event.quit) }

/-- `Runner.tearDownAttackers` (runner.go): `Teardown` on each attacker of
the pool; an error is logged only. -/
def Runner.tearDownAttackers (r : Runner) : Runner :=
  { r with log := r.log ++ r.attackers.map Event.teardown }

/-- `Runner.reportMetrics` (runner.go): `updateLatencies` on every bucket,
then a new report with `Failed: false` and an empty `Output` map. -/
def Runner.reportMetrics (M : MetricsOps) (w : World) (r : Runner) : RunReport :=
  { StartedAt := w.fullAttackStartedAt,
    FinishedAt := w.finishedAt,
    Configuration := r.config,
    Metrics := r.metrics.map (fun p => (p.1, M.updateLatencies p.2)),
    Failed := false,
    Output := [] }

/-- The map assignment `m[k] = v` on an association list. -/
def mapSet {β : Type} (m : List (String × β)) (k : String) (v : β) : List (String × β) :=
  (k, v) :: m.filter (fun p => p.1 ≠ k)

/-- `Runner.Run` (runner.go): `BeforeRun` when implemented (an error is
fatal), ramp-up, full attack, quit, teardown; then `report := RunReport{}`
is handed to `AfterRun` when implemented (an error is fatal); finally
`lm.Reports[r.name] = r.reportMetrics()`.  The result also carries the local
variable `report` as `AfterRun` left it. -/
def Runner.Run (A : FloatArith) (M : MetricsOps) (w : World) (r : Runner) (lm : LoadManager) :
    Except Abort (Runner × LoadManager × RunReport) :=
  let before : Except Abort Runner :=
    match r.prototype.BeforeRun with
    | none => .ok r
    | some f =>
      match f r.config with
      | some _ => .error .fatal
      | none => .ok { r with log := r.log ++ [Event.beforeRun r.config] }
  match before with
  | .error e => .error e
  | .ok r0 =>
    let r1 := r0.rampUp A M w
    let r2 := r1.fullAttack w
    let r3 := r2.collectResults M w.fullResults
    let r4 := r3.quitAttackers
    let r5 := r4.tearDownAttackers
    let report : RunReport := {}
    let after : Except Abort (Runner × RunReport) :=
      match r5.prototype.AfterRun with
      | none => .ok (r5, report)
      | some f =>
        match f report with
        | (_, some _) => .error .fatal
        | (report1, none) => .ok ({ r5 with log := r5.log ++ [Event.afterRun] }, report1)
    match after with
    | .error e => .error e
    | .ok (r6, report1) =>
      .ok (r6, { lm with Reports := mapSet lm.Reports r6.name (r6.reportMetrics M w) }, report1)

/-- One iteration of the loop of the linear strategy for counter `i`:
`spawnAttackersToSize(r, i*MaxAttackers/RampUpTimeSec)` followed by
`takeDuringOneRampupSecond(r, i)`. -/
def linearStep (M : MetricsOps) (w : World) (i : Int) (r : Runner) : Runner :=
  (takeDuringOneRampupSecond M w
    (spawnAttackersToSize w r
      (goDiv (wrap64 (i * r.config.MaxAttackers)) r.config.RampUpTimeSec)) i).2

/-- The argument `int(math.Ceil(float64(len(r.attackers))*factor))` the exp2
strategy passes to `spawnAttackersToSize`, for a pool of `n` attackers, a
target rate and an achieved rate: `factor` is the quotient of the two rates,
replaced by 2.0 when it is greater than 2.0. -/
def exp2Count (A : FloatArith) (n : Nat) (targetRate : Int) (currentRate : F64) : Int :=
  wrap64 (A.ceilToInt (A.mul (A.ofInt (n : Int))
    (if A.lt (F64.fin 2) (A.div (A.ofInt targetRate) currentRate) = true then F64.fin 2
      else A.div (A.ofInt targetRate) currentRate)))

/-- One iteration of the loop of the exp2 strategy for counter `i`:
`takeDuringOneRampupSecond(r, i)`, then, when the achieved rate is below the
target rate, `spawnAttackersToSize` with the count of `exp2Count`. -/
def exp2Step (A : FloatArith) (M : MetricsOps) (w : World) (i : Int) (r : Runner) : Runner :=
  let out := takeDuringOneRampupSecond M w r i
  if A.lt out.1.2.Rate (A.ofInt out.1.1) = true then
    spawnAttackersToSize w out.2 (exp2Count A out.2.attackers.length out.1.1 out.1.2.Rate)
  else out.2

/-- The pool size the documentation gives for the end of a ramp-up second
with `n` attackers, target rate `t` and achieved rate `a` below it:
`min(MaxAttackers, ceil(n * min(2, t / a)))` in exact arithmetic, an achieved
rate of 0 giving factor 2. -/
def exp2GrowthSpec (maxAttackers : Int) (n : Nat) (t : Int) (a : ℚ) : Int :=
  min maxAttackers ⌈(n : ℚ) * (if a = 0 then 2 else min 2 ((t : ℚ) / a))⌉

/-- Facts of float64 arithmetic (IEEE-754 binary64) that the ramp-up relies
on; none of them involves a rounded result.  `0 < 0` is false and `0 < t`
is true for an integer `t >= 1`; a quotient of a positive integer by zero
is +Inf, which is greater than 2; `int(x)` is
a 64-bit integer; and for a pool of at most `2^53` attackers (so that both
the pool size and its double are represented exactly) the product with 2
rounds up to exactly the double, and the product with a factor that is not
greater than 2 rounds up to at most the double. -/
structure FloatArith.Sound (A : FloatArith) : Prop where
  zero_not_lt_zero : A.lt (F64.fin 0) (A.ofInt 0) = false
  div_zero : ∀ t : Int, 1 ≤ t → A.div (A.ofInt t) (F64.fin 0) = F64.posInf
  two_lt_inf : A.lt (F64.fin 2) F64.posInf = true
  zero_lt_pos : ∀ t : Int, 1 ≤ t → A.lt (F64.fin 0) (A.ofInt t) = true
  ceil_range : ∀ x : F64, -(2 : Int) ^ 63 ≤ A.ceilToInt x ∧ A.ceilToInt x < 2 ^ 63
  ceil_double : ∀ n : Nat, n ≤ 2 ^ 53 →
    A.ceilToInt (A.mul (A.ofInt (n : Int)) (F64.fin 2)) = 2 * (n : Int)
  ceil_capped : ∀ (n : Nat) (f : F64), n ≤ 2 ^ 53 → A.lt (F64.fin 2) f = false →
    A.ceilToInt (A.mul (A.ofInt (n : Int)) f) ≤ 2 * (n : Int)

/-- The runner has an empty pool, has sent no go signal and has an empty
metrics map. -/
def Runner.Idle (r : Runner) : Prop :=
  r.attackers = [] ∧ Event.go ∉ r.log ∧ r.metrics = []

/-- Every attacker of the pool, every clone whose worker was started and
every clone on which `Teardown` was called is a clone whose `Setup` returned
no error. -/
def Runner.AllSetUp (w : World) (r : Runner) : Prop :=
  (∀ id ∈ r.attackers, w.setupOk id = true) ∧
    (∀ id pool, Event.spawned id pool ∈ r.log → w.setupOk id = true) ∧
    (∀ id, Event.teardown id ∈ r.log → w.setupOk id = true)

/-- The pool of `r` holds at most `max` attackers now, and held at most
`max` after every spawn recorded in its log. -/
def Runner.PoolWithin (r : Runner) (max : Int) : Prop :=
  (r.attackers.length : Int) ≤ max ∧
    ∀ id pool, Event.spawned id pool ∈ r.log → (pool : Int) ≤ max

/-! ## utils.go, the sequence mode of RunSuite, and the flag overrides -/

/-- One pass of the inner loop of insertion sort with the comparison
`less(i, j) = groups[i].sequence < groups[j].sequence`: the new element `x`
is moved left past every runner whose sequence number is greater than its
own, i.e. it is placed before the first such runner. -/
def insertBySequence (x : Runner) : List Runner → List Runner
  | [] => [x]
  | y :: l => if x.sequence < y.sequence then x :: y :: l else y :: insertBySequence x l

/-- `SortGroupsBySequenceNum` (utils.go): `sort.Slice` with the comparison
`groups[i].sequence < groups[j].sequence`, embedded as the insertion sort
`sort.Slice` runs on slices of up to 12 elements.  (On longer slices
`sort.Slice` switches to other strategies, which may order runners of equal
sequence number differently; what is proved below, a permutation ascending
by sequence number, is the contract of `sort.Slice`.) -/
def SortGroupsBySequenceNum (groups : List Runner) : List Runner :=
  groups.foldl (fun sorted x => insertBySequence x sorted) []

/-- The loop `for _, r := range m.Groups { r.SetupHandleStore(m); r.Run(nil, m) }`
of the sequence mode of `RunSuite`: each runner gets the manager the
previous `Run` left.  `store r` is the outcome of `r.SetupHandleStore(m)`,
which opens the csv files of the configuration and ends in `log.Fatalf` when
that fails; `W name` is the environment of the run of runner `name`.  The
first component of the result lists the names of the runners whose `Run` was
called, in the order of the calls. -/
def LoadManager.runGroups (A : FloatArith) (M : MetricsOps) (W : String → World)
    (store : Runner → Except Abort Unit) : List Runner → LoadManager →
    List String × Except Abort LoadManager
  | [], lm => ([], .ok lm)
  | r :: rest, lm =>
    match store r with
    | .error e => ([], .error e)
    | .ok _ =>
      match r.Run A M (W r.name) lm with
      | .error e => ([r.name], .error e)
      | .ok (_, lm2, _) =>
        let out := LoadManager.runGroups A M W store rest lm2
        (r.name :: out.1, out.2)

/-- The branch `mode == "sequence"` of `LoadManager.RunSuite` (manager.go):
`SortGroupsBySequenceNum(m.Groups)`, then the runners one after the other. -/
def LoadManager.RunSuiteSequence (A : FloatArith) (M : MetricsOps) (W : String → World)
    (store : Runner → Except Abort Unit) (groups : List Runner) (lm : LoadManager) :
    List String × Except Abort LoadManager :=
  LoadManager.runGroups A M W store (SortGroupsBySequenceNum groups) lm

/-- The flag name `fRPS`. -/
def fRPS : String := "rps"

/-- The flag name `fAttackTime`. -/
def fAttackTime : String := "attack"

/-- The flag name `fRampupTime`. -/
def fRampupTime : String := "ramp"

/-- The flag name `fMaxAttackers`. -/
def fMaxAttackers : String := "max"

/-- The flag name `fOutput`. -/
def fOutput : String := "o"

/-- The flag name `fVerbose`. -/
def fVerbose : String := "verbose"

/-- The flag name `fDoTimeout`. -/
def fDoTimeout : String := "timeout"

/-- The values of the command-line flags of config.go (`*oRPS`, ...), after
`flag.Parse`. -/
structure Flags where
  oRPS : Int := 1
  oAttackTime : Int := 60
  oRampupTime : Int := 10
  oMaxAttackers : Int := 10
  oOutput : String := ""
  oVerbose : Bool := false
  oSample : Int := 0
  oRampupStrategy : String := "exp2"
  oDoTimeout : Int := 5

/-- The function `applyFlagOverrides` hands to `flag.Visit`: a `switch` on
the name of the visited flag. -/
def applyFlag (F : Flags) (c : Config) (name : String) : Config :=
  if name = fRPS then { c with RPS := F.oRPS }
  else if name = fAttackTime then { c with AttackTimeSec := F.oAttackTime }
  else if name = fRampupTime then { c with RampUpTimeSec := F.oRampupTime }
  else if name = fVerbose then { c with Verbose := F.oVerbose }
  else if name = fMaxAttackers then { c with MaxAttackers := F.oMaxAttackers }
  else if name = fOutput then { c with OutputFilename := F.oOutput }
  else if name = fDoTimeout then { c with DoTimeoutSec := F.oDoTimeout }
  else c

/-- `applyFlagOverrides` (config.go): `flag.Visit` calls the function once
for each flag that was set on the command line; `visited` lists the names of
those flags in the order of the visit. -/
def applyFlagOverrides (F : Flags) (visited : List String) (c : Config) : Config :=
  visited.foldl (applyFlag F) c

/-! ## attack.go (the record of one invocation) and NewRunner -/

/-- `errAttackDoTimedOut` (attack.go). -/
def errAttackDoTimedOut : String := "Attack Do(ctx) timedout"

/-- The record `attack` (attack.go) sends on the results channel after one go
signal.  `timedOut` tells which case of the inner `select` was taken,
`<-ctx.Done()` (true: `dor = DoResult{Error: errAttackDoTimedOut}`) or
`dor = <-done` (false), and `d` is what the attacker's `Do` returns;
`elapsed` is `end.Sub(begin)`. -/
def attackRecord (timedOut : Bool) (d : DoResult) (begin end_ : Int) : result :=
  let dor : DoResult := if timedOut then { Error := some errAttackDoTimedOut } else d
  { doResult := dor, begin := begin, end_ := end_, elapsed := end_ - begin }

/-- `NewRunner` (runner.go); `oSample` is the value of the flag `-t`.  The
error is the exit status of the process: `os.Exit(0)` after the problems of
an invalid configuration are printed, 1 after `log.Fatalln` when `BeforeRun`
or `AfterRun` returns an error, `os.Exit(0)` at the end of sample mode.
Otherwise the runner is returned after `r.init()`, its log holding the call
of `BeforeRun` when the prototype implements it. -/
def NewRunner (name : String) (a : Prototype) (c : Config) (oSample : Int) :
    Except Int Runner :=
  if c.Validate.length > 0 then .error 0
  else
    let before : Except Int (List Event) :=
      match a.BeforeRun with
      | none => .ok []
      | some f =>
        match f c with
        | some _ => .error 1
        | none => .ok [Event.beforeRun c]
    match before with
    | .error e => .error e
    | .ok log =>
      if oSample > 0 then
        match a.AfterRun with
        | none => .error 0
        | some f =>
          match f {} with
          | (_, some _) => .error 1
          | (_, none) => .error 0
      else .ok { Runner.init name a c with log := log }

/-- The events that are calls of the lifecycle hooks `BeforeRun` and
`AfterRun`. -/
def Event.isHook : Event → Bool
  | .beforeRun _ => true
  | .afterRun => true
  | _ => false

/-- Runner `r2` is `r` after steps that leave name, configuration, prototype
and metrics map as they are and add no hook call to the log. -/
def Runner.Advances (r r2 : Runner) : Prop :=
  r2.name = r.name ∧ r2.config = r.config ∧ r2.prototype = r.prototype ∧
    r2.metrics = r.metrics ∧
    ∃ ext : List Event, r2.log = r.log ++ ext ∧ ∀ e ∈ ext, e.isHook = false

/-- The middle of `Runner.Run`, between the two hooks: ramp-up, full attack
(with the results the collector routes meanwhile), quit and teardown, in
that order. -/
def Runner.phases (A : FloatArith) (M : MetricsOps) (w : World) (r : Runner) : Runner :=
  ((((r.rampUp A M w).fullAttack w).collectResults M w.fullResults).quitAttackers).tearDownAttackers

/-- The runner after the call of `BeforeRun` at the start of `Run`, when the
prototype implements it and the call returns no error. -/
def Runner.beforeRunStep (r : Runner) : Runner :=
  if r.prototype.BeforeRun.isSome then { r with log := r.log ++ [Event.beforeRun r.config] }
  else r

/-- The runner after the call of `AfterRun` near the end of `Run`, when the
prototype implements it and the call returns no error. -/
def Runner.afterRunStep (r : Runner) : Runner :=
  if r.prototype.AfterRun.isSome then { r with log := r.log ++ [Event.afterRun] }
  else r

/-! ## Concrete inputs -/

/-- A configuration that satisfies the five checks of `Validate` while its
ramp-up (3 s) is longer than its attack (2 s). -/
def cfgRampBeyondAttack : Config :=
  { HandleName := "h", RPS := 1, AttackTimeSec := 2, RampUpTimeSec := 3,
    MaxAttackers := 1, DoTimeoutSec := 1 }

/-- A JSON codec given by a table of (text, report) pairs: a report encodes
to the text listed with it and a text decodes to the report listed with
it. -/
def tableCodec (table : List (String × RunReport)) : JsonCodec where
  marshal := fun r => (table.find? (fun p => decide (p.2 = r))).map (fun p => p.1)
  unmarshal := fun s => table.lookup s

/-- The report directory with no file in it. -/
def emptyFS : FS := fun _ => none

/-- A report of handle "h" whose own bucket has no error and whose bucket
under the request label "other" has one. -/
def reportErrorUnderOtherLabel : RunReport :=
  { Metrics := [("h", { Requests := 5 }), ("other", { Requests := 1, Errors := ["boom"] })] }

/-- A manager after a run of the single handle "h" that produced
`reportErrorUnderOtherLabel`. -/
def mgrErrorUnderOtherLabel : LoadManager :=
  { Reports := [("h", reportErrorUnderOtherLabel)] }

/-- A report of handle "h" whose own bucket recorded an error. -/
def reportWithError : RunReport :=
  { Metrics := [("h", { Requests := 3, Errors := ["boom"] })] }

/-- A report of handle "h" with a p50 of 1.9 ms (1 900 000 ns). -/
def reportP50Current : RunReport :=
  { Metrics := [("h", { Requests := 10, Latencies := { P50 := 1900000 } })] }

/-- A report of handle "h" with a p50 of 1 ms (1 000 000 ns). -/
def reportP50Baseline : RunReport :=
  { Metrics := [("h", { Requests := 10, Latencies := { P50 := 1000000 } })] }

/-- A report directory holding the baseline of handle "h": the marker
`h_last` with stamp 100 and the report file `h-100.json`. -/
def fsWithBaseline : FS :=
  (emptyFS.write "load/reports/h_last" "100").write "load/reports/h-100.json" "baseline"

/-- The codec under which the text "baseline" is `reportP50Baseline` and
the text "current" is `reportP50Current`. -/
def baselineCodec : JsonCodec :=
  tableCodec [("baseline", reportP50Baseline), ("current", reportP50Current)]

/-- A manager holding the current report of handle "h". -/
def mgrP50Current : LoadManager := { Reports := [("h", reportP50Current)] }

/-- A manager with `Failed` set and `Degradation` clear, holding one report
of handle "h". -/
def mgrFailedNotDegraded : LoadManager :=
  { Reports := [("h", reportP50Current)], Failed := true, Degradation := false }

/-- A manager with `Degradation` set, holding one report of handle "h". -/
def mgrDegraded : LoadManager :=
  { Reports := [("h", reportP50Current)], Degradation := true }

/-- A report directory in which `h_last` exists from an earlier successful
run (stamp 100). -/
def fsWithMarker : FS := emptyFS.write "load/reports/h_last" "100"

/-- A stand-in for the methods of `Metrics`: `add` counts the request and
records the error text, if any; `updateLatencies` changes nothing. -/
def countingOps : MetricsOps where
  add := fun m s =>
    { m with Requests := m.Requests + 1,
             Errors := match s.doResult.Error with
               | some e => m.Errors ++ [e]
               | none => m.Errors }
  updateLatencies := fun m => m

/-- An environment in which every `Setup` succeeds, each ramp-up second gets
two go signals and shows an achieved rate of 0, and the full attack gets
three go signals whose results carry the label "h". -/
def steadyWorld : World where
  setupOk := fun _ => true
  rampTicks := fun _ => 2
  rampResults := fun _ => []
  rampMetrics := fun _ => {}
  fullTicks := 3
  fullResults := [{ doResult := { RequestLabel := "h" } }, { doResult := { RequestLabel := "h" } },
    { doResult := { RequestLabel := "h" } }]
  fullAttackStartedAt := 10
  finishedAt := 20

/-- A valid configuration with a single attacker allowed, linear ramp-up of
2 s within an attack of 4 s. -/
def cfgOneAttacker : Config :=
  { HandleName := "h", RPS := 3, AttackTimeSec := 4, RampUpTimeSec := 2,
    RampUpStrategy := "linear", MaxAttackers := 1, DoTimeoutSec := 1 }

/-- A prototype whose `AfterRun` sets `Failed` and stores one entry in
`Output`, returning no error. -/
def protoAfterRunMarks : Prototype :=
  { AfterRun := some (fun rep =>
      ({ rep with Failed := true, Output := rep.Output ++ [("checked", "yes")] }, none)) }

/-- A configuration that passes `Validate` with `RPS = 2^62` and a ramp-up
of 2 s. -/
def cfgHugeRPS : Config :=
  { HandleName := "h", RPS := 4611686018427387904, AttackTimeSec := 2, RampUpTimeSec := 2,
    MaxAttackers := 1, DoTimeoutSec := 1 }

/-- A runner for `cfgHugeRPS` whose pool holds its first clone. -/
def runnerHugeRPS : Runner :=
  { Runner.init "h" {} cfgHugeRPS with attackers := [0], clones := 1 }

/-- A runner with RPS 10 and a ramp-up of 4 s whose pool holds its first
clone. -/
def runnerRamp : Runner :=
  { Runner.init "h" {}
      { HandleName := "h", RPS := 10, AttackTimeSec := 8, RampUpTimeSec := 4,
        MaxAttackers := 3, DoTimeoutSec := 1 } with attackers := [0], clones := 1 }

/-- A configuration that passes `Validate` with two attackers allowed and a
linear ramp-up of `2^62` seconds. -/
def cfgLongRamp : Config :=
  { HandleName := "h", RPS := 1, AttackTimeSec := 2, RampUpTimeSec := 4611686018427387904,
    RampUpStrategy := "linear", MaxAttackers := 2, DoTimeoutSec := 1 }

/-- A runner for `cfgLongRamp` whose pool holds its first clone, as at the
start of the last ramp-up second when every `Setup` succeeds. -/
def runnerLongRamp : Runner :=
  { Runner.init "h" {} cfgLongRamp with attackers := [0], clones := 1 }

/-- A valid configuration with three attackers allowed and a linear ramp-up
of 2 s. -/
def cfgThreeAttackers : Config :=
  { HandleName := "h", RPS := 4, AttackTimeSec := 4, RampUpTimeSec := 2,
    RampUpStrategy := "linear", MaxAttackers := 3, DoTimeoutSec := 1 }

/-- An environment in which `Setup` fails for the first clone only; the
rest is as in `steadyWorld`. -/
def retryWorld : World :=
  { steadyWorld with setupOk := fun id => decide (1 ≤ id) }

/-- An environment in which `Setup` fails for every clone; the rest is as in
`steadyWorld`. -/
def deadWorld : World :=
  { steadyWorld with setupOk := fun _ => false }

/-- A configuration that passes `Validate` with an empty handle name. -/
def cfgUnnamed : Config :=
  { HandleName := "", RPS := 1, AttackTimeSec := 2, RampUpTimeSec := 1,
    MaxAttackers := 1, DoTimeoutSec := 1 }

/-- What an attacker's `Do` would have returned: label "checkout", status
200. -/
def doCheckout : DoResult := { RequestLabel := "checkout", StatusCode := 200 }

/-- A configuration that passes `Validate` and names the ramp-up strategy
"quadratic". -/
def cfgUnknownStrategy : Config :=
  { HandleName := "h", RPS := 3, AttackTimeSec := 4, RampUpTimeSec := 2,
    RampUpStrategy := "quadratic", MaxAttackers := 2, DoTimeoutSec := 1 }

/-- A prototype that implements both hooks, neither returning an error;
`AfterRun` sets `Failed` on the report it is given. -/
def protoBothHooks : Prototype :=
  { BeforeRun := some (fun _ => none),
    AfterRun := some (fun rep => ({ rep with Failed := true }, none)) }

/-- An environment like `steadyWorld` in which no result reaches the
collector after ramp-up. -/
def quietWorld : World :=
  { steadyWorld with fullResults := [] }

/-- The float64 nearest to 2/3, `0.6666666666666666`. -/
def twoThirds : ℚ := 6004799503160661 / 9007199254740992

/-- A valid configuration for the exp2 strategy: RPS 1 reached in a ramp-up
of 2 s, five attackers allowed. -/
def cfgSlowRamp : Config :=
  { HandleName := "h", RPS := 1, AttackTimeSec := 4, RampUpTimeSec := 2,
    RampUpStrategy := "exp2", MaxAttackers := 5, DoTimeoutSec := 1 }

/-- An environment in which every `Setup` succeeds, the first ramp-up second
shows an achieved rate of 0 and the second one the rate `twoThirds`. -/
def roundingWorld : World :=
  { steadyWorld with
    rampMetrics := fun s => if s = 2 then { Rate := F64.fin twoThirds } else {} }

/-- The runner for `cfgSlowRamp` at the start of ramp-up second 2 in
`roundingWorld`: the first clone, and the one spawned after second 1. -/
def runnerSlowRamp : Runner :=
  exp2Step ieeeArith countingOps roundingWorld 1
    ((Runner.init "h" {} cfgSlowRamp).spawnAttacker roundingWorld)

/-- A valid configuration for the exp2 strategy: RPS 6 reached in a ramp-up
of 2 s, five attackers allowed. -/
def cfgFastRamp : Config :=
  { HandleName := "h", RPS := 6, AttackTimeSec := 4, RampUpTimeSec := 2,
    RampUpStrategy := "exp2", MaxAttackers := 5, DoTimeoutSec := 1 }

/-- An environment in which every `Setup` succeeds, the first ramp-up second
shows an achieved rate of 0 and the second one a rate of 4. -/
def lagWorld : World :=
  { steadyWorld with rampMetrics := fun s => if s = 2 then { Rate := F64.fin 4 } else {} }

/-- A runner for `cfgFastRamp` whose pool holds two clones, as at the start
of ramp-up second 2. -/
def runnerFastRamp : Runner :=
  { Runner.init "h" {} cfgFastRamp with attackers := [0, 1], clones := 2 }

/-! ## Theorems -/

set_option maxRecDepth 100000

/-! ### Validate -/

theorem Config.validate_eq_violations (c : Config) : c.Validate = c.violations := by
  unfold Config.Validate Config.violations Config.constraints
  by_cases h1 : 0 < c.RPS <;> by_cases h2 : 2 ≤ c.AttackTimeSec <;>
    by_cases h3 : 1 ≤ c.RampUpTimeSec <;> by_cases h4 : 0 < c.MaxAttackers <;>
    by_cases h5 : 0 < c.DoTimeoutSec <;>
    simp [h1, h2, h3, h4, h5, not_le.mpr, not_lt.mpr, not_lt.mp, not_le.mp, List.filter]

theorem Config.validate_nil_iff (c : Config) :
    c.Validate = [] ↔
      (0 < c.RPS ∧ 2 ≤ c.AttackTimeSec ∧ 1 ≤ c.RampUpTimeSec ∧
        0 < c.MaxAttackers ∧ 0 < c.DoTimeoutSec) := by
  rw [Config.validate_eq_violations]
  unfold Config.violations Config.constraints
  by_cases h1 : 0 < c.RPS <;> by_cases h2 : 2 ≤ c.AttackTimeSec <;>
    by_cases h3 : 1 ≤ c.RampUpTimeSec <;> by_cases h4 : 0 < c.MaxAttackers <;>
    by_cases h5 : 0 < c.DoTimeoutSec <;>
    simp [h1, h2, h3, h4, h5, List.filter]

/-- C1: `Config.Validate` returns exactly one message per violated constraint
among RPS > 0, AttackTimeSec >= 2, RampUpTimeSec >= 1, MaxAttackers > 0 and
DoTimeoutSec > 0, in that order; its length is the number of violated
constraints, and it is empty exactly when all five hold. -/
theorem validate_reports_every_violation (c : Config) :
    c.Validate = c.violations ∧
    c.Validate.length = ((c.constraints).filter (fun p => !p.1)).length ∧
    (c.Validate = [] ↔
      (0 < c.RPS ∧ 2 ≤ c.AttackTimeSec ∧ 1 ≤ c.RampUpTimeSec ∧
        0 < c.MaxAttackers ∧ 0 < c.DoTimeoutSec)) := by
  refine ⟨c.validate_eq_violations, ?_, c.validate_nil_iff⟩
  rw [c.validate_eq_violations, Config.violations, List.length_map]

/-- C2 (counterexample): a configuration with ramp-up 3 s and attack 2 s,
ramp-up longer than the attack, gets the empty problem list from
`Validate`. -/
theorem validate_accepts_ramp_beyond_attack :
    cfgRampBeyondAttack.RampUpTimeSec > cfgRampBeyondAttack.AttackTimeSec ∧
      cfgRampBeyondAttack.Validate = [] := by
  decide

/-- C2 (amended): `Validate` does not compare the two durations.  For a
configuration whose ramp-up exceeds its attack duration the problem list is
non-empty exactly when RPS <= 0, AttackTimeSec < 2, MaxAttackers <= 0 or
DoTimeoutSec <= 0. -/
theorem validate_ramp_beyond_attack_iff (c : Config)
    (h : c.RampUpTimeSec > c.AttackTimeSec) :
    c.Validate ≠ [] ↔
      (c.RPS ≤ 0 ∨ c.AttackTimeSec < 2 ∨ c.MaxAttackers ≤ 0 ∨ c.DoTimeoutSec ≤ 0) := by
  rw [Ne, c.validate_nil_iff]
  constructor
  · intro hn
    by_contra hc
    push_neg at hc
    exact hn ⟨hc.1, hc.2.1, by omega, hc.2.2.1, hc.2.2.2⟩
  · rintro hor ⟨h1, h2, _, h4, h5⟩
    omega

/-- C2 (witness): the amended statement at a configuration with ramp-up 5 s,
attack 1 s. -/
theorem validate_ramp_beyond_attack_iff_witness :
    ({ RPS := 1, AttackTimeSec := 1, RampUpTimeSec := 5, MaxAttackers := 1,
        DoTimeoutSec := 1 } : Config).Validate ≠ [] ↔
      ((1 : Int) ≤ 0 ∨ (1 : Int) < 2 ∨ (1 : Int) ≤ 0 ∨ (1 : Int) ≤ 0) :=
  validate_ramp_beyond_attack_iff
    { RPS := 1, AttackTimeSec := 1, RampUpTimeSec := 5, MaxAttackers := 1, DoTimeoutSec := 1 }
    (by decide)

/-! ### CheckErrors -/

theorem LoadManager.checkErrorsLoop_spec (l : List (String × RunReport)) :
    ∀ m : LoadManager, (∀ p ∈ l, (p.2.Metrics.lookup p.1).isSome = true) →
      ∃ m2, LoadManager.checkErrorsLoop l m = .ok m2 ∧
        m2.Reports = m.Reports ∧ m2.ReportDir = m.ReportDir ∧
        m2.Degradation = m.Degradation ∧
        (m2.Failed = true ↔
          (m.Failed = true ∨
            ∃ p ∈ l, ∃ b, p.2.Metrics.lookup p.1 = some b ∧ 0 < b.Errors.length)) := by
  induction l with
  | nil =>
    intro m _
    exact ⟨m, rfl, rfl, rfl, rfl, by simp⟩
  | cons p rest ih =>
    intro m hb
    obtain ⟨handleName, currentReport⟩ := p
    have hhead := hb (handleName, currentReport) (List.mem_cons_self _ _)
    have hrest : ∀ p ∈ rest, (p.2.Metrics.lookup p.1).isSome = true :=
      fun p hp => hb p (List.mem_cons_of_mem _ hp)
    obtain ⟨b, hbk⟩ := Option.isSome_iff_exists.mp hhead
    simp only at hbk
    by_cases he : b.Errors.length > 0
    · obtain ⟨m2, h1, h2, h3, h4, h5⟩ := ih { m with Failed := true } hrest
      refine ⟨m2, ?_, h2, h3, h4, ?_⟩
      · simp only [LoadManager.checkErrorsLoop, hbk, he, if_true, h1]
      · have : m2.Failed = true := h5.mpr (Or.inl rfl)
        simp only [this, true_iff]
        exact Or.inr ⟨(handleName, currentReport), List.mem_cons_self _ _, b, hbk, he⟩
    · obtain ⟨m2, h1, h2, h3, h4, h5⟩ := ih m hrest
      refine ⟨m2, ?_, h2, h3, h4, ?_⟩
      · simp only [LoadManager.checkErrorsLoop, hbk, he, if_false, h1]
      · rw [h5]
        constructor
        · rintro (h | ⟨p, hp, b2, hb2, hpos⟩)
          · exact Or.inl h
          · exact Or.inr ⟨p, List.mem_cons_of_mem _ hp, b2, hb2, hpos⟩
        · rintro (h | ⟨p, hp, b2, hb2, hpos⟩)
          · exact Or.inl h
          · rcases List.mem_cons.mp hp with heq | hin
            · subst heq
              simp only at hb2
              rw [hbk] at hb2
              cases hb2
              exact absurd hpos he
            · exact Or.inr ⟨p, hin, b2, hb2, hpos⟩

/-- C3 (counterexample): the report of handle "h" has a bucket under the
label "other" with one recorded error and a clean bucket under "h";
`CheckErrors` returns the manager unchanged, `Failed` still false. -/
theorem checkErrors_ignores_other_labels :
    mgrErrorUnderOtherLabel.CheckErrors = .ok mgrErrorUnderOtherLabel ∧
      mgrErrorUnderOtherLabel.Failed = false ∧
      (∃ p ∈ mgrErrorUnderOtherLabel.Reports, ∃ q ∈ p.2.Metrics, 0 < q.2.Errors.length) := by
  refine ⟨rfl, rfl, ?_⟩
  exact ⟨("h", reportErrorUnderOtherLabel), by simp [mgrErrorUnderOtherLabel],
    ("other", { Requests := 1, Errors := ["boom"] }), by simp [reportErrorUnderOtherLabel],
    by simp⟩

/-- C3 (amended): when every handle's report has a bucket under the handle's
own name, `CheckErrors` returns, changes only `Failed`, and leaves
`Failed = true` exactly when it was already true or, for some handle, the
bucket keyed by that handle's own name has at least one recorded error. -/
theorem checkErrors_failed_iff_own_bucket (m : LoadManager)
    (hb : ∀ p ∈ m.Reports, (p.2.Metrics.lookup p.1).isSome = true) :
    ∃ m2, m.CheckErrors = .ok m2 ∧
      m2.Reports = m.Reports ∧ m2.ReportDir = m.ReportDir ∧
      m2.Degradation = m.Degradation ∧
      (m2.Failed = true ↔
        (m.Failed = true ∨
          ∃ p ∈ m.Reports, ∃ b, p.2.Metrics.lookup p.1 = some b ∧ 0 < b.Errors.length)) :=
  LoadManager.checkErrorsLoop_spec m.Reports m hb

/-- C3 (witness): the amended statement at the manager holding
`reportWithError`. -/
theorem checkErrors_failed_iff_own_bucket_witness :
    ∃ m2, ({ Reports := [("h", reportWithError)] } : LoadManager).CheckErrors = .ok m2 ∧
      m2.Reports = [("h", reportWithError)] ∧ m2.ReportDir = "load/reports" ∧
      m2.Degradation = false ∧
      (m2.Failed = true ↔
        (false = true ∨
          ∃ p ∈ [("h", reportWithError)], ∃ b,
            p.2.Metrics.lookup p.1 = some b ∧ 0 < b.Errors.length)) :=
  checkErrors_failed_iff_own_bucket { Reports := [("h", reportWithError)] }
    (by simp [reportWithError, List.lookup])

/-! ### CheckDegradation and CIRun -/

theorem LoadManager.lastSuccess_congr (m m0 : LoadManager) (h : m.ReportDir = m0.ReportDir)
    (J : JsonCodec) (fs : FS) (handleName : String) :
    m.LastSuccessReportForHandle J fs handleName =
      m0.LastSuccessReportForHandle J fs handleName := by
  unfold LoadManager.LastSuccessReportForHandle
  rw [h]

theorem LoadManager.checkDegradationLoop_spec (A : FloatArith) (J : JsonCodec) (thr : F64)
    (fs : FS) (m0 : LoadManager) (l : List (String × RunReport)) :
    ∀ m : LoadManager, m.ReportDir = m0.ReportDir →
      (∀ p ∈ l, m0.LastSuccessReportForHandle J fs p.1 = .ok none ∨
        ∃ lastReport last current,
          m0.LastSuccessReportForHandle J fs p.1 = .ok (some lastReport) ∧
          lastReport.Metrics.lookup p.1 = some last ∧
          p.2.Metrics.lookup p.1 = some current) →
      ∃ m2, LoadManager.checkDegradationLoop A J thr fs l m = .ok m2 ∧
        m2.Reports = m.Reports ∧ m2.ReportDir = m.ReportDir ∧ m2.Failed = m.Failed ∧
        (m2.Degradation = true ↔
          (m.Degradation = true ∨
            ∃ p ∈ l, ∃ lastReport last current,
              m0.LastSuccessReportForHandle J fs p.1 = .ok (some lastReport) ∧
              lastReport.Metrics.lookup p.1 = some last ∧
              p.2.Metrics.lookup p.1 = some current ∧
              degraded A thr current last = true)) := by
  induction l with
  | nil =>
    intro m _ _
    exact ⟨m, rfl, rfl, rfl, rfl, by simp⟩
  | cons p rest ih =>
    intro m hdir hb
    obtain ⟨handleName, currentReport⟩ := p
    have hrest := fun p hp => hb p (List.mem_cons_of_mem _ hp)
    have hls := LoadManager.lastSuccess_congr m m0 hdir J fs handleName
    rcases hb (handleName, currentReport) (List.mem_cons_self _ _) with
      hnone | ⟨lastReport, last, current, hsome, hl, hc⟩
    · simp only at hnone
      obtain ⟨m2, h1, h2, h3, h4, h5⟩ := ih m hdir hrest
      refine ⟨m2, ?_, h2, h3, h4, ?_⟩
      · simp only [LoadManager.checkDegradationLoop, hls, hnone, h1]
      · rw [h5]
        constructor
        · rintro (h | ⟨p, hp, x⟩)
          · exact Or.inl h
          · exact Or.inr ⟨p, List.mem_cons_of_mem _ hp, x⟩
        · rintro (h | ⟨p, hp, lr, la, cu, e1, e2, e3, e4⟩)
          · exact Or.inl h
          · rcases List.mem_cons.mp hp with heq | hin
            · subst heq
              simp only at e1
              rw [hnone] at e1
              cases e1
            · exact Or.inr ⟨p, hin, lr, la, cu, e1, e2, e3, e4⟩
    · simp only at hsome hl hc
      by_cases hd : degraded A thr current last = true
      · obtain ⟨m2, h1, h2, h3, h4, h5⟩ := ih { m with Degradation := true } hdir hrest
        refine ⟨m2, ?_, h2, h3, h4, ?_⟩
        · simp only [LoadManager.checkDegradationLoop, hls, hsome, hl, hc, hd, if_true, h1]
        · have : m2.Degradation = true := h5.mpr (Or.inl rfl)
          simp only [this, true_iff]
          exact Or.inr ⟨(handleName, currentReport), List.mem_cons_self _ _, lastReport, last,
            current, hsome, hl, hc, hd⟩
      · obtain ⟨m2, h1, h2, h3, h4, h5⟩ := ih m hdir hrest
        refine ⟨m2, ?_, h2, h3, h4, ?_⟩
        · simp only [LoadManager.checkDegradationLoop, hls, hsome, hl, hc, hd, h1]
          rfl
        · rw [h5]
          constructor
          · rintro (h | ⟨p, hp, x⟩)
            · exact Or.inl h
            · exact Or.inr ⟨p, List.mem_cons_of_mem _ hp, x⟩
          · rintro (h | ⟨p, hp, lr, la, cu, e1, e2, e3, e4⟩)
            · exact Or.inl h
            · rcases List.mem_cons.mp hp with heq | hin
              · subst heq
                simp only at e1 e2 e3
                rw [hsome] at e1
                cases e1
                rw [hl] at e2
                cases e2
                rw [hc] at e3
                cases e3
                exact absurd e4 hd
              · exact Or.inr ⟨p, hin, lr, la, cu, e1, e2, e3, e4⟩

/-- C4 (the code at the failing input): a suite whose only handle "h"
recorded an error in its own bucket, run in an empty report directory;
`CIRun` ends with exit status 0. -/
theorem ciRun_exits_zero_despite_errors :
    (CIRun [("h", reportWithError)] exactArith (tableCodec [("r", reportWithError)])
        (.fin (3 / 2)) 100 emptyFS).1 = 0 ∧
      (∃ b, reportWithError.Metrics.lookup "h" = some b ∧ 0 < b.Errors.length) := by
  refine ⟨by decide, ⟨{ Requests := 3, Errors := ["boom"] }, rfl, by decide⟩⟩

/-- C5 (counterexample): current p50 1.9 ms, stored baseline p50 1 ms,
threshold 1.5.  The ratio of the two durations is 1.9 >= 1.5, yet
`CheckDegradation` returns the manager unchanged with `Degradation = false`,
because each p50 is first cut to whole milliseconds (1 and 1). -/
theorem checkDegradation_misses_submillisecond_ratio :
    mgrP50Current.CheckDegradation exactArith baselineCodec (.fin (3 / 2)) fsWithBaseline =
        .ok mgrP50Current ∧
      mgrP50Current.Degradation = false ∧
      mgrP50Current.LastSuccessReportForHandle baselineCodec fsWithBaseline "h" =
        .ok (some reportP50Baseline) ∧
      ((1900000 : ℚ) / 1000000 ≥ 3 / 2) := by
  refine ⟨?_, rfl, rfl, by norm_num⟩
  have hl : mgrP50Current.LastSuccessReportForHandle baselineCodec fsWithBaseline "h" =
      .ok (some reportP50Baseline) := rfl
  have hd : degraded exactArith (.fin (3 / 2)) { Requests := 10, Latencies := { P50 := 1900000 } }
      { Requests := 10, Latencies := { P50 := 1000000 } } = false := by
    have h1 : goDiv 1900000 Millisecond = 1 := by decide
    have h2 : goDiv 1000000 Millisecond = 1 := by decide
    simp only [degraded, h1, h2, exactArith, F64.exactDiv, F64.exactGe]
    norm_num
  simp only [LoadManager.CheckDegradation, mgrP50Current, LoadManager.checkDegradationLoop]
  rw [show ({ Reports := [("h", reportP50Current)] } : LoadManager) = mgrP50Current from rfl, hl]
  simp only [reportP50Baseline, reportP50Current, List.lookup, beq_self_eq_true, hd]
  rfl

/-- C5 (amended): when the check can run to completion (every handle either
has no `<handle>_last` file, or has a decodable baseline report and a bucket
under its own name in both reports), `CheckDegradation` returns, changes
only `Degradation`, and leaves `Degradation = true` exactly when it was
already true or some handle has a stored baseline with
`float64(current p50 / 1ms) / float64(baseline p50 / 1ms) >= threshold`,
each p50 being first cut to whole milliseconds by integer division; handles
without a `_last` file do not count, and when no handle has one the manager
is returned unchanged. -/
theorem checkDegradation_iff_millisecond_ratio (m : LoadManager) (A : FloatArith)
    (J : JsonCodec) (thr : F64) (fs : FS)
    (hb : ∀ p ∈ m.Reports, m.LastSuccessReportForHandle J fs p.1 = .ok none ∨
      ∃ lastReport last current,
        m.LastSuccessReportForHandle J fs p.1 = .ok (some lastReport) ∧
        lastReport.Metrics.lookup p.1 = some last ∧
        p.2.Metrics.lookup p.1 = some current) :
    ∃ m2, m.CheckDegradation A J thr fs = .ok m2 ∧
      m2.Reports = m.Reports ∧ m2.ReportDir = m.ReportDir ∧ m2.Failed = m.Failed ∧
      (m2.Degradation = true ↔
        (m.Degradation = true ∨
          ∃ p ∈ m.Reports, ∃ lastReport last current,
            m.LastSuccessReportForHandle J fs p.1 = .ok (some lastReport) ∧
            lastReport.Metrics.lookup p.1 = some last ∧
            p.2.Metrics.lookup p.1 = some current ∧
            A.ge (A.div (A.ofInt (goDiv current.Latencies.P50 Millisecond))
              (A.ofInt (goDiv last.Latencies.P50 Millisecond))) thr = true)) ∧
      ((∀ p ∈ m.Reports, fs (Join m.ReportDir (p.1 ++ "_last")) = none) → m2 = m) := by
  obtain ⟨m2, h1, h2, h3, h4, h5⟩ :=
    LoadManager.checkDegradationLoop_spec A J thr fs m m.Reports m rfl hb
  refine ⟨m2, h1, h2, h3, h4, h5, ?_⟩
  intro hnone
  have hdeg : m2.Degradation = m.Degradation := by
    have hno : ¬ ∃ p ∈ m.Reports, ∃ lastReport last current,
        m.LastSuccessReportForHandle J fs p.1 = .ok (some lastReport) ∧
        lastReport.Metrics.lookup p.1 = some last ∧
        p.2.Metrics.lookup p.1 = some current ∧
        degraded A thr current last = true := by
      rintro ⟨p, hp, lr, la, cu, e1, _⟩
      have := hnone p hp
      simp only [LoadManager.LastSuccessReportForHandle, this] at e1
      cases e1
    cases hm2 : m2.Degradation <;> cases hm : m.Degradation
    · rfl
    · exact absurd (h5.mpr (Or.inl hm)) (by simp [hm2])
    · rcases h5.mp hm2 with h | h
      · exact absurd h (by simp [hm])
      · exact absurd h hno
    · rfl
  cases m2
  cases m
  simp only at h2 h3 h4 hdeg
  simp [h2, h3, h4, hdeg]

/-- C5 (witness): the amended statement at the manager holding the current
report of "h", with the baseline of `fsWithBaseline`. -/
theorem checkDegradation_iff_millisecond_ratio_witness :
    ∃ m2, mgrP50Current.CheckDegradation exactArith baselineCodec (.fin (3 / 2))
        fsWithBaseline = .ok m2 ∧
      m2.Reports = mgrP50Current.Reports ∧ m2.ReportDir = mgrP50Current.ReportDir ∧
      m2.Failed = mgrP50Current.Failed ∧
      (m2.Degradation = true ↔
        (mgrP50Current.Degradation = true ∨
          ∃ p ∈ mgrP50Current.Reports, ∃ lastReport last current,
            mgrP50Current.LastSuccessReportForHandle baselineCodec fsWithBaseline p.1 =
              .ok (some lastReport) ∧
            lastReport.Metrics.lookup p.1 = some last ∧
            p.2.Metrics.lookup p.1 = some current ∧
            exactArith.ge (exactArith.div (exactArith.ofInt (goDiv current.Latencies.P50 Millisecond))
              (exactArith.ofInt (goDiv last.Latencies.P50 Millisecond))) (.fin (3 / 2)) = true)) ∧
      ((∀ p ∈ mgrP50Current.Reports,
          fsWithBaseline (Join mgrP50Current.ReportDir (p.1 ++ "_last")) = none) →
        m2 = mgrP50Current) :=
  checkDegradation_iff_millisecond_ratio mgrP50Current exactArith baselineCodec (.fin (3 / 2))
    fsWithBaseline (by
      intro p hp
      have hp2 : p = ("h", reportP50Current) := by simpa [mgrP50Current] using hp
      subst hp2
      exact Or.inr ⟨reportP50Baseline, { Requests := 10, Latencies := { P50 := 1000000 } },
        { Requests := 10, Latencies := { P50 := 1900000 } }, rfl, rfl, rfl⟩)

/-! ### StoreHandleReports and WriteLastSuccess -/

theorem FS.write_other (fs : FS) (path data q : String) (h : q ≠ path) :
    fs.write path data q = fs q := by
  simp [FS.write, h]

theorem FS.write_same (fs : FS) (path data : String) : fs.write path data path = some data := by
  simp [FS.write]

theorem last_path_ne_report_path (dir h h2 : String) (ts : Int) :
    Join dir (h ++ "_last") ≠ Join dir (reportFileName h2 ts) := by
  intro heq
  have h1 : (Join dir (h ++ "_last")).data =
      (dir.data ++ '/' :: h.data ++ ['_', 'l', 'a', 's']) ++ ['t'] := by
    simp [Join, String.data_append]
  have h2 : (Join dir (reportFileName h2 ts)).data =
      (dir.data ++ '/' :: h2.data ++ '-' :: (Itoa ts).data ++ ['.', 'j', 's', 'o']) ++ ['n'] := by
    simp [Join, reportFileName, String.data_append]
  have h3 := congrArg (fun s => s.data.getLast?) heq
  simp only [h1, h2, List.getLast?_concat] at h3
  exact absurd h3 (by decide)

theorem LoadManager.writeLastSuccess_existing (m : LoadManager) (fs : FS) (handleName : String)
    (ts : Int) (old : String) (h : fs (Join m.ReportDir (handleName ++ "_last")) = some old) :
    m.WriteLastSuccess fs handleName ts = (.error .fatal, fs) := by
  simp [LoadManager.WriteLastSuccess, createIfNotExists, h]

theorem LoadManager.writeLastSuccess_fresh (m : LoadManager) (fs : FS) (handleName : String)
    (ts : Int) (h : fs (Join m.ReportDir (handleName ++ "_last")) = none) :
    m.WriteLastSuccess fs handleName ts =
      (.ok (), (fs.write (Join m.ReportDir (handleName ++ "_last")) "").write
        (Join m.ReportDir (handleName ++ "_last")) (Itoa ts)) := by
  simp [LoadManager.WriteLastSuccess, createIfNotExists, h]

theorem LoadManager.storeLoop_degraded_frame (m : LoadManager) (J : JsonCodec) (ts : Int)
    (hd : m.Degradation = true) (q : String) (l : List (String × RunReport)) :
    ∀ fs : FS, (∀ p ∈ l, q ≠ Join m.ReportDir (reportFileName p.1 ts)) →
      (m.storeLoop J ts l fs).2 q = fs q := by
  induction l with
  | nil => intro fs _; rfl
  | cons p rest ih =>
    intro fs hq
    obtain ⟨handleName, r⟩ := p
    have hhead := hq (handleName, r) (List.mem_cons_self _ _)
    have hrest := fun p hp => hq p (List.mem_cons_of_mem _ hp)
    cases hm : J.marshal r with
    | none => simp [LoadManager.storeLoop, hm]
    | some b =>
      simp only [LoadManager.storeLoop, hm, hd, Bool.not_true, Bool.false_eq_true, if_false]
      rw [ih _ hrest]
      exact FS.write_other fs _ b q hhead

theorem LoadManager.storeLoop_ignores_failed (m : LoadManager) (J : JsonCodec) (ts : Int)
    (b : Bool) (l : List (String × RunReport)) :
    ∀ fs : FS, ({ m with Failed := b } : LoadManager).storeLoop J ts l fs =
      m.storeLoop J ts l fs := by
  induction l with
  | nil => intro fs; rfl
  | cons p rest ih =>
    intro fs
    obtain ⟨handleName, r⟩ := p
    simp only [LoadManager.storeLoop, LoadManager.WriteLastSuccess, ih]

/-- C6 (counterexample): with `Failed = true` and `Degradation = false`,
`StoreHandleReports` run in an empty report directory creates `h_last`
holding the stamp. -/
theorem storeHandleReports_writes_last_when_failed :
    mgrFailedNotDegraded.Failed = true ∧
      emptyFS "load/reports/h_last" = none ∧
      (mgrFailedNotDegraded.StoreHandleReports baselineCodec 100 emptyFS).2
        "load/reports/h_last" = some "100" := by
  refine ⟨rfl, rfl, by decide⟩

/-- C6 (amended): `StoreHandleReports` consults only `Degradation`.  When
`Degradation = true` no `<handle>_last` file is created or modified, whatever
the handle name; and the value of `Failed` never has an influence on what is
written. -/
theorem storeHandleReports_last_untouched_when_degraded (m : LoadManager) (J : JsonCodec)
    (ts : Int) (fs : FS) :
    (m.Degradation = true → ∀ handleName : String,
      (m.StoreHandleReports J ts fs).2 (Join m.ReportDir (handleName ++ "_last")) =
        fs (Join m.ReportDir (handleName ++ "_last"))) ∧
    (∀ b : Bool, ({ m with Failed := b } : LoadManager).StoreHandleReports J ts fs =
      m.StoreHandleReports J ts fs) := by
  constructor
  · intro hd handleName
    exact LoadManager.storeLoop_degraded_frame m J ts hd _ m.Reports fs
      (fun p _ => last_path_ne_report_path m.ReportDir handleName p.1 ts)
  · intro b
    exact LoadManager.storeLoop_ignores_failed m J ts b m.Reports fs

/-- C6 (witness): the amended statement at a degraded manager, with `h_last`
already present: the marker keeps its old stamp. -/
theorem storeHandleReports_last_untouched_when_degraded_witness :
    mgrDegraded.Degradation = true ∧
    (mgrDegraded.StoreHandleReports baselineCodec 200 fsWithMarker).2
        (Join mgrDegraded.ReportDir ("h" ++ "_last")) = some "100" ∧
    (∀ b : Bool,
      ({ mgrDegraded with Failed := b } : LoadManager).StoreHandleReports baselineCodec 200
          fsWithMarker =
        mgrDegraded.StoreHandleReports baselineCodec 200 fsWithMarker) :=
  ⟨rfl,
    ((storeHandleReports_last_untouched_when_degraded mgrDegraded baselineCodec 200
      fsWithMarker).1 rfl "h").trans (by decide),
    (storeHandleReports_last_untouched_when_degraded mgrDegraded baselineCodec 200
      fsWithMarker).2⟩

/-- C7 (the code at the failing input): `h_last` exists from an earlier
successful run (stamp 100); `WriteLastSuccess` for stamp 200 ends in
`log.Fatalf` inside `createIfNotExists`, and `h_last` still holds "100". -/
theorem writeLastSuccess_fatal_when_marker_exists :
    (NewLoadManager.WriteLastSuccess fsWithMarker "h" 200).1 = .error .fatal ∧
      (NewLoadManager.WriteLastSuccess fsWithMarker "h" 200).2 "load/reports/h_last" =
        some "100" ∧
      Itoa 200 = "200" := by
  refine ⟨rfl, by decide, by decide⟩

/-! ### The spawn budget -/

theorem Runner.spawnAttacker_config (w : World) (r : Runner) :
    (r.spawnAttacker w).config = r.config := by
  by_cases hs : w.setupOk r.clones = true <;> simp [Runner.spawnAttacker, hs]

theorem Runner.spawnAttacker_length_le (w : World) (r : Runner) :
    (r.spawnAttacker w).attackers.length ≤ r.attackers.length + 1 := by
  by_cases hs : w.setupOk r.clones = true <;> simp [Runner.spawnAttacker, hs]

theorem Runner.spawnAttacker_within (w : World) (r : Runner) (max : Int)
    (h : r.PoolWithin max) (hroom : (r.attackers.length : Int) < max) :
    (r.spawnAttacker w).PoolWithin max := by
  obtain ⟨hlen, hlog⟩ := h
  by_cases hs : w.setupOk r.clones = true
  · simp only [Runner.spawnAttacker, hs, if_true]
    refine ⟨?_, ?_⟩
    · simp only [List.length_append, List.length_singleton]
      push_cast
      omega
    · intro id pool hmem
      simp only [List.mem_append, List.mem_singleton, Event.spawned.injEq, reduceCtorEq,
        or_false] at hmem
      rcases hmem with hmem | ⟨_, hp⟩
      · exact hlog id pool hmem
      · subst hp
        push_cast
        omega
  · have hs2 : w.setupOk r.clones = false := by simpa using hs
    simp only [Runner.spawnAttacker, hs2, Bool.false_eq_true, if_false]
    refine ⟨hlen, ?_⟩
    intro id pool hmem
    simp only [List.mem_append, List.mem_singleton, reduceCtorEq, or_false] at hmem
    exact hlog id pool hmem

theorem spawnLoop_within (w : World) (max : Int) :
    ∀ (n : Nat) (r : Runner), r.PoolWithin max → (r.attackers.length : Int) + n ≤ max →
      (spawnLoop w n r).PoolWithin max ∧ (spawnLoop w n r).config = r.config := by
  intro n
  induction n with
  | zero => intro r h _; exact ⟨h, rfl⟩
  | succ n ih =>
    intro r h hn
    have hroom : (r.attackers.length : Int) < max := by push_cast at hn; omega
    have h1 := Runner.spawnAttacker_within w r max h hroom
    have h2 := Runner.spawnAttacker_length_le w r
    have h3 : ((r.spawnAttacker w).attackers.length : Int) + n ≤ max := by
      push_cast at hn
      omega
    obtain ⟨h4, h5⟩ := ih (r.spawnAttacker w) h1 h3
    exact ⟨h4, by rw [spawnLoop, h5, Runner.spawnAttacker_config]⟩

theorem spawnAttackersToSize_within (w : World) (r : Runner) (count max : Int)
    (hc : r.config.MaxAttackers = max) (h : r.PoolWithin max) :
    (spawnAttackersToSize w r count).PoolWithin max ∧
      (spawnAttackersToSize w r count).config = r.config := by
  unfold spawnAttackersToSize
  apply spawnLoop_within w max _ r h
  have hlen := h.1
  split <;> omega

theorem Runner.route_frame (M : MetricsOps) (r : Runner) (s : result) :
    (r.route M s).attackers = r.attackers ∧ (r.route M s).config = r.config ∧
      (r.route M s).log = r.log := by
  unfold Runner.route
  split
  · exact ⟨rfl, rfl, rfl⟩
  · split <;> exact ⟨rfl, rfl, rfl⟩

theorem Runner.collectResults_frame (M : MetricsOps) (results : List result) :
    ∀ r : Runner, (r.collectResults M results).attackers = r.attackers ∧
      (r.collectResults M results).config = r.config ∧
      (r.collectResults M results).log = r.log := by
  induction results with
  | nil => intro r; exact ⟨rfl, rfl, rfl⟩
  | cons s rest ih =>
    intro r
    obtain ⟨h1, h2, h3⟩ := ih (r.route M s)
    obtain ⟨g1, g2, g3⟩ := r.route_frame M s
    simp only [Runner.collectResults, List.foldl_cons] at h1 h2 h3 ⊢
    exact ⟨h1.trans g1, h2.trans g2, h3.trans g3⟩

theorem takeDuringOneRampupSecond_frame (M : MetricsOps) (w : World) (r : Runner) (second : Int) :
    (takeDuringOneRampupSecond M w r second).2.attackers = r.attackers ∧
      (takeDuringOneRampupSecond M w r second).2.config = r.config := by
  by_cases he : r.attackers.length = 0
  · simp [takeDuringOneRampupSecond, he]
  · simp only [takeDuringOneRampupSecond, he, if_false]
    exact ⟨(Runner.collectResults_frame M _ _).1, (Runner.collectResults_frame M _ _).2.1⟩

theorem takeDuringOneRampupSecond_within (M : MetricsOps) (w : World) (r : Runner) (second : Int)
    (max : Int) (h : r.PoolWithin max) :
    (takeDuringOneRampupSecond M w r second).2.PoolWithin max := by
  obtain ⟨hlen, hlog⟩ := h
  refine ⟨by rw [(takeDuringOneRampupSecond_frame M w r second).1]; exact hlen, ?_⟩
  by_cases he : r.attackers.length = 0
  · simpa [takeDuringOneRampupSecond, he] using hlog
  · intro id pool hmem
    simp only [takeDuringOneRampupSecond, he, if_false,
      (Runner.collectResults_frame M _ _).2.2] at hmem
    simp only [List.mem_append, List.mem_cons, reduceCtorEq, false_or] at hmem
    rcases hmem with hmem | hmem
    · exact hlog id pool hmem
    · exact absurd (List.eq_of_mem_replicate hmem) (by simp)

theorem linearLoop_within (M : MetricsOps) (w : World) (max : Int) :
    ∀ (n : Nat) (i : Int) (r : Runner), r.config.MaxAttackers = max → r.PoolWithin max →
      (linearLoop M w n i r).PoolWithin max ∧ (linearLoop M w n i r).config = r.config := by
  intro n
  induction n with
  | zero => intro i r _ h; exact ⟨h, rfl⟩
  | succ n ih =>
    intro i r hc h
    obtain ⟨h1, c1⟩ := spawnAttackersToSize_within w r
      (goDiv (wrap64 (i * r.config.MaxAttackers)) r.config.RampUpTimeSec) max hc h
    have h2 := takeDuringOneRampupSecond_within M w _ i _ h1
    have c2 := (takeDuringOneRampupSecond_frame M w
      (spawnAttackersToSize w r
        (goDiv (wrap64 (i * r.config.MaxAttackers)) r.config.RampUpTimeSec)) i).2
    have c3 := c2.trans c1
    obtain ⟨h4, c4⟩ := ih (i + 1) _ (by rw [c3]; exact hc) h2
    exact ⟨h4, c4.trans c3⟩

theorem exp2Loop_within (A : FloatArith) (M : MetricsOps) (w : World) (max : Int) :
    ∀ (n : Nat) (i : Int) (r : Runner), r.config.MaxAttackers = max → r.PoolWithin max →
      (exp2Loop A M w n i r).PoolWithin max ∧ (exp2Loop A M w n i r).config = r.config := by
  intro n
  induction n with
  | zero => intro i r _ h; exact ⟨h, rfl⟩
  | succ n ih =>
    intro i r hc h
    have h1 := takeDuringOneRampupSecond_within M w r i _ h
    have c1 := (takeDuringOneRampupSecond_frame M w r i).2
    simp only [exp2Loop]
    split
    · obtain ⟨h2, c2⟩ := spawnAttackersToSize_within w (takeDuringOneRampupSecond M w r i).2
        (wrap64 (A.ceilToInt (A.mul
          (A.ofInt ((takeDuringOneRampupSecond M w r i).2.attackers.length : Int))
          (if A.lt (F64.fin 2)
              (A.div (A.ofInt (takeDuringOneRampupSecond M w r i).1.1)
                (takeDuringOneRampupSecond M w r i).1.2.Rate) = true
            then F64.fin 2
            else A.div (A.ofInt (takeDuringOneRampupSecond M w r i).1.1)
              (takeDuringOneRampupSecond M w r i).1.2.Rate)))) max (by rw [c1]; exact hc) h1
      obtain ⟨h3, c3⟩ := ih (i + 1) _ (by rw [c2, c1]; exact hc) h2
      exact ⟨h3, c3.trans (c2.trans c1)⟩
    · obtain ⟨h3, c3⟩ := ih (i + 1) _ (by rw [c1]; exact hc) h1
      exact ⟨h3, c3.trans c1⟩

theorem Runner.spawnAttacker_first_within (w : World) (r : Runner)
    (hmax : 1 ≤ r.config.MaxAttackers) (hpool : r.attackers = [])
    (hlog : ∀ id pool, Event.spawned id pool ∈ r.log → (pool : Int) ≤ r.config.MaxAttackers) :
    (r.spawnAttacker w).PoolWithin r.config.MaxAttackers := by
  apply Runner.spawnAttacker_within w r _ ⟨by simp [hpool]; omega, hlog⟩
  simp only [hpool, List.length_nil, Nat.cast_zero]
  omega

theorem ramp_pool_within (A : FloatArith) (M : MetricsOps) (w : World)
    (r : Runner) (hmax : 1 ≤ r.config.MaxAttackers) (hpool : r.attackers = [])
    (hlog : ∀ id pool, Event.spawned id pool ∈ r.log → (pool : Int) ≤ r.config.MaxAttackers) :
    (linearExecute M w r).PoolWithin r.config.MaxAttackers ∧
      (exp2Execute A M w r).PoolWithin r.config.MaxAttackers := by
  have h0 := Runner.spawnAttacker_first_within w r hmax hpool hlog
  have c0 := Runner.spawnAttacker_config w r
  exact ⟨(linearLoop_within M w r.config.MaxAttackers r.config.RampUpTimeSec.toNat 1
      (r.spawnAttacker w) (by rw [c0]) h0).1,
    (exp2Loop_within A M w r.config.MaxAttackers r.config.RampUpTimeSec.toNat 1
      (r.spawnAttacker w) (by rw [c0]) h0).1⟩

theorem Runner.rampUp_within (A : FloatArith) (M : MetricsOps) (w : World)
    (r : Runner) (hmax : 1 ≤ r.config.MaxAttackers) (hpool : r.attackers = [])
    (hlog : ∀ id pool, Event.spawned id pool ∈ r.log → (pool : Int) ≤ r.config.MaxAttackers) :
    (r.rampUp A M w).PoolWithin r.config.MaxAttackers := by
  obtain ⟨hl, he⟩ := ramp_pool_within A M w r hmax hpool hlog
  unfold Runner.rampUp
  simp only
  split
  · exact hl
  · split
    · exact he
    · exact ⟨by simp [hpool]; omega, hlog⟩

/-- C9: for a runner as `NewRunner` leaves it (empty pool) with
`MaxAttackers >= 1`, whatever `Setup` returns for each clone and whatever
rates are achieved, the pool holds at most `MaxAttackers` attackers after
every spawn and at the end of the linear strategy, of the exp2 strategy and
of `rampUp` as a whole; with `MaxAttackers = 1` it never holds more than
one. -/
theorem pool_never_exceeds_max_attackers (A : FloatArith) (M : MetricsOps) (w : World)
    (name : String) (a : Prototype) (c : Config) (hmax : 1 ≤ c.MaxAttackers) :
    (linearExecute M w (Runner.init name a c)).PoolWithin c.MaxAttackers ∧
    (exp2Execute A M w (Runner.init name a c)).PoolWithin c.MaxAttackers ∧
    ((Runner.init name a c).rampUp A M w).PoolWithin c.MaxAttackers ∧
    (c.MaxAttackers = 1 →
      (linearExecute M w (Runner.init name a c)).attackers.length ≤ 1 ∧
      (exp2Execute A M w (Runner.init name a c)).attackers.length ≤ 1 ∧
      (∀ id pool, Event.spawned id pool ∈ (linearExecute M w (Runner.init name a c)).log →
        pool ≤ 1) ∧
      (∀ id pool, Event.spawned id pool ∈ (exp2Execute A M w (Runner.init name a c)).log →
        pool ≤ 1)) := by
  have hlog : ∀ id pool, Event.spawned id pool ∈ (Runner.init name a c).log →
      (pool : Int) ≤ (Runner.init name a c).config.MaxAttackers := by
    intro id pool h
    simp [Runner.init] at h
  obtain ⟨hl, he⟩ := ramp_pool_within A M w (Runner.init name a c) hmax rfl hlog
  have hr := Runner.rampUp_within A M w (Runner.init name a c) hmax rfl hlog
  refine ⟨hl, he, hr, ?_⟩
  intro h1
  have hl1 : (linearExecute M w (Runner.init name a c)).PoolWithin 1 := h1 ▸ hl
  have he1 : (exp2Execute A M w (Runner.init name a c)).PoolWithin 1 := h1 ▸ he
  refine ⟨by exact_mod_cast hl1.1, by exact_mod_cast he1.1, ?_, ?_⟩
  · intro id pool hmem
    exact_mod_cast hl1.2 id pool hmem
  · intro id pool hmem
    exact_mod_cast he1.2 id pool hmem

/-- C9 (witness): the spawn budget at a runner allowed a single attacker. -/
theorem pool_never_exceeds_max_attackers_witness :
    (linearExecute countingOps steadyWorld (Runner.init "h" {} cfgOneAttacker)).PoolWithin 1 ∧
    (exp2Execute exactArith countingOps steadyWorld
      (Runner.init "h" {} cfgOneAttacker)).PoolWithin 1 ∧
    ((Runner.init "h" {} cfgOneAttacker).rampUp exactArith countingOps steadyWorld).PoolWithin 1 ∧
    ((1 : Int) = 1 →
      (linearExecute countingOps steadyWorld
        (Runner.init "h" {} cfgOneAttacker)).attackers.length ≤ 1 ∧
      (exp2Execute exactArith countingOps steadyWorld
        (Runner.init "h" {} cfgOneAttacker)).attackers.length ≤ 1 ∧
      (∀ id pool, Event.spawned id pool ∈
        (linearExecute countingOps steadyWorld (Runner.init "h" {} cfgOneAttacker)).log →
          pool ≤ 1) ∧
      (∀ id pool, Event.spawned id pool ∈
        (exp2Execute exactArith countingOps steadyWorld
          (Runner.init "h" {} cfgOneAttacker)).log → pool ≤ 1)) :=
  pool_never_exceeds_max_attackers exactArith countingOps steadyWorld "h" {} cfgOneAttacker
    (by decide)

/-! ### Run and the report -/

/-- C8 (the code at the failing input): the prototype's `AfterRun` sets
`Failed` and adds an `Output` entry on the report it is given; the report
`Run` inserts under the handle name has `Failed = false` and an empty
`Output`. -/
theorem run_drops_afterRun_changes :
    ∃ r2 lm2 report,
      (Runner.init "h" protoAfterRunMarks cfgOneAttacker).Run exactArith countingOps steadyWorld
          NewLoadManager = .ok (r2, lm2, report) ∧
      report.Failed = true ∧ report.Output = [("checked", "yes")] ∧
      ∃ inserted, lm2.Reports.lookup "h" = some inserted ∧
        inserted.Failed = false ∧ inserted.Output = [] := by
  refine ⟨_, _, _, rfl, rfl, rfl, _, rfl, rfl, rfl⟩

theorem mapSet_lookup_self {β : Type} (m : List (String × β)) (k : String) (v : β) :
    (mapSet m k v).lookup k = some v := by
  simp [mapSet, List.lookup]

theorem Runner.Run_inserts_fresh_report (A : FloatArith) (M : MetricsOps) (w : World)
    (r r2 : Runner) (lm lm2 : LoadManager) (report : RunReport)
    (h : r.Run A M w lm = .ok (r2, lm2, report)) :
    ∃ inserted, lm2.Reports.lookup r2.name = some inserted ∧
      inserted.Failed = false ∧ inserted.Output = [] := by
  unfold Runner.Run at h
  simp only at h
  split at h
  · cases h
  · split at h
    · cases h
    · rename_i r0 _ x r6 report1 _
      simp only [Except.ok.injEq, Prod.mk.injEq] at h
      obtain ⟨h1, h2, _⟩ := h
      subst h1
      subst h2
      exact ⟨_, mapSet_lookup_self _ _ _, rfl, rfl⟩

/-! ### The ramp-up rate -/

theorem wrap64_of_range (x : Int) (h1 : 0 ≤ x) (h2 : x < 2 ^ 63) : wrap64 x = x := by
  unfold wrap64
  norm_num at *
  omega

theorem rampRate_eq (s rps u : Int) (hs1 : 1 ≤ s) (hs2 : s ≤ u) (hrps : 0 < rps)
    (hov : u * rps < 2 ^ 63) :
    (if goDiv (wrap64 (s * rps)) u = 0 then 1 else goDiv (wrap64 (s * rps)) u) =
      max 1 (s * rps / u) := by
  have hnn : 0 ≤ s * rps := by positivity
  have hle : s * rps ≤ u * rps := Int.mul_le_mul_of_nonneg_right hs2 (le_of_lt hrps)
  have hw : wrap64 (s * rps) = s * rps := wrap64_of_range _ hnn (lt_of_le_of_lt hle hov)
  have hd : goDiv (s * rps) u = s * rps / u := Int.tdiv_eq_ediv hnn (by omega)
  have hq : 0 ≤ s * rps / u := Int.ediv_nonneg hnn (by omega)
  rw [hw, hd]
  by_cases h0 : s * rps / u = 0
  · simp [h0]
  · simp only [h0, if_false]
    rw [max_eq_right (by omega)]

theorem takeDuringOneRampupSecond_eq (M : MetricsOps) (w : World) (r : Runner) (s : Int)
    (hpool : r.attackers ≠ []) :
    (takeDuringOneRampupSecond M w r s).1.1 =
        (if goDiv (wrap64 (s * r.config.RPS)) r.config.RampUpTimeSec = 0 then 1
          else goDiv (wrap64 (s * r.config.RPS)) r.config.RampUpTimeSec) ∧
      (takeDuringOneRampupSecond M w r s).2.log =
        r.log ++ Event.limiter
          (if goDiv (wrap64 (s * r.config.RPS)) r.config.RampUpTimeSec = 0 then 1
            else goDiv (wrap64 (s * r.config.RPS)) r.config.RampUpTimeSec) ::
          List.replicate (w.rampTicks s) Event.go := by
  have he : ¬ r.attackers.length = 0 := by
    intro h
    exact hpool (List.length_eq_zero.mp h)
  simp only [takeDuringOneRampupSecond, he, if_false, (Runner.collectResults_frame M _ _).2.2]
  exact ⟨trivial, trivial⟩

/-- C10 (counterexample): `RPS = 2^62`, ramp-up of 2 s, second 2, one
attacker in the pool.  The configuration passes `Validate`, the product
`2 * RPS` wraps in 64-bit arithmetic, and the rate returned is `-2^62`, not
`max(1, 2 * RPS / 2) = RPS`. -/
theorem rampRate_wraps_for_huge_rps :
    cfgHugeRPS.Validate = [] ∧ runnerHugeRPS.attackers ≠ [] ∧
      (1 : Int) ≤ 2 ∧ (2 : Int) ≤ runnerHugeRPS.config.RampUpTimeSec ∧
      0 < runnerHugeRPS.config.RPS ∧
      (takeDuringOneRampupSecond countingOps steadyWorld runnerHugeRPS 2).1.1 =
        -4611686018427387904 ∧
      max 1 (2 * runnerHugeRPS.config.RPS / runnerHugeRPS.config.RampUpTimeSec) =
        4611686018427387904 := by
  refine ⟨by decide, by decide, by decide, by decide, by decide, by decide, by decide⟩

/-- C10 (amended): for every ramp-up second `s` with `1 <= s <= RampUpTimeSec`,
`RPS > 0`, a non-empty pool and `RampUpTimeSec * RPS < 2^63` (so that the
64-bit product `second * RPS` does not wrap), `takeDuringOneRampupSecond`
creates the limiter at, and returns, `max(1, floor(s * RPS / RampUpTimeSec))`;
that rate is non-decreasing in `s` and equals `RPS` in the last ramp-up
second. -/
theorem takeDuringOneRampupSecond_rate (M : MetricsOps) (w : World) (r : Runner) (s : Int)
    (hpool : r.attackers ≠ []) (hs1 : 1 ≤ s) (hs2 : s ≤ r.config.RampUpTimeSec)
    (hrps : 0 < r.config.RPS) (hov : r.config.RampUpTimeSec * r.config.RPS < 2 ^ 63) :
    (takeDuringOneRampupSecond M w r s).1.1 =
        max 1 (s * r.config.RPS / r.config.RampUpTimeSec) ∧
      (takeDuringOneRampupSecond M w r s).2.log =
        r.log ++ Event.limiter (max 1 (s * r.config.RPS / r.config.RampUpTimeSec)) ::
          List.replicate (w.rampTicks s) Event.go ∧
      (∀ s2 : Int, s ≤ s2 → s2 ≤ r.config.RampUpTimeSec →
        (takeDuringOneRampupSecond M w r s).1.1 ≤
          (takeDuringOneRampupSecond M w r s2).1.1) ∧
      (takeDuringOneRampupSecond M w r r.config.RampUpTimeSec).1.1 = r.config.RPS := by
  have hu : 0 < r.config.RampUpTimeSec := by omega
  have key : ∀ t : Int, 1 ≤ t → t ≤ r.config.RampUpTimeSec →
      (takeDuringOneRampupSecond M w r t).1.1 =
        max 1 (t * r.config.RPS / r.config.RampUpTimeSec) := by
    intro t ht1 ht2
    rw [(takeDuringOneRampupSecond_eq M w r t hpool).1]
    exact rampRate_eq t _ _ ht1 ht2 hrps hov
  refine ⟨key s hs1 hs2, ?_, ?_, ?_⟩
  · rw [(takeDuringOneRampupSecond_eq M w r s hpool).2, rampRate_eq s _ _ hs1 hs2 hrps hov]
  · intro s2 h12 h2u
    rw [key s hs1 hs2, key s2 (by omega) h2u]
    apply max_le_max (le_refl _)
    exact Int.ediv_le_ediv hu (Int.mul_le_mul_of_nonneg_right h12 (le_of_lt hrps))
  · rw [key _ (by omega) (le_refl _), Int.mul_ediv_cancel_left _ (by omega)]
    exact max_eq_right (by omega)

/-- C10 (witness): the amended statement at second 2 of a ramp-up of 4 s to
RPS 10. -/
theorem takeDuringOneRampupSecond_rate_witness :
    (takeDuringOneRampupSecond countingOps steadyWorld runnerRamp 2).1.1 =
        max 1 (2 * runnerRamp.config.RPS / runnerRamp.config.RampUpTimeSec) ∧
      (takeDuringOneRampupSecond countingOps steadyWorld runnerRamp 2).2.log =
        runnerRamp.log ++
          Event.limiter (max 1 (2 * runnerRamp.config.RPS / runnerRamp.config.RampUpTimeSec)) ::
          List.replicate (steadyWorld.rampTicks 2) Event.go ∧
      (∀ s2 : Int, 2 ≤ s2 → s2 ≤ runnerRamp.config.RampUpTimeSec →
        (takeDuringOneRampupSecond countingOps steadyWorld runnerRamp 2).1.1 ≤
          (takeDuringOneRampupSecond countingOps steadyWorld runnerRamp s2).1.1) ∧
      (takeDuringOneRampupSecond countingOps steadyWorld runnerRamp
        runnerRamp.config.RampUpTimeSec).1.1 = runnerRamp.config.RPS :=
  takeDuringOneRampupSecond_rate countingOps steadyWorld runnerRamp 2 (by decide) (by decide)
    (by decide) (by decide) (by decide)

/-! ### Pool growth under the linear strategy -/

theorem linearLoop_succ (M : MetricsOps) (w : World) (n : Nat) (i : Int) (r : Runner) :
    linearLoop M w (n + 1) i r = linearLoop M w n (i + 1) (linearStep M w i r) := rfl

theorem Runner.spawnAttacker_attackers_ok (w : World) (r : Runner)
    (h : w.setupOk r.clones = true) :
    (r.spawnAttacker w).attackers = r.attackers ++ [r.clones] := by
  simp [Runner.spawnAttacker, h]

theorem spawnLoop_length_all_ok (w : World) (h : ∀ id, w.setupOk id = true) :
    ∀ (n : Nat) (r : Runner), (spawnLoop w n r).attackers.length = r.attackers.length + n := by
  intro n
  induction n with
  | zero => intro r; rfl
  | succ n ih =>
    intro r
    rw [spawnLoop, ih, Runner.spawnAttacker_attackers_ok w r (h _)]
    simp only [List.length_append, List.length_singleton]
    omega

theorem spawnLoop_length_le (w : World) :
    ∀ (n : Nat) (r : Runner), (spawnLoop w n r).attackers.length ≤ r.attackers.length + n := by
  intro n
  induction n with
  | zero => intro r; exact le_refl _
  | succ n ih =>
    intro r
    have h1 := ih (r.spawnAttacker w)
    have h2 := Runner.spawnAttacker_length_le w r
    rw [spawnLoop]
    omega

theorem spawnAttackersToSize_length_all_ok (w : World) (h : ∀ id, w.setupOk id = true)
    (r : Runner) (count : Int) :
    ((spawnAttackersToSize w r count).attackers.length : Int) =
      max (r.attackers.length : Int) (min count r.config.MaxAttackers) := by
  unfold spawnAttackersToSize
  rw [spawnLoop_length_all_ok w h]
  push_cast
  split <;> omega

theorem spawnLoop_config (w : World) :
    ∀ (n : Nat) (r : Runner), (spawnLoop w n r).config = r.config := by
  intro n
  induction n with
  | zero => intro r; rfl
  | succ n ih => intro r; rw [spawnLoop, ih, Runner.spawnAttacker_config]

theorem spawnAttackersToSize_config (w : World) (r : Runner) (count : Int) :
    (spawnAttackersToSize w r count).config = r.config :=
  spawnLoop_config w _ r

theorem spawnAttackersToSize_length_le (w : World) (r : Runner) (count : Int) :
    ((spawnAttackersToSize w r count).attackers.length : Int) ≤
      max (r.attackers.length : Int) (min count r.config.MaxAttackers) := by
  by_cases hc : count > r.config.MaxAttackers
  · have h := spawnLoop_length_le w (r.config.MaxAttackers - (r.attackers.length : Int)).toNat r
    simp only [spawnAttackersToSize, hc, if_true]
    omega
  · have h := spawnLoop_length_le w (count - (r.attackers.length : Int)).toNat r
    simp only [spawnAttackersToSize, hc, if_false]
    omega

theorem linearStep_frame (M : MetricsOps) (w : World) (i : Int) (r : Runner) :
    (linearStep M w i r).config = r.config ∧
      (linearStep M w i r).attackers =
        (spawnAttackersToSize w r
          (goDiv (wrap64 (i * r.config.MaxAttackers)) r.config.RampUpTimeSec)).attackers := by
  unfold linearStep
  refine ⟨?_, (takeDuringOneRampupSecond_frame M w _ i).1⟩
  rw [(takeDuringOneRampupSecond_frame M w _ i).2, spawnAttackersToSize_config]

theorem rampCount_eq (s m u : Int) (hs1 : 1 ≤ s) (hs2 : s ≤ u) (hm : 1 ≤ m)
    (hov : u * m < 2 ^ 63) : goDiv (wrap64 (s * m)) u = s * m / u := by
  have hnn : 0 ≤ s * m := by positivity
  have hle : s * m ≤ u * m := Int.mul_le_mul_of_nonneg_right hs2 (by omega)
  rw [wrap64_of_range _ hnn (lt_of_le_of_lt hle hov)]
  exact Int.tdiv_eq_ediv hnn (by omega)

theorem linearStep_length_all_ok (M : MetricsOps) (w : World) (h : ∀ id, w.setupOk id = true)
    (r : Runner) (s : Int) (hs1 : 1 ≤ s) (hs2 : s ≤ r.config.RampUpTimeSec)
    (hm : 1 ≤ r.config.MaxAttackers)
    (hov : r.config.RampUpTimeSec * r.config.MaxAttackers < 2 ^ 63) :
    ((linearStep M w s r).attackers.length : Int) =
      max (r.attackers.length : Int)
        (min r.config.MaxAttackers (s * r.config.MaxAttackers / r.config.RampUpTimeSec)) := by
  rw [(linearStep_frame M w s r).2, spawnAttackersToSize_length_all_ok w h,
    rampCount_eq s _ _ hs1 hs2 hm hov, min_comm]

theorem linearLoop_length_all_ok (M : MetricsOps) (w : World) (h : ∀ id, w.setupOk id = true)
    (c : Config) (hm : 1 ≤ c.MaxAttackers)
    (hov : c.RampUpTimeSec * c.MaxAttackers < 2 ^ 63) :
    ∀ (n : Nat) (i : Int) (r : Runner), r.config = c → 1 ≤ i →
      i + (n : Int) ≤ c.RampUpTimeSec + 1 →
      ((linearLoop M w n i r).attackers.length : Int) =
        if n = 0 then (r.attackers.length : Int)
        else max (r.attackers.length : Int)
          (min c.MaxAttackers ((i + (n : Int) - 1) * c.MaxAttackers / c.RampUpTimeSec)) := by
  intro n
  induction n with
  | zero => intro i r _ _ _; simp [linearLoop]
  | succ n ih =>
    intro i r hc hi hn
    have hu : 0 < c.RampUpTimeSec := by push_cast at hn; omega
    have hstep := linearStep_length_all_ok M w h r i hi (by rw [hc]; push_cast at hn; omega)
      (by rw [hc]; exact hm) (by rw [hc]; exact hov)
    rw [hc] at hstep
    have hcfg : (linearStep M w i r).config = c := (linearStep_frame M w i r).1.trans hc
    have hrec := ih (i + 1) (linearStep M w i r) hcfg (by omega) (by push_cast at hn; omega)
    rw [linearLoop_succ, hrec, hstep]
    have e1 : i + ((n + 1 : Nat) : Int) - 1 = i + (n : Int) := by push_cast; ring
    have e2 : i + 1 + (n : Int) - 1 = i + (n : Int) := by ring
    rw [e1, e2]
    by_cases hn0 : n = 0
    · subst hn0
      simp
    · have hmono : i * c.MaxAttackers / c.RampUpTimeSec ≤
          (i + (n : Int)) * c.MaxAttackers / c.RampUpTimeSec := by
        apply Int.ediv_le_ediv hu
        apply Int.mul_le_mul_of_nonneg_right _ (by omega)
        omega
      simp only [hn0, if_false, Nat.succ_ne_zero]
      generalize i * c.MaxAttackers / c.RampUpTimeSec = x at hmono ⊢
      generalize (i + (n : Int)) * c.MaxAttackers / c.RampUpTimeSec = y at hmono ⊢
      omega

/-- C11 (counterexample): `MaxAttackers = 2`, a ramp-up of `2^62` seconds,
every `Setup` succeeding, the pool holding one attacker at the start of the
last second `s = 2^62`.  The product `s * MaxAttackers` wraps in 64-bit
arithmetic, no attacker is spawned and the pool stays at 1, where
`max(1, min(2, floor(s * 2 / 2^62))) = 2`. -/
theorem linear_pool_stalls_for_long_ramp :
    cfgLongRamp.Validate = [] ∧ (∀ id, steadyWorld.setupOk id = true) ∧
      runnerLongRamp.attackers.length = 1 ∧
      (linearStep countingOps steadyWorld 4611686018427387904 runnerLongRamp).attackers.length
        = 1 ∧
      max (1 : Int) (min cfgLongRamp.MaxAttackers
        (4611686018427387904 * cfgLongRamp.MaxAttackers / cfgLongRamp.RampUpTimeSec)) = 2 := by
  refine ⟨by decide, fun _ => rfl, rfl, by decide, by decide⟩

/-- C11 (amended): under the linear strategy with `Setup` always succeeding,
`MaxAttackers = M >= 1`, `RampUpTimeSec = U >= 1` and `U * M < 2^63` (so
that the 64-bit product `s * M` does not wrap), the iteration for second `s`
(`1 <= s <= U`) takes a pool of `p` attackers to
`max(p, min(M, floor(s * M / U)))`; starting from `NewRunner`'s empty pool
the pool holds `max(1, min(M, floor(k * M / U)))` attackers after `k <= U`
seconds, and exactly `M` when `execute` returns. -/
theorem linear_pool_growth (M : MetricsOps) (w : World) (name : String) (a : Prototype)
    (c : Config) (hsetup : ∀ id, w.setupOk id = true) (hm : 1 ≤ c.MaxAttackers)
    (hu : 1 ≤ c.RampUpTimeSec) (hov : c.RampUpTimeSec * c.MaxAttackers < 2 ^ 63) :
    (∀ (r : Runner) (s : Int), r.config = c → 1 ≤ s → s ≤ c.RampUpTimeSec →
      ((linearStep M w s r).attackers.length : Int) =
        max (r.attackers.length : Int)
          (min c.MaxAttackers (s * c.MaxAttackers / c.RampUpTimeSec))) ∧
    (∀ k : Nat, (k : Int) ≤ c.RampUpTimeSec →
      ((linearLoop M w k 1 ((Runner.init name a c).spawnAttacker w)).attackers.length : Int) =
        max 1 (min c.MaxAttackers ((k : Int) * c.MaxAttackers / c.RampUpTimeSec))) ∧
    ((linearExecute M w (Runner.init name a c)).attackers.length : Int) = c.MaxAttackers := by
  have h0 : ((Runner.init name a c).spawnAttacker w).attackers.length = 1 := by
    rw [Runner.spawnAttacker_attackers_ok w _ (hsetup _)]
    rfl
  have hc0 : ((Runner.init name a c).spawnAttacker w).config = c :=
    Runner.spawnAttacker_config w _
  have hk : ∀ k : Nat, (k : Int) ≤ c.RampUpTimeSec →
      ((linearLoop M w k 1 ((Runner.init name a c).spawnAttacker w)).attackers.length : Int) =
        max 1 (min c.MaxAttackers ((k : Int) * c.MaxAttackers / c.RampUpTimeSec)) := by
    intro k hk
    rw [linearLoop_length_all_ok M w hsetup c hm hov k 1 _ hc0 (le_refl _) (by omega), h0]
    by_cases hk0 : k = 0
    · subst hk0
      simp only [if_true, Nat.cast_one, Nat.cast_zero, zero_mul, Int.zero_ediv]
      omega
    · simp only [hk0, if_false, Nat.cast_one]
      have e : (1 : Int) + (k : Int) - 1 = (k : Int) := by ring
      rw [e]
  refine ⟨?_, hk, ?_⟩
  · intro r s hc hs1 hs2
    have := linearStep_length_all_ok M w hsetup r s hs1 (by rw [hc]; exact hs2)
      (by rw [hc]; exact hm) (by rw [hc]; exact hov)
    rw [hc] at this
    exact this
  · have hfin := hk c.RampUpTimeSec.toNat (by omega)
    have e : ((c.RampUpTimeSec.toNat : Nat) : Int) = c.RampUpTimeSec := by omega
    rw [e, Int.mul_ediv_cancel_left _ (by omega)] at hfin
    unfold linearExecute
    simp only [Runner.init] at hfin ⊢
    rw [hfin]
    omega

/-- C11 (witness): the amended statement for three attackers and a ramp-up
of 2 s. -/
theorem linear_pool_growth_witness :
    (∀ (r : Runner) (s : Int), r.config = cfgThreeAttackers → 1 ≤ s →
      s ≤ cfgThreeAttackers.RampUpTimeSec →
      ((linearStep countingOps steadyWorld s r).attackers.length : Int) =
        max (r.attackers.length : Int)
          (min cfgThreeAttackers.MaxAttackers
            (s * cfgThreeAttackers.MaxAttackers / cfgThreeAttackers.RampUpTimeSec))) ∧
    (∀ k : Nat, (k : Int) ≤ cfgThreeAttackers.RampUpTimeSec →
      ((linearLoop countingOps steadyWorld k 1
        ((Runner.init "h" {} cfgThreeAttackers).spawnAttacker steadyWorld)).attackers.length
          : Int) =
        max 1 (min cfgThreeAttackers.MaxAttackers
          ((k : Int) * cfgThreeAttackers.MaxAttackers / cfgThreeAttackers.RampUpTimeSec))) ∧
    ((linearExecute countingOps steadyWorld
      (Runner.init "h" {} cfgThreeAttackers)).attackers.length : Int) =
        cfgThreeAttackers.MaxAttackers :=
  linear_pool_growth countingOps steadyWorld "h" {} cfgThreeAttackers (fun _ => rfl)
    (by decide) (by decide) (by decide)

/-! ### Pool growth under the exp2 strategy -/

theorem wrap64_of_int64 (x : Int) (h1 : -(2 : Int) ^ 63 ≤ x) (h2 : x < 2 ^ 63) :
    wrap64 x = x := by
  unfold wrap64
  norm_num at *
  omega

theorem exactArith_ceil_range (x : F64) :
    -(2 : Int) ^ 63 ≤ exactArith.ceilToInt x ∧ exactArith.ceilToInt x < 2 ^ 63 := by
  cases x with
  | fin q =>
    simp only [exactArith]
    split
    · assumption
    · norm_num
  | posInf => simp only [exactArith]; norm_num
  | negInf => simp only [exactArith]; norm_num
  | nan => simp only [exactArith]; norm_num

theorem exactArith_ceil_fin_le (q : ℚ) (z : Int) (hz : 0 ≤ z) (h : q ≤ (z : ℚ)) :
    exactArith.ceilToInt (F64.fin q) ≤ z := by
  simp only [exactArith]
  split
  · exact Int.ceil_le.mpr h
  · have : -(2 : Int) ^ 63 ≤ 0 := by norm_num
    omega

theorem exactArith_sound : exactArith.Sound where
  zero_not_lt_zero := by simp [exactArith, F64.exactLt]
  zero_lt_pos := by
    intro t ht
    simp only [exactArith, F64.exactLt, decide_eq_true_eq]
    exact_mod_cast (by omega : (0 : Int) < t)
  div_zero := by
    intro t ht
    have : (0 : ℚ) < (t : ℚ) := by exact_mod_cast (by omega : (0 : Int) < t)
    simp [exactArith, F64.exactDiv, this]
  two_lt_inf := rfl
  ceil_range := exactArith_ceil_range
  ceil_double := by
    intro n hn
    have h1 : exactArith.mul (exactArith.ofInt (n : Int)) (F64.fin 2) =
        F64.fin (((2 * (n : Int) : Int) : ℚ)) := by
      simp only [exactArith, F64.exactMul]
      congr 1
      push_cast
      ring
    rw [h1]
    simp only [exactArith, Int.ceil_intCast]
    have hn2 : (n : Int) ≤ 2 ^ 53 := by exact_mod_cast hn
    have r1 : -(2 : Int) ^ 63 ≤ 2 * (n : Int) := by
      have : (0 : Int) ≤ (n : Int) := Int.natCast_nonneg n
      have : -(2 : Int) ^ 63 ≤ 0 := by norm_num
      omega
    have r2 : 2 * (n : Int) < 2 ^ 63 := by
      have : (2 : Int) ^ 53 * 2 < 2 ^ 63 := by norm_num
      omega
    rw [if_pos ⟨r1, r2⟩]
  ceil_capped := by
    intro n f _ hf
    have hn0 : (0 : Int) ≤ 2 * (n : Int) := by
      have : (0 : Int) ≤ (n : Int) := Int.natCast_nonneg n
      omega
    have hmin : -(2 : Int) ^ 63 ≤ 2 * (n : Int) := by
      have : -(2 : Int) ^ 63 ≤ 0 := by norm_num
      omega
    cases f with
    | fin q =>
      have hq : q ≤ 2 := by
        simp only [exactArith, F64.exactLt, decide_eq_false_iff_not, not_lt] at hf
        exact hf
      have h1 : exactArith.mul (exactArith.ofInt (n : Int)) (F64.fin q) =
          F64.fin (((n : Int) : ℚ) * q) := by
        simp only [exactArith, F64.exactMul]
      rw [h1]
      apply exactArith_ceil_fin_le _ _ hn0
      push_cast
      have hnq : (0 : ℚ) ≤ (n : ℚ) := Nat.cast_nonneg n
      nlinarith
    | posInf => simp [exactArith, F64.exactLt] at hf
    | negInf =>
      have h1 : ∀ x, exactArith.ceilToInt (exactArith.mul (F64.fin x) F64.negInf) =
          -(2 : Int) ^ 63 := by
        intro x
        by_cases h0 : 0 < x
        · simp [exactArith, F64.exactMul, h0]
        · by_cases h2 : x < 0
          · simp [exactArith, F64.exactMul, h0, h2]
          · simp [exactArith, F64.exactMul, h0, h2]
      simp only [show exactArith.ofInt (n : Int) = F64.fin ((n : Int) : ℚ) from rfl, h1]
      exact hmin
    | nan =>
      have h1 : ∀ x, exactArith.ceilToInt (exactArith.mul (F64.fin x) F64.nan) =
          -(2 : Int) ^ 63 := by
        intro x
        simp only [exactArith, F64.exactMul]
      simp only [show exactArith.ofInt (n : Int) = F64.fin ((n : Int) : ℚ) from rfl, h1]
      exact hmin

theorem exp2Loop_succ (A : FloatArith) (M : MetricsOps) (w : World) (n : Nat) (i : Int)
    (r : Runner) :
    exp2Loop A M w (n + 1) i r = exp2Loop A M w n (i + 1) (exp2Step A M w i r) := rfl

theorem exp2Step_config (A : FloatArith) (M : MetricsOps) (w : World) (i : Int) (r : Runner) :
    (exp2Step A M w i r).config = r.config := by
  unfold exp2Step
  simp only
  split
  · rw [spawnAttackersToSize_config, (takeDuringOneRampupSecond_frame M w r i).2]
  · exact (takeDuringOneRampupSecond_frame M w r i).2

theorem exp2Step_length_spawn (A : FloatArith) (M : MetricsOps) (w : World)
    (hsetup : ∀ id, w.setupOk id = true) (i : Int) (r : Runner)
    (hlt : A.lt (takeDuringOneRampupSecond M w r i).1.2.Rate
      (A.ofInt (takeDuringOneRampupSecond M w r i).1.1) = true) :
    ((exp2Step A M w i r).attackers.length : Int) =
      max (r.attackers.length : Int)
        (min r.config.MaxAttackers
          (exp2Count A r.attackers.length (takeDuringOneRampupSecond M w r i).1.1
            (takeDuringOneRampupSecond M w r i).1.2.Rate)) := by
  unfold exp2Step
  simp only [hlt, if_true]
  rw [spawnAttackersToSize_length_all_ok w hsetup, (takeDuringOneRampupSecond_frame M w r i).1,
    (takeDuringOneRampupSecond_frame M w r i).2, min_comm]

theorem exp2Step_attackers_keep (A : FloatArith) (M : MetricsOps) (w : World) (i : Int)
    (r : Runner)
    (hlt : A.lt (takeDuringOneRampupSecond M w r i).1.2.Rate
      (A.ofInt (takeDuringOneRampupSecond M w r i).1.1) = false) :
    (exp2Step A M w i r).attackers = r.attackers := by
  unfold exp2Step
  simp only [hlt, Bool.false_eq_true, if_false]
  exact (takeDuringOneRampupSecond_frame M w r i).1

theorem exp2Count_zero_rate (A : FloatArith) (hA : A.Sound) (n : Nat) (t : Int)
    (hn : n ≤ 2 ^ 53) (ht : 1 ≤ t) : exp2Count A n t (F64.fin 0) = 2 * (n : Int) := by
  unfold exp2Count
  rw [hA.div_zero t ht]
  simp only [hA.two_lt_inf, if_true]
  rw [hA.ceil_double n hn]
  have hn2 : (n : Int) ≤ 2 ^ 53 := by exact_mod_cast hn
  apply wrap64_of_int64
  · have : -(2 : Int) ^ 63 ≤ 0 := by norm_num
    omega
  · have : (2 : Int) ^ 53 * 2 < 2 ^ 63 := by norm_num
    omega

theorem exp2Count_le_double (A : FloatArith) (hA : A.Sound) (n : Nat) (t : Int) (a : F64)
    (hn : n ≤ 2 ^ 53) : exp2Count A n t a ≤ 2 * (n : Int) := by
  unfold exp2Count
  rw [wrap64_of_int64 _ (hA.ceil_range _).1 (hA.ceil_range _).2]
  by_cases h2 : A.lt (F64.fin 2) (A.div (A.ofInt t) a) = true
  · simp only [h2, if_true]
    exact le_of_eq (hA.ceil_double n hn)
  · simp only [h2, if_false]
    exact hA.ceil_capped n _ hn (by simpa using h2)

/-! #### Rounding to float64 -/

theorem F64.roundHalfEven_le (x : ℚ) (B : Int) (h : x ≤ B) : F64.roundHalfEven x ≤ B := by
  have hf : (⌊x⌋ : ℚ) ≤ x := Int.floor_le x
  have h1 : ⌊x⌋ ≤ B := by exact_mod_cast hf.trans h
  have h2 : ¬ x - ⌊x⌋ < 1 / 2 → ⌊x⌋ + 1 ≤ B := by
    intro hn
    have : (⌊x⌋ : ℚ) < B := by linarith
    have : ⌊x⌋ < B := by exact_mod_cast this
    omega
  unfold F64.roundHalfEven
  split_ifs with c1 c2 c3
  · exact h1
  · exact h2 c1
  · exact h1
  · exact h2 c1

theorem F64.le_roundHalfEven (x : ℚ) (B : Int) (h : (B : ℚ) ≤ x) :
    B ≤ F64.roundHalfEven x := by
  have h1 : B ≤ ⌊x⌋ := Int.le_floor.mpr h
  unfold F64.roundHalfEven
  split_ifs <;> omega

theorem F64.ulpExp_nonpos (q : ℚ) (h : |q| < 2 ^ 53) : F64.ulpExp q ≤ 0 := by
  have hl : Int.log 2 |q| ≤ 52 := by
    rcases (abs_nonneg q).eq_or_lt with h0 | h0
    · rw [← h0, Int.log_of_right_le_zero 2 le_rfl]
      norm_num
    · have : Int.log 2 |q| < 53 := by
        rw [← Int.lt_zpow_iff_log_lt (by norm_num) h0]
        exact_mod_cast h
      omega
  unfold F64.ulpExp
  omega

theorem F64.nearest_grid (q : ℚ) (hk : F64.ulpExp q ≤ 0) :
    ∃ m : Nat, F64.nearest q = (F64.roundHalfEven (q * 2 ^ m) : ℚ) / 2 ^ m := by
  obtain ⟨m, hm⟩ := Int.exists_eq_neg_ofNat hk
  refine ⟨m, ?_⟩
  unfold F64.nearest
  rw [hm, zpow_neg, zpow_natCast, div_inv_eq_mul, div_eq_mul_inv]

theorem F64.nearest_le_int (q : ℚ) (B : Int) (hq : |q| < 2 ^ 53) (h : q ≤ B) :
    F64.nearest q ≤ B := by
  obtain ⟨m, hm⟩ := F64.nearest_grid q (F64.ulpExp_nonpos q hq)
  have hp : (0 : ℚ) < 2 ^ m := by positivity
  have h1 : q * 2 ^ m ≤ ((B * 2 ^ m : Int) : ℚ) := by
    push_cast
    exact mul_le_mul_of_nonneg_right h hp.le
  have h2 := F64.roundHalfEven_le _ _ h1
  have h3 : (F64.roundHalfEven (q * 2 ^ m) : ℚ) ≤ (B : ℚ) * 2 ^ m := by exact_mod_cast h2
  rw [hm, div_le_iff₀ hp]
  exact h3

theorem F64.int_le_nearest_small (q : ℚ) (B : Int) (hq : |q| < 2 ^ 53) (h : (B : ℚ) ≤ q) :
    (B : ℚ) ≤ F64.nearest q := by
  obtain ⟨m, hm⟩ := F64.nearest_grid q (F64.ulpExp_nonpos q hq)
  have hp : (0 : ℚ) < 2 ^ m := by positivity
  have h1 : ((B * 2 ^ m : Int) : ℚ) ≤ q * 2 ^ m := by
    push_cast
    exact mul_le_mul_of_nonneg_right h hp.le
  have h2 := F64.le_roundHalfEven _ _ h1
  have h3 : (B : ℚ) * 2 ^ m ≤ (F64.roundHalfEven (q * 2 ^ m) : ℚ) := by exact_mod_cast h2
  rw [hm, le_div_iff₀ hp]
  exact h3

theorem F64.nearest_int (n : Int) (hn : |(n : ℚ)| < 2 ^ 53) : F64.nearest n = n :=
  le_antisymm (F64.nearest_le_int _ n hn le_rfl) (F64.int_le_nearest_small _ n hn le_rfl)

theorem F64.le_nearest_large (q : ℚ) (h : 2 ^ 53 ≤ q) : (2 : ℚ) ^ 53 ≤ F64.nearest q := by
  have hq0 : (0 : ℚ) < q := lt_of_lt_of_le (by positivity) h
  have habs : |q| = q := abs_of_pos hq0
  have he : (53 : Int) ≤ Int.log 2 q := by
    rw [← Int.zpow_le_iff_le_log (by norm_num) hq0]
    exact_mod_cast h
  have hself : (2 : ℚ) ^ Int.log 2 q ≤ q := by
    have := Int.zpow_log_le_self (b := 2) (by norm_num) hq0
    exact_mod_cast this
  have hk : F64.ulpExp q = Int.log 2 q - 52 := by
    unfold F64.ulpExp
    rw [habs]
    omega
  have hp : (0 : ℚ) < 2 ^ (Int.log 2 q - 52) := by positivity
  have hsplit : (2 : ℚ) ^ Int.log 2 q = 2 ^ (52 : Int) * 2 ^ (Int.log 2 q - 52) := by
    rw [← zpow_add₀ (by norm_num : (2 : ℚ) ≠ 0)]
    congr 1
    omega
  have h1 : (((2 : Int) ^ 52 : Int) : ℚ) ≤ q / 2 ^ (Int.log 2 q - 52) := by
    rw [le_div_iff₀ hp]
    push_cast
    calc (2 : ℚ) ^ 52 * 2 ^ (Int.log 2 q - 52) = 2 ^ Int.log 2 q := by
          rw [hsplit]
          norm_num
      _ ≤ q := hself
  have h2 := F64.le_roundHalfEven _ _ h1
  have h3 : (2 : ℚ) ^ 52 ≤ (F64.roundHalfEven (q / 2 ^ (Int.log 2 q - 52)) : ℚ) := by
    exact_mod_cast h2
  unfold F64.nearest
  rw [hk]
  calc (2 : ℚ) ^ 53 ≤ 2 ^ Int.log 2 q := by
        have : (2 : ℚ) ^ (53 : Int) ≤ 2 ^ Int.log 2 q :=
          zpow_le_zpow_right₀ (by norm_num) he
        exact_mod_cast this
    _ = 2 ^ (52 : Int) * 2 ^ (Int.log 2 q - 52) := hsplit
    _ ≤ (F64.roundHalfEven (q / 2 ^ (Int.log 2 q - 52)) : ℚ) * 2 ^ (Int.log 2 q - 52) := by
        apply mul_le_mul_of_nonneg_right _ hp.le
        exact_mod_cast h3

theorem F64.int_le_nearest (q : ℚ) (B : Int) (hB : (B : ℚ) ≤ 2 ^ 53) (hq : 0 ≤ q)
    (h : (B : ℚ) ≤ q) : (B : ℚ) ≤ F64.nearest q := by
  rcases lt_or_le q (2 ^ 53) with hlt | hge
  · exact F64.int_le_nearest_small q B (by rw [abs_of_nonneg hq]; exact hlt) h
  · exact hB.trans (F64.le_nearest_large q hge)

theorem F64.round_of_bounds (q : ℚ) (lo hi : Int) (h0 : 0 ≤ lo) (h1 : hi < 2 ^ 63)
    (hlo : (lo : ℚ) ≤ F64.nearest q) (hhi : F64.nearest q ≤ hi) :
    F64.round q = F64.fin (F64.nearest q) := by
  have hhi2 : (hi : ℚ) < 2 ^ 63 := by exact_mod_cast h1
  have hlo2 : (0 : ℚ) ≤ lo := by exact_mod_cast h0
  have c1 : ¬ (2 : ℚ) ^ 1024 ≤ F64.nearest q := by
    have : (2 : ℚ) ^ 63 < 2 ^ 1024 := by norm_num
    intro h
    linarith
  have c2 : ¬ F64.nearest q ≤ -2 ^ 1024 := by
    have : (0 : ℚ) < 2 ^ 1024 := by positivity
    intro h
    linarith
  unfold F64.round
  rw [if_neg c1, if_neg c2]

theorem ieeeArith_ofInt (n : Nat) (hn : n < 2 ^ 53) :
    ieeeArith.ofInt (n : Int) = F64.fin (n : ℚ) := by
  have hq : |(((n : Int) : ℚ))| < 2 ^ 53 := by
    rw [abs_of_nonneg (by positivity)]
    exact_mod_cast hn
  have hnear := F64.nearest_int (n : Int) hq
  have h := F64.round_of_bounds (((n : Int) : ℚ)) (n : Int) (n : Int) (by positivity)
    (by have : (2 : Int) ^ 53 < 2 ^ 63 := by norm_num
        have : (n : Int) < 2 ^ 53 := by exact_mod_cast hn
        omega)
    (by rw [hnear]) (by rw [hnear])
  show F64.round (((n : Int) : ℚ)) = F64.fin (n : ℚ)
  rw [h, hnear]
  norm_cast

theorem ieeeArith_mul_ceil (n : Nat) (f : ℚ) (hn : n < 2 ^ 52) (hf1 : 1 ≤ f) (hf2 : f ≤ 2) :
    wrap64 (ieeeArith.ceilToInt (ieeeArith.mul (F64.fin (n : ℚ)) (F64.fin f))) =
        ⌈F64.nearest ((n : ℚ) * f)⌉ ∧
      (n : Int) ≤ ⌈F64.nearest ((n : ℚ) * f)⌉ ∧ ⌈F64.nearest ((n : ℚ) * f)⌉ ≤ 2 * (n : Int) := by
  have hn0 : (0 : ℚ) ≤ n := by positivity
  have hnq : (n : ℚ) < 2 ^ 52 := by exact_mod_cast hn
  have hx1 : (((n : Int)) : ℚ) ≤ (n : ℚ) * f := by
    push_cast
    nlinarith
  have hx2 : (n : ℚ) * f ≤ ((2 * (n : Int) : Int) : ℚ) := by
    push_cast
    nlinarith
  have habs : |(n : ℚ) * f| < 2 ^ 53 := by
    rw [abs_of_nonneg (by positivity)]
    push_cast at hx2
    linarith
  have hlo := F64.int_le_nearest_small _ _ habs hx1
  have hhi := F64.nearest_le_int _ _ habs hx2
  have hni : (n : Int) < 2 ^ 52 := by exact_mod_cast hn
  have hround := F64.round_of_bounds ((n : ℚ) * f) (n : Int) (2 * (n : Int)) (by positivity)
    (by omega) hlo hhi
  have hc1 : (n : Int) ≤ ⌈F64.nearest ((n : ℚ) * f)⌉ :=
    Int.cast_le.mp (hlo.trans (Int.le_ceil _))
  have hc2 : ⌈F64.nearest ((n : ℚ) * f)⌉ ≤ 2 * (n : Int) := Int.ceil_le.mpr hhi
  refine ⟨?_, hc1, hc2⟩
  have hmul : ieeeArith.mul (F64.fin (n : ℚ)) (F64.fin f) = F64.round ((n : ℚ) * f) := rfl
  rw [hmul, hround]
  have hr : -(2 : Int) ^ 63 ≤ ⌈F64.nearest ((n : ℚ) * f)⌉ ∧
      ⌈F64.nearest ((n : ℚ) * f)⌉ < 2 ^ 63 := by
    constructor <;> omega
  have hceil : ieeeArith.ceilToInt (F64.fin (F64.nearest ((n : ℚ) * f))) =
      ⌈F64.nearest ((n : ℚ) * f)⌉ := by
    show (if _ then _ else _) = _
    rw [if_pos hr]
  rw [hceil]
  exact wrap64_of_range _ (by omega) (by omega)

theorem ieeeArith_factor (t : Int) (a : ℚ) (ha : 0 < a) (hat : a ≤ t) :
    (if ieeeArith.lt (F64.fin 2) (ieeeArith.div (F64.fin (t : ℚ)) (F64.fin a)) = true
      then F64.fin 2 else ieeeArith.div (F64.fin (t : ℚ)) (F64.fin a)) =
        F64.fin (min 2 (F64.nearest ((t : ℚ) / a))) ∧
      1 ≤ F64.nearest ((t : ℚ) / a) := by
  have hq : (1 : ℚ) ≤ (t : ℚ) / a := by
    rw [le_div_iff₀ ha]
    linarith
  have hv : (((1 : Int)) : ℚ) ≤ F64.nearest ((t : ℚ) / a) :=
    F64.int_le_nearest _ 1 (by norm_num) (by linarith) (by exact_mod_cast hq)
  have hv1 : (1 : ℚ) ≤ F64.nearest ((t : ℚ) / a) := by exact_mod_cast hv
  refine ⟨?_, hv1⟩
  have hdiv : ieeeArith.div (F64.fin (t : ℚ)) (F64.fin a) = F64.round ((t : ℚ) / a) := by
    show (match F64.exactDiv (F64.fin (t : ℚ)) (F64.fin a) with
      | .fin q => F64.round q
      | z => z) = _
    simp [F64.exactDiv, ha.ne.symm]
  rw [hdiv]
  unfold F64.round
  by_cases c1 : (2 : ℚ) ^ 1024 ≤ F64.nearest ((t : ℚ) / a)
  · have h2 : (2 : ℚ) ≤ F64.nearest ((t : ℚ) / a) := by
      have : (2 : ℚ) ≤ 2 ^ 1024 := by norm_num
      linarith
    rw [if_pos c1, min_eq_left h2]
    rfl
  · have c2 : ¬ F64.nearest ((t : ℚ) / a) ≤ -2 ^ 1024 := by
      have : (0 : ℚ) < 2 ^ 1024 := by positivity
      intro h
      linarith
    rw [if_neg c1, if_neg c2]
    by_cases c3 : (2 : ℚ) < F64.nearest ((t : ℚ) / a)
    · have : ieeeArith.lt (F64.fin 2) (F64.fin (F64.nearest ((t : ℚ) / a))) = true := by
        show decide _ = true
        exact decide_eq_true c3
      rw [if_pos this, min_eq_left c3.le]
    · have : ¬ ieeeArith.lt (F64.fin 2) (F64.fin (F64.nearest ((t : ℚ) / a))) = true := by
        show ¬ decide _ = true
        simpa using c3
      rw [if_neg this, min_eq_right (not_lt.mp c3)]

theorem exp2Count_ieee_pos (n : Nat) (t : Int) (a : ℚ) (hn : n < 2 ^ 52) (ht1 : 1 ≤ t)
    (ht53 : t < 2 ^ 53) (ha : 0 < a) (hat : a ≤ t) :
    exp2Count ieeeArith n t (F64.fin a) =
        ⌈F64.nearest ((n : ℚ) * min 2 (F64.nearest ((t : ℚ) / a)))⌉ ∧
      (n : Int) ≤ exp2Count ieeeArith n t (F64.fin a) ∧
      exp2Count ieeeArith n t (F64.fin a) ≤ 2 * (n : Int) := by
  obtain ⟨tn, rfl⟩ := Int.eq_ofNat_of_zero_le (by omega : 0 ≤ t)
  have htn : tn < 2 ^ 53 := by exact_mod_cast ht53
  have hn53 : n < 2 ^ 53 := lt_trans hn (by norm_num)
  obtain ⟨hfac, hv1⟩ := ieeeArith_factor (tn : Int) a ha hat
  have hf1 : (1 : ℚ) ≤ min 2 (F64.nearest (((tn : Int) : ℚ) / a)) := le_min (by norm_num) hv1
  have hf2 : min 2 (F64.nearest (((tn : Int) : ℚ) / a)) ≤ (2 : ℚ) := min_le_left _ _
  obtain ⟨h1, h2, h3⟩ := ieeeArith_mul_ceil n _ hn hf1 hf2
  have hcount : exp2Count ieeeArith n (tn : Int) (F64.fin a) =
      ⌈F64.nearest ((n : ℚ) * min 2 (F64.nearest (((tn : Int) : ℚ) / a)))⌉ := by
    unfold exp2Count
    rw [ieeeArith_ofInt n hn53, ieeeArith_ofInt tn htn]
    have e : ((tn : Int) : ℚ) = (tn : ℚ) := Int.cast_natCast tn
    rw [e] at hfac h1
    rw [hfac, h1, e]
  rw [hcount]
  exact ⟨rfl, h2, h3⟩

theorem exp2Count_ieee_zero (n : Nat) (t : Int) (hn : n < 2 ^ 52) (ht1 : 1 ≤ t)
    (ht53 : t < 2 ^ 53) : exp2Count ieeeArith n t (F64.fin 0) = 2 * (n : Int) := by
  obtain ⟨tn, rfl⟩ := Int.eq_ofNat_of_zero_le (by omega : 0 ≤ t)
  have htn : tn < 2 ^ 53 := by exact_mod_cast ht53
  have hn53 : n < 2 ^ 53 := lt_trans hn (by norm_num)
  have htpos : (0 : ℚ) < (tn : ℚ) := by
    have : (1 : Int) ≤ (tn : Int) := ht1
    exact_mod_cast this
  obtain ⟨h1, _, _⟩ := ieeeArith_mul_ceil n 2 hn (by norm_num) le_rfl
  have hx : ((n : ℚ) * 2) = (((2 * (n : Int)) : Int) : ℚ) := by
    push_cast
    ring
  have hq : |((((2 * (n : Int)) : Int)) : ℚ)| < 2 ^ 53 := by
    rw [abs_of_nonneg (by positivity)]
    have : (n : ℚ) < 2 ^ 52 := by exact_mod_cast hn
    push_cast
    linarith
  have hnear : F64.nearest ((n : ℚ) * 2) = (((2 * (n : Int)) : Int) : ℚ) := by
    rw [hx]
    exact F64.nearest_int _ hq
  have hdiv : ieeeArith.div (F64.fin (tn : ℚ)) (F64.fin 0) = F64.posInf := by
    show (match F64.exactDiv (F64.fin (tn : ℚ)) (F64.fin 0) with
      | .fin q => F64.round q
      | z => z) = _
    simp [F64.exactDiv, htpos]
  unfold exp2Count
  rw [ieeeArith_ofInt n hn53, ieeeArith_ofInt tn htn, hdiv]
  have hlt : ieeeArith.lt (F64.fin 2) F64.posInf = true := rfl
  rw [if_pos hlt, h1, hnear, Int.ceil_intCast]

theorem ieeeArith_lt_target (t : Int) (a : ℚ) (ht0 : 0 ≤ t) (ht53 : t < 2 ^ 53) :
    ieeeArith.lt (F64.fin a) (ieeeArith.ofInt t) = decide (a < (t : ℚ)) := by
  obtain ⟨tn, rfl⟩ := Int.eq_ofNat_of_zero_le ht0
  rw [ieeeArith_ofInt tn (by exact_mod_cast ht53), Int.cast_natCast]
  rfl

/-- C12 (counterexample): RPS 1 reached in a ramp-up of 2 s, five attackers
allowed, every `Setup` succeeding.  Second 1 ends with the pool doubled to 2.
Second 2 has target rate 1 and shows the achieved rate `twoThirds`, the
float64 nearest to 2/3.  The float64 quotient `1 / twoThirds` is exactly
1.5, so the code grows the pool to `ceil(2 * 1.5) = 3`; the exact quotient is
a little above 1.5, so the documented size is `ceil(2 * 1.5000000000000001)
= 4`. -/
theorem exp2_growth_rounds_below_documented_size :
    cfgSlowRamp.Validate = [] ∧
    (∀ id, roundingWorld.setupOk id = true) ∧
    F64.round (2 / 3) = F64.fin twoThirds ∧
    runnerSlowRamp.attackers = [0, 1] ∧
    (takeDuringOneRampupSecond countingOps roundingWorld runnerSlowRamp 2).1 =
      (1, { Rate := F64.fin twoThirds }) ∧
    ieeeArith.lt (F64.fin twoThirds) (ieeeArith.ofInt 1) = true ∧
    ieeeArith.div (ieeeArith.ofInt 1) (F64.fin twoThirds) = F64.fin (3 / 2) ∧
    (3 : ℚ) / 2 < 1 / twoThirds ∧
    (exp2Step ieeeArith countingOps roundingWorld 2 runnerSlowRamp).attackers = [0, 1, 2] ∧
    exp2GrowthSpec runnerSlowRamp.config.MaxAttackers 2 1 twoThirds = 4 ∧
    (exp2Execute ieeeArith countingOps roundingWorld (Runner.init "h" {} cfgSlowRamp)).attackers =
      [0, 1, 2] := by
  refine ⟨by decide, fun _ => rfl, by decide!, by decide!, by decide!, by decide!, by decide!,
    by decide!, by decide!, by decide!, by decide!⟩

/-- C12 (amended): under the exp2 strategy in float64 arithmetic, with
`Setup` always succeeding, for a ramp-up second that starts with a pool of
`1 <= n <= MaxAttackers` attackers (`n < 2^52`) and returns the target rate
`1 <= t < 2^53` and a finite achieved rate `a >= 0`.  When `a = 0` the pool
becomes `min(MaxAttackers, 2n)`.  When `0 < a < t` the pool becomes
`min(MaxAttackers, ceil(fl(n * min(2, fl(t / a)))))`, `fl` being rounding to
the nearest float64; this is the documented `min(MaxAttackers, ceil(n *
min(2, t / a)))` when neither the quotient nor the product is rounded and
when `t >= 2a` (both are then `min(MaxAttackers, 2n)`), and in every case
lies between `n` and `min(MaxAttackers, 2n)`.  When `a >= t` the pool is left
unchanged. -/
theorem exp2_pool_growth_rounded (M : MetricsOps) (w : World) (r : Runner) (i : Int)
    (targetRate : Int) (lastMetrics : Metrics) (a : ℚ)
    (hsetup : ∀ id, w.setupOk id = true) (hn : 1 ≤ r.attackers.length)
    (hmax : (r.attackers.length : Int) ≤ r.config.MaxAttackers)
    (h52 : r.attackers.length < 2 ^ 52)
    (hout : (takeDuringOneRampupSecond M w r i).1 = (targetRate, lastMetrics))
    (ht1 : 1 ≤ targetRate) (ht53 : targetRate < 2 ^ 53)
    (hrate : lastMetrics.Rate = F64.fin a) (ha : 0 ≤ a) :
    (a = 0 →
      ((exp2Step ieeeArith M w i r).attackers.length : Int) =
        min r.config.MaxAttackers (2 * (r.attackers.length : Int))) ∧
    (0 < a → a < (targetRate : ℚ) →
      ((exp2Step ieeeArith M w i r).attackers.length : Int) =
        min r.config.MaxAttackers
          ⌈F64.nearest ((r.attackers.length : ℚ) *
            min 2 (F64.nearest ((targetRate : ℚ) / a)))⌉) ∧
    (0 < a → a < (targetRate : ℚ) →
      F64.nearest ((targetRate : ℚ) / a) = (targetRate : ℚ) / a →
      F64.nearest ((r.attackers.length : ℚ) * min 2 ((targetRate : ℚ) / a)) =
        (r.attackers.length : ℚ) * min 2 ((targetRate : ℚ) / a) →
      ((exp2Step ieeeArith M w i r).attackers.length : Int) =
        exp2GrowthSpec r.config.MaxAttackers r.attackers.length targetRate a) ∧
    (0 < a → 2 * a ≤ (targetRate : ℚ) →
      ((exp2Step ieeeArith M w i r).attackers.length : Int) =
          min r.config.MaxAttackers (2 * (r.attackers.length : Int)) ∧
        exp2GrowthSpec r.config.MaxAttackers r.attackers.length targetRate a =
          min r.config.MaxAttackers (2 * (r.attackers.length : Int))) ∧
    (a < (targetRate : ℚ) →
      (r.attackers.length : Int) ≤ ((exp2Step ieeeArith M w i r).attackers.length : Int) ∧
        ((exp2Step ieeeArith M w i r).attackers.length : Int) ≤
          min r.config.MaxAttackers (2 * (r.attackers.length : Int))) ∧
    ((targetRate : ℚ) ≤ a → (exp2Step ieeeArith M w i r).attackers = r.attackers) := by
  have ht : (takeDuringOneRampupSecond M w r i).1.1 = targetRate := by rw [hout]
  have hm : (takeDuringOneRampupSecond M w r i).1.2 = lastMetrics := by rw [hout]
  have hlt := ieeeArith_lt_target targetRate a (by omega) ht53
  have htq : (1 : ℚ) ≤ (targetRate : ℚ) := by exact_mod_cast ht1
  have hgrow : a < (targetRate : ℚ) →
      ((exp2Step ieeeArith M w i r).attackers.length : Int) =
        max (r.attackers.length : Int)
          (min r.config.MaxAttackers
            (exp2Count ieeeArith r.attackers.length targetRate (F64.fin a))) := by
    intro h
    have := exp2Step_length_spawn ieeeArith M w hsetup i r
      (by rw [ht, hm, hrate, hlt]; exact decide_eq_true h)
    rw [ht, hm, hrate] at this
    exact this
  have hzero : a = 0 →
      ((exp2Step ieeeArith M w i r).attackers.length : Int) =
        min r.config.MaxAttackers (2 * (r.attackers.length : Int)) := by
    intro h0
    rw [hgrow (by rw [h0]; linarith), h0, exp2Count_ieee_zero _ _ h52 ht1 ht53]
    omega
  have hpos : 0 < a → a < (targetRate : ℚ) →
      ((exp2Step ieeeArith M w i r).attackers.length : Int) =
        min r.config.MaxAttackers
          ⌈F64.nearest ((r.attackers.length : ℚ) *
            min 2 (F64.nearest ((targetRate : ℚ) / a)))⌉ := by
    intro h0 h
    obtain ⟨e1, e2, _⟩ := exp2Count_ieee_pos r.attackers.length targetRate a h52 ht1 ht53 h0 h.le
    rw [hgrow h, ← e1]
    omega
  have hdouble : ((r.attackers.length : ℚ) * 2) = (((2 * (r.attackers.length : Int)) : Int) : ℚ) := by
    push_cast
    ring
  have hq53 : |((((2 * (r.attackers.length : Int)) : Int)) : ℚ)| < 2 ^ 53 := by
    rw [abs_of_nonneg (by positivity)]
    have : (r.attackers.length : ℚ) < 2 ^ 52 := by exact_mod_cast h52
    push_cast
    linarith
  refine ⟨hzero, hpos, ?_, ?_, ?_, ?_⟩
  · intro h0 h hq hp
    rw [hpos h0 h, hq, hp]
    unfold exp2GrowthSpec
    rw [if_neg h0.ne.symm]
  · intro h0 h2
    have h : a < (targetRate : ℚ) := by linarith
    have hquot : (2 : ℚ) ≤ (targetRate : ℚ) / a := by
      rw [le_div_iff₀ h0]
      exact h2
    have hnear : (2 : ℚ) ≤ F64.nearest ((targetRate : ℚ) / a) := by
      have := F64.int_le_nearest ((targetRate : ℚ) / a) 2 (by norm_num) (by linarith)
        (by exact_mod_cast hquot)
      exact_mod_cast this
    constructor
    · rw [hpos h0 h, min_eq_left hnear, hdouble, F64.nearest_int _ hq53, Int.ceil_intCast]
    · unfold exp2GrowthSpec
      rw [if_neg h0.ne.symm, min_eq_left hquot, hdouble, Int.ceil_intCast]
  · intro h
    rcases ha.eq_or_lt with h0 | h0
    · rw [hzero h0.symm]
      omega
    · obtain ⟨_, e2, e3⟩ :=
        exp2Count_ieee_pos r.attackers.length targetRate a h52 ht1 ht53 h0 h.le
      rw [hgrow h]
      omega
  · intro h
    exact exp2Step_attackers_keep ieeeArith M w i r
      (by rw [ht, hm, hrate, hlt]; exact decide_eq_false (not_lt.mpr h))

/-- C12 (witness): RPS 6 reached in a ramp-up of 2 s, five attackers
allowed; second 2 starts with two attackers, has target rate 6 and shows an
achieved rate of 4.  Quotient 1.5 and product 3 are float64 values, and the
pool grows to 3. -/
theorem exp2_pool_growth_rounded_witness :
    ((exp2Step ieeeArith countingOps lagWorld 2 runnerFastRamp).attackers.length : Int) = 3 ∧
    exp2GrowthSpec runnerFastRamp.config.MaxAttackers runnerFastRamp.attackers.length 6 4 = 3 ∧
    F64.nearest ((6 : Int) / 4) = (6 : Int) / 4 ∧
    (((4 : ℚ) = 0 →
      ((exp2Step ieeeArith countingOps lagWorld 2 runnerFastRamp).attackers.length : Int) =
        min runnerFastRamp.config.MaxAttackers (2 * (runnerFastRamp.attackers.length : Int))) ∧
    ((0 : ℚ) < 4 → (4 : ℚ) < ((6 : Int) : ℚ) →
      ((exp2Step ieeeArith countingOps lagWorld 2 runnerFastRamp).attackers.length : Int) =
        min runnerFastRamp.config.MaxAttackers
          ⌈F64.nearest ((runnerFastRamp.attackers.length : ℚ) *
            min 2 (F64.nearest (((6 : Int) : ℚ) / 4)))⌉) ∧
    ((0 : ℚ) < 4 → (4 : ℚ) < ((6 : Int) : ℚ) →
      F64.nearest (((6 : Int) : ℚ) / 4) = ((6 : Int) : ℚ) / 4 →
      F64.nearest ((runnerFastRamp.attackers.length : ℚ) * min 2 (((6 : Int) : ℚ) / 4)) =
        (runnerFastRamp.attackers.length : ℚ) * min 2 (((6 : Int) : ℚ) / 4) →
      ((exp2Step ieeeArith countingOps lagWorld 2 runnerFastRamp).attackers.length : Int) =
        exp2GrowthSpec runnerFastRamp.config.MaxAttackers runnerFastRamp.attackers.length 6 4) ∧
    ((0 : ℚ) < 4 → 2 * (4 : ℚ) ≤ ((6 : Int) : ℚ) →
      ((exp2Step ieeeArith countingOps lagWorld 2 runnerFastRamp).attackers.length : Int) =
          min runnerFastRamp.config.MaxAttackers (2 * (runnerFastRamp.attackers.length : Int)) ∧
        exp2GrowthSpec runnerFastRamp.config.MaxAttackers runnerFastRamp.attackers.length 6 4 =
          min runnerFastRamp.config.MaxAttackers (2 * (runnerFastRamp.attackers.length : Int))) ∧
    ((4 : ℚ) < ((6 : Int) : ℚ) →
      (runnerFastRamp.attackers.length : Int) ≤
          ((exp2Step ieeeArith countingOps lagWorld 2 runnerFastRamp).attackers.length : Int) ∧
        ((exp2Step ieeeArith countingOps lagWorld 2 runnerFastRamp).attackers.length : Int) ≤
          min runnerFastRamp.config.MaxAttackers (2 * (runnerFastRamp.attackers.length : Int))) ∧
    ((((6 : Int) : ℚ)) ≤ 4 →
      (exp2Step ieeeArith countingOps lagWorld 2 runnerFastRamp).attackers =
        runnerFastRamp.attackers)) :=
  ⟨by decide!, by decide!, by decide!,
    exp2_pool_growth_rounded countingOps lagWorld runnerFastRamp 2 6 { Rate := F64.fin 4 } 4
      (fun _ => rfl) (by decide) (by decide) (by decide) (by decide!) (by decide) (by decide)
      rfl (by norm_num)⟩

theorem exp2Step_length_le (A : FloatArith) (hA : A.Sound) (M : MetricsOps) (w : World)
    (i : Int) (r : Runner) (h53 : r.attackers.length ≤ 2 ^ 53)
    (hle : (r.attackers.length : Int) ≤ r.config.MaxAttackers) :
    ((exp2Step A M w i r).attackers.length : Int) ≤
      min r.config.MaxAttackers (2 * (r.attackers.length : Int)) := by
  unfold exp2Step
  simp only
  split
  · have h1 := spawnAttackersToSize_length_le w (takeDuringOneRampupSecond M w r i).2
      (exp2Count A (takeDuringOneRampupSecond M w r i).2.attackers.length
        (takeDuringOneRampupSecond M w r i).1.1 (takeDuringOneRampupSecond M w r i).1.2.Rate)
    have h2 := exp2Count_le_double A hA r.attackers.length
      (takeDuringOneRampupSecond M w r i).1.1 (takeDuringOneRampupSecond M w r i).1.2.Rate h53
    have ea : (takeDuringOneRampupSecond M w r i).2.attackers.length = r.attackers.length :=
      congrArg List.length (takeDuringOneRampupSecond_frame M w r i).1
    rw [(takeDuringOneRampupSecond_frame M w r i).2, ea] at h1
    rw [ea]
    omega
  · rw [(takeDuringOneRampupSecond_frame M w r i).1]
    omega

theorem exp2Loop_length_le (A : FloatArith) (hA : A.Sound) (M : MetricsOps) (w : World)
    (mx : Int) (hmx : mx ≤ 2 ^ 53) :
    ∀ (k : Nat) (i : Int) (r : Runner) (b : Int), r.config.MaxAttackers = mx →
      (r.attackers.length : Int) ≤ mx → (r.attackers.length : Int) ≤ b →
      ((exp2Loop A M w k i r).attackers.length : Int) ≤ min mx (b * 2 ^ k) := by
  intro k
  induction k with
  | zero =>
    intro i r b _ h1 h2
    simp only [exp2Loop, pow_zero, mul_one]
    omega
  | succ k ih =>
    intro i r b hc h1 h2
    have h53 : r.attackers.length ≤ 2 ^ 53 := by
      have : (r.attackers.length : Int) ≤ 2 ^ 53 := le_trans h1 hmx
      exact_mod_cast this
    have hs := exp2Step_length_le A hA M w i r h53 (by rw [hc]; exact h1)
    rw [hc] at hs
    have hrec := ih (i + 1) (exp2Step A M w i r) (2 * b)
      (by rw [exp2Step_config]; exact hc) (by omega) (by omega)
    rw [exp2Loop_succ]
    have e : 2 * b * 2 ^ k = b * 2 ^ (k + 1) := by ring
    rw [e] at hrec
    exact hrec

theorem exp2Loop_add (A : FloatArith) (M : MetricsOps) (w : World) :
    ∀ (k m : Nat) (i : Int) (r : Runner),
      exp2Loop A M w (k + m) i r = exp2Loop A M w m (i + (k : Int)) (exp2Loop A M w k i r) := by
  intro k
  induction k with
  | zero => intro m i r; simp [exp2Loop]
  | succ k ih =>
    intro m i r
    have e : k + 1 + m = (k + m) + 1 := by omega
    rw [e, exp2Loop_succ, exp2Loop_succ, ih]
    congr 1
    push_cast
    ring

/-- C20: under the exp2 strategy, for float64 arithmetic and a pool bound
`MaxAttackers` of at most `2^53`, one ramp-up second takes a pool of `n`
attackers to at most `min(MaxAttackers, 2 * n)`, whatever the achieved rate
(an achieved rate of 0 included: the factor is capped at 2) and whatever
`Setup` returns; so, starting from the single initial spawn, the pool holds
at most `min(MaxAttackers, 2^k)` attackers after `k` completed seconds, and
the run of `RampUpTimeSec` seconds passes through each of these states. -/
theorem exp2_pool_at_most_doubles (A : FloatArith) (M : MetricsOps) (w : World)
    (name : String) (a : Prototype) (c : Config) (hA : A.Sound)
    (hmax : 1 ≤ c.MaxAttackers) (h53 : c.MaxAttackers ≤ 2 ^ 53) :
    (∀ (r : Runner) (i : Int), r.config = c → (r.attackers.length : Int) ≤ c.MaxAttackers →
      ((exp2Step A M w i r).attackers.length : Int) ≤
        min c.MaxAttackers (2 * (r.attackers.length : Int))) ∧
    (∀ k : Nat,
      ((exp2Loop A M w k 1 ((Runner.init name a c).spawnAttacker w)).attackers.length : Int) ≤
        min c.MaxAttackers (2 ^ k)) ∧
    (∀ k m : Nat, k + m = c.RampUpTimeSec.toNat →
      exp2Execute A M w (Runner.init name a c) =
        exp2Loop A M w m (1 + (k : Int))
          (exp2Loop A M w k 1 ((Runner.init name a c).spawnAttacker w))) ∧
    ((exp2Execute A M w (Runner.init name a c)).attackers.length : Int) ≤
      min c.MaxAttackers (2 ^ c.RampUpTimeSec.toNat) := by
  have hc0 : ((Runner.init name a c).spawnAttacker w).config.MaxAttackers = c.MaxAttackers := by
    rw [Runner.spawnAttacker_config]
    rfl
  have hl0 : (((Runner.init name a c).spawnAttacker w).attackers.length : Int) ≤ 1 := by
    have := Runner.spawnAttacker_length_le w (Runner.init name a c)
    simp only [Runner.init, List.length_nil, zero_add] at this
    simp only [Runner.init]
    exact_mod_cast this
  have hk : ∀ k : Nat,
      ((exp2Loop A M w k 1 ((Runner.init name a c).spawnAttacker w)).attackers.length : Int) ≤
        min c.MaxAttackers (2 ^ k) := by
    intro k
    have := exp2Loop_length_le A hA M w c.MaxAttackers h53 k 1 _ 1 hc0 (by omega) hl0
    rw [one_mul] at this
    exact this
  refine ⟨?_, hk, ?_, hk _⟩
  · intro r i hc hle
    have h53r : r.attackers.length ≤ 2 ^ 53 := by
      have : (r.attackers.length : Int) ≤ 2 ^ 53 := le_trans hle h53
      exact_mod_cast this
    have := exp2Step_length_le A hA M w i r h53r (by rw [hc]; exact hle)
    rw [hc] at this
    exact this
  · intro k m hkm
    unfold exp2Execute
    have e : (Runner.init name a c).config.RampUpTimeSec.toNat = k + m := hkm.symm
    rw [e, exp2Loop_add]

/-- C20 (witness): the doubling bound for the exact arithmetic and a pool
bound of three attackers. -/
theorem exp2_pool_at_most_doubles_witness :
    (∀ (r : Runner) (i : Int), r.config = cfgThreeAttackers →
      (r.attackers.length : Int) ≤ cfgThreeAttackers.MaxAttackers →
      ((exp2Step exactArith countingOps steadyWorld i r).attackers.length : Int) ≤
        min cfgThreeAttackers.MaxAttackers (2 * (r.attackers.length : Int))) ∧
    (∀ k : Nat,
      ((exp2Loop exactArith countingOps steadyWorld k 1
        ((Runner.init "h" {} cfgThreeAttackers).spawnAttacker steadyWorld)).attackers.length
          : Int) ≤ min cfgThreeAttackers.MaxAttackers (2 ^ k)) ∧
    (∀ k m : Nat, k + m = cfgThreeAttackers.RampUpTimeSec.toNat →
      exp2Execute exactArith countingOps steadyWorld (Runner.init "h" {} cfgThreeAttackers) =
        exp2Loop exactArith countingOps steadyWorld m (1 + (k : Int))
          (exp2Loop exactArith countingOps steadyWorld k 1
            ((Runner.init "h" {} cfgThreeAttackers).spawnAttacker steadyWorld))) ∧
    ((exp2Execute exactArith countingOps steadyWorld
      (Runner.init "h" {} cfgThreeAttackers)).attackers.length : Int) ≤
        min cfgThreeAttackers.MaxAttackers (2 ^ cfgThreeAttackers.RampUpTimeSec.toNat) :=
  exp2_pool_at_most_doubles exactArith countingOps steadyWorld "h" {} cfgThreeAttackers
    exactArith_sound (by decide) (by decide)

/-! ### Ramp-up without attackers -/

theorem Runner.spawnAttacker_idle (w : World) (r : Runner) (hfail : w.setupOk r.clones = false)
    (h : r.Idle) : (r.spawnAttacker w).Idle := by
  obtain ⟨h1, h2, h3⟩ := h
  simp only [Runner.spawnAttacker, hfail, Bool.false_eq_true, if_false]
  refine ⟨h1, ?_, h3⟩
  simp only [List.mem_append, List.mem_singleton, reduceCtorEq, or_false]
  exact h2

theorem spawnLoop_idle (w : World) (hfail : ∀ id, w.setupOk id = false) :
    ∀ (n : Nat) (r : Runner), r.Idle → (spawnLoop w n r).Idle := by
  intro n
  induction n with
  | zero => intro r h; exact h
  | succ n ih =>
    intro r h
    rw [spawnLoop]
    exact ih _ (Runner.spawnAttacker_idle w r (hfail _) h)

theorem takeDuringOneRampupSecond_empty (M : MetricsOps) (w : World) (r : Runner) (i : Int)
    (h : r.attackers = []) : takeDuringOneRampupSecond M w r i = ((0, {}), r) := by
  simp [takeDuringOneRampupSecond, h]

theorem linearLoop_idle (M : MetricsOps) (w : World) (hfail : ∀ id, w.setupOk id = false) :
    ∀ (n : Nat) (i : Int) (r : Runner), r.Idle → (linearLoop M w n i r).Idle := by
  intro n
  induction n with
  | zero => intro i r h; exact h
  | succ n ih =>
    intro i r h
    rw [linearLoop_succ]
    apply ih
    have h1 : (spawnAttackersToSize w r
        (goDiv (wrap64 (i * r.config.MaxAttackers)) r.config.RampUpTimeSec)).Idle :=
      spawnLoop_idle w hfail _ r h
    unfold linearStep
    rw [takeDuringOneRampupSecond_empty M w _ i h1.1]
    exact h1

theorem exp2Step_empty (A : FloatArith) (hA : A.Sound) (M : MetricsOps) (w : World) (i : Int)
    (r : Runner) (h : r.attackers = []) : exp2Step A M w i r = r := by
  unfold exp2Step
  rw [takeDuringOneRampupSecond_empty M w r i h]
  have : A.lt ({} : Metrics).Rate (A.ofInt 0) = false := hA.zero_not_lt_zero
  simp only [this, Bool.false_eq_true, if_false]

theorem exp2Loop_empty (A : FloatArith) (hA : A.Sound) (M : MetricsOps) (w : World) :
    ∀ (n : Nat) (i : Int) (r : Runner), r.attackers = [] → exp2Loop A M w n i r = r := by
  intro n
  induction n with
  | zero => intro i r _; rfl
  | succ n ih =>
    intro i r h
    rw [exp2Loop_succ, exp2Step_empty A hA M w i r h]
    exact ih (i + 1) r h

theorem Runner.init_idle (name : String) (a : Prototype) (c : Config) :
    (Runner.init name a c).Idle := by
  refine ⟨rfl, ?_, rfl⟩
  simp [Runner.init]

theorem Runner.idle_report (M : MetricsOps) (w : World) (r : Runner) (h : r.Idle) :
    r.fullAttack w = r ∧ Event.go ∉ (r.fullAttack w).log ∧
      ((r.fullAttack w).quitAttackers.tearDownAttackers.reportMetrics M w).Metrics = [] := by
  obtain ⟨h1, h2, h3⟩ := h
  have hf : r.fullAttack w = r := by simp [Runner.fullAttack, h1]
  rw [hf]
  refine ⟨rfl, h2, ?_⟩
  simp [Runner.reportMetrics, Runner.tearDownAttackers, Runner.quitAttackers, h3]

/-- C13 (counterexample): linear strategy, one attacker allowed, ramp-up of
2 s; `Setup` fails for the first clone and succeeds for the second.  The
pool is empty during second 1, but second 2 spawns again: ramp-up ends with
one attacker in the pool and go signals sent. -/
theorem linear_respawns_after_first_setup_failure :
    retryWorld.setupOk 0 = false ∧
      (linearExecute countingOps retryWorld (Runner.init "h" {} cfgOneAttacker)).attackers
        = [1] ∧
      Event.go ∈ (linearExecute countingOps retryWorld (Runner.init "h" {} cfgOneAttacker)).log
    := by
  refine ⟨rfl, by decide, by decide⟩

/-- C13 (amended): under the exp2 strategy, if `Setup` fails for the first
clone, ramp-up is a no-op: no further spawn is attempted, the pool stays
empty and no go signal is sent.  Under the linear strategy a spawn is
attempted again in later seconds, and ramp-up is a no-op when `Setup` fails
for every clone.  In both cases `fullAttack` then returns the runner as it
is, without a go signal, and the report has an empty metrics map. -/
theorem rampUp_noop_without_attackers (A : FloatArith) (M : MetricsOps) (w : World)
    (name : String) (a : Prototype) (c : Config) (hA : A.Sound) :
    (w.setupOk 0 = false → (exp2Execute A M w (Runner.init name a c)).Idle) ∧
    ((∀ id, w.setupOk id = false) → (linearExecute M w (Runner.init name a c)).Idle) ∧
    (w.setupOk 0 = false → (c.rampupStrategy = "linear" → ∀ id, w.setupOk id = false) →
      ((Runner.init name a c).rampUp A M w).Idle ∧
      ((Runner.init name a c).rampUp A M w).fullAttack w = (Runner.init name a c).rampUp A M w ∧
      Event.go ∉ (((Runner.init name a c).rampUp A M w).fullAttack w).log ∧
      ((((Runner.init name a c).rampUp A M w).fullAttack w).quitAttackers.tearDownAttackers
        |>.reportMetrics M w).Metrics = []) := by
  have h0 : w.setupOk 0 = false → ((Runner.init name a c).spawnAttacker w).Idle := fun hf =>
    Runner.spawnAttacker_idle w _ hf (Runner.init_idle name a c)
  have hexp : w.setupOk 0 = false → (exp2Execute A M w (Runner.init name a c)).Idle := by
    intro hf
    unfold exp2Execute
    rw [exp2Loop_empty A hA M w _ 1 _ (h0 hf).1]
    exact h0 hf
  have hlin : (∀ id, w.setupOk id = false) →
      (linearExecute M w (Runner.init name a c)).Idle := by
    intro hf
    exact linearLoop_idle M w hf _ 1 _ (h0 (hf 0))
  refine ⟨hexp, hlin, ?_⟩
  intro hf hl
  have hidle : ((Runner.init name a c).rampUp A M w).Idle := by
    unfold Runner.rampUp
    simp only
    split
    · rename_i hs
      exact hlin (hl hs)
    · split
      · exact hexp hf
      · exact Runner.init_idle name a c
  obtain ⟨h1, h2, h3⟩ := Runner.idle_report M w _ hidle
  exact ⟨hidle, h1, h2, h3⟩

/-- C13 (witness): the amended statement in an environment where every
`Setup` fails. -/
theorem rampUp_noop_without_attackers_witness :
    (deadWorld.setupOk 0 = false →
      (exp2Execute exactArith countingOps deadWorld (Runner.init "h" {} cfgOneAttacker)).Idle) ∧
    ((∀ id, deadWorld.setupOk id = false) →
      (linearExecute countingOps deadWorld (Runner.init "h" {} cfgOneAttacker)).Idle) ∧
    (deadWorld.setupOk 0 = false →
      (cfgOneAttacker.rampupStrategy = "linear" → ∀ id, deadWorld.setupOk id = false) →
      ((Runner.init "h" {} cfgOneAttacker).rampUp exactArith countingOps deadWorld).Idle ∧
      ((Runner.init "h" {} cfgOneAttacker).rampUp exactArith countingOps deadWorld).fullAttack
          deadWorld =
        (Runner.init "h" {} cfgOneAttacker).rampUp exactArith countingOps deadWorld ∧
      Event.go ∉ (((Runner.init "h" {} cfgOneAttacker).rampUp exactArith countingOps
        deadWorld).fullAttack deadWorld).log ∧
      ((((Runner.init "h" {} cfgOneAttacker).rampUp exactArith countingOps
          deadWorld).fullAttack deadWorld).quitAttackers.tearDownAttackers
        |>.reportMetrics countingOps deadWorld).Metrics = []) :=
  rampUp_noop_without_attackers exactArith countingOps deadWorld "h" {} cfgOneAttacker
    exactArith_sound

/-! ### Setup before work -/

theorem Runner.spawnAttacker_fail (w : World) (r : Runner) (h : w.setupOk r.clones = false) :
    (r.spawnAttacker w).attackers = r.attackers ∧
      (r.spawnAttacker w).log =
        r.log ++ [Event.clone r.clones] ++ [Event.setupFailed r.clones] := by
  simp [Runner.spawnAttacker, h]

theorem Runner.spawnAttacker_ok (w : World) (r : Runner) (h : w.setupOk r.clones = true) :
    (r.spawnAttacker w).attackers = r.attackers ++ [r.clones] ∧
      (r.spawnAttacker w).log =
        r.log ++ [Event.clone r.clones] ++
          [Event.spawned r.clones (r.attackers.length + 1)] := by
  simp [Runner.spawnAttacker, h]

theorem Runner.spawnAttacker_allSetUp (w : World) (r : Runner) (h : r.AllSetUp w) :
    (r.spawnAttacker w).AllSetUp w := by
  obtain ⟨h1, h2, h3⟩ := h
  cases hs : w.setupOk r.clones with
  | false =>
    obtain ⟨ha, hl⟩ := Runner.spawnAttacker_fail w r hs
    refine ⟨by rw [ha]; exact h1, ?_, ?_⟩
    · intro id pool hmem
      rw [hl] at hmem
      simp only [List.mem_append, List.mem_singleton, reduceCtorEq, or_false] at hmem
      exact h2 id pool hmem
    · intro id hmem
      rw [hl] at hmem
      simp only [List.mem_append, List.mem_singleton, reduceCtorEq, or_false] at hmem
      exact h3 id hmem
  | true =>
    obtain ⟨ha, hl⟩ := Runner.spawnAttacker_ok w r hs
    refine ⟨?_, ?_, ?_⟩
    · intro id hmem
      rw [ha] at hmem
      simp only [List.mem_append, List.mem_singleton] at hmem
      rcases hmem with hmem | hmem
      · exact h1 id hmem
      · rw [hmem]; exact hs
    · intro id pool hmem
      rw [hl] at hmem
      simp only [List.mem_append, List.mem_singleton, reduceCtorEq, or_false,
        Event.spawned.injEq] at hmem
      rcases hmem with hmem | ⟨hid, _⟩
      · exact h2 id pool hmem
      · rw [hid]; exact hs
    · intro id hmem
      rw [hl] at hmem
      simp only [List.mem_append, List.mem_singleton, reduceCtorEq, or_false] at hmem
      exact h3 id hmem

theorem spawnLoop_allSetUp (w : World) :
    ∀ (n : Nat) (r : Runner), r.AllSetUp w → (spawnLoop w n r).AllSetUp w := by
  intro n
  induction n with
  | zero => intro r h; exact h
  | succ n ih => intro r h; rw [spawnLoop]; exact ih _ (Runner.spawnAttacker_allSetUp w r h)

theorem takeDuringOneRampupSecond_log_mem (M : MetricsOps) (w : World) (r : Runner) (i : Int)
    (e : Event) (hgo : e ≠ Event.go) (hlim : ∀ rps, e ≠ Event.limiter rps)
    (hmem : e ∈ (takeDuringOneRampupSecond M w r i).2.log) : e ∈ r.log := by
  by_cases he : r.attackers.length = 0
  · simpa [takeDuringOneRampupSecond, he] using hmem
  · simp only [takeDuringOneRampupSecond, he, if_false,
      (Runner.collectResults_frame M _ _).2.2] at hmem
    simp only [List.mem_append, List.mem_cons] at hmem
    rcases hmem with hmem | hmem | hmem
    · exact hmem
    · exact absurd hmem (hlim _)
    · exact absurd (List.eq_of_mem_replicate hmem) hgo

theorem takeDuringOneRampupSecond_allSetUp (M : MetricsOps) (w : World) (r : Runner) (i : Int)
    (h : r.AllSetUp w) : (takeDuringOneRampupSecond M w r i).2.AllSetUp w := by
  obtain ⟨h1, h2, h3⟩ := h
  refine ⟨by rw [(takeDuringOneRampupSecond_frame M w r i).1]; exact h1, ?_, ?_⟩
  · intro id pool hmem
    exact h2 id pool (takeDuringOneRampupSecond_log_mem M w r i _ (by simp) (by simp) hmem)
  · intro id hmem
    exact h3 id (takeDuringOneRampupSecond_log_mem M w r i _ (by simp) (by simp) hmem)

theorem linearLoop_allSetUp (M : MetricsOps) (w : World) :
    ∀ (n : Nat) (i : Int) (r : Runner), r.AllSetUp w → (linearLoop M w n i r).AllSetUp w := by
  intro n
  induction n with
  | zero => intro i r h; exact h
  | succ n ih =>
    intro i r h
    rw [linearLoop_succ]
    apply ih
    unfold linearStep
    exact takeDuringOneRampupSecond_allSetUp M w _ i (spawnLoop_allSetUp w _ r h)

theorem exp2Loop_allSetUp (A : FloatArith) (M : MetricsOps) (w : World) :
    ∀ (n : Nat) (i : Int) (r : Runner), r.AllSetUp w → (exp2Loop A M w n i r).AllSetUp w := by
  intro n
  induction n with
  | zero => intro i r h; exact h
  | succ n ih =>
    intro i r h
    rw [exp2Loop_succ]
    apply ih
    unfold exp2Step
    simp only
    split
    · exact spawnLoop_allSetUp w _ _ (takeDuringOneRampupSecond_allSetUp M w r i h)
    · exact takeDuringOneRampupSecond_allSetUp M w r i h

theorem Runner.rampUp_allSetUp (A : FloatArith) (M : MetricsOps) (w : World) (r : Runner)
    (h : r.AllSetUp w) : (r.rampUp A M w).AllSetUp w := by
  unfold Runner.rampUp
  simp only
  split
  · exact linearLoop_allSetUp M w _ 1 _ (Runner.spawnAttacker_allSetUp w r h)
  · split
    · exact exp2Loop_allSetUp A M w _ 1 _ (Runner.spawnAttacker_allSetUp w r h)
    · exact h

theorem Runner.fullAttack_allSetUp (w : World) (r : Runner) (h : r.AllSetUp w) :
    (r.fullAttack w).AllSetUp w := by
  obtain ⟨h1, h2, h3⟩ := h
  by_cases he : r.attackers.length = 0
  · simpa [Runner.fullAttack, he] using ⟨h1, h2, h3⟩
  · simp only [Runner.fullAttack, he, if_false]
    refine ⟨h1, ?_, ?_⟩
    · intro id pool hmem
      simp only [List.mem_append, List.mem_cons, reduceCtorEq, false_or] at hmem
      rcases hmem with hmem | hmem
      · exact h2 id pool hmem
      · exact absurd (List.eq_of_mem_replicate hmem) (by simp)
    · intro id hmem
      simp only [List.mem_append, List.mem_cons, reduceCtorEq, false_or] at hmem
      rcases hmem with hmem | hmem
      · exact h3 id hmem
      · exact absurd (List.eq_of_mem_replicate hmem) (by simp)

theorem Runner.collectResults_allSetUp (M : MetricsOps) (w : World) (r : Runner)
    (results : List result) (h : r.AllSetUp w) : (r.collectResults M results).AllSetUp w := by
  obtain ⟨h1, h2, h3⟩ := h
  obtain ⟨g1, _, g3⟩ := Runner.collectResults_frame M results r
  exact ⟨by rw [g1]; exact h1, by rw [g3]; exact h2, by rw [g3]; exact h3⟩

theorem Runner.quit_teardown_allSetUp (w : World) (r : Runner) (h : r.AllSetUp w) :
    r.quitAttackers.tearDownAttackers.AllSetUp w := by
  obtain ⟨h1, h2, h3⟩ := h
  refine ⟨h1, ?_, ?_⟩
  · intro id pool hmem
    simp only [Runner.tearDownAttackers, Runner.quitAttackers, List.mem_append, List.mem_map,
      reduceCtorEq, and_false, exists_false, or_false] at hmem
    exact h2 id pool hmem
  · intro id hmem
    simp only [Runner.tearDownAttackers, Runner.quitAttackers, List.mem_append, List.mem_map,
      reduceCtorEq, and_false, exists_false, or_false, Event.teardown.injEq,
      exists_eq_right] at hmem
    rcases hmem with hmem | hmem
    · exact h3 id hmem
    · exact h1 id hmem

/-- C14: `spawnAttacker` appends the clone to the pool and starts its worker
exactly when its `Setup` returned no error; on a `Setup` error the pool is
unchanged and no worker is started.  Hence, from `NewRunner`'s empty pool,
through ramp-up, full attack, quit and teardown, every attacker of the pool,
every clone given a worker and every clone on which `Teardown` is called is
a clone whose `Setup` succeeded; quit and teardown add one quit signal and
one `Teardown` call per attacker of the pool and leave the pool as it is. -/
theorem pool_holds_only_set_up_clones (A : FloatArith) (M : MetricsOps) (w : World)
    (name : String) (a : Prototype) (c : Config) (results : List result) :
    (∀ r : Runner, w.setupOk r.clones = false →
      (r.spawnAttacker w).attackers = r.attackers ∧
      (r.spawnAttacker w).log =
        r.log ++ [Event.clone r.clones] ++ [Event.setupFailed r.clones]) ∧
    (∀ r : Runner, w.setupOk r.clones = true →
      (r.spawnAttacker w).attackers = r.attackers ++ [r.clones] ∧
      (r.spawnAttacker w).log =
        r.log ++ [Event.clone r.clones] ++
          [Event.spawned r.clones (r.attackers.length + 1)]) ∧
    ((Runner.init name a c).rampUp A M w).AllSetUp w ∧
    (((((Runner.init name a c).rampUp A M w).fullAttack w).collectResults M
      results).quitAttackers.tearDownAttackers).AllSetUp w ∧
    (∀ r : Runner,
      r.quitAttackers.tearDownAttackers.attackers = r.attackers ∧
      r.quitAttackers.tearDownAttackers.log =
        r.log ++ r.attackers.map (fun _ => Event.quit) ++ r.attackers.map Event.teardown) := by
  have hinit : (Runner.init name a c).AllSetUp w := by
    refine ⟨?_, ?_, ?_⟩ <;> simp [Runner.init]
  have hramp := Runner.rampUp_allSetUp A M w _ hinit
  have hfull := Runner.collectResults_allSetUp M w _ results
    (Runner.fullAttack_allSetUp w _ hramp)
  exact ⟨fun r h => Runner.spawnAttacker_fail w r h, fun r h => Runner.spawnAttacker_ok w r h,
    hramp, Runner.quit_teardown_allSetUp w _ hfull, fun _ => ⟨rfl, rfl⟩⟩

/-! ### The last-success marker and the report file -/

/-- C15: the file name `StoreHandleReports` writes for handle `h` at stamp
`ts` is `h-<ts>.json`, and it is the name `LastSuccessReportForHandle` builds
from what `WriteLastSuccess(h, ts)` stored in `h_last`.  With no `h_last`
from an earlier run in the way, `WriteLastSuccess` stores the decimal stamp,
and after `StoreHandleReports` has written the report of `h` the marker
resolves to that very file: `LastSuccessReportForHandle` opens it and decodes
the bytes just written. -/
theorem last_marker_names_report_file (m : LoadManager) (J : JsonCodec) (fs : FS)
    (h : String) (ts : Int) (r : RunReport) (b : String)
    (hfresh : fs (Join m.ReportDir (h ++ "_last")) = none)
    (hnd : m.Degradation = false) (hb : J.marshal r = some b) :
    reportFileName h ts = h ++ "-" ++ Itoa ts ++ ".json" ∧
    (∃ fs2, m.WriteLastSuccess fs h ts = (.ok (), fs2) ∧
      fs2 (Join m.ReportDir (h ++ "_last")) = some (Itoa ts)) ∧
    (∃ fs3, ({ m with Reports := [(h, r)] } : LoadManager).StoreHandleReports J ts fs =
        (.ok (), fs3) ∧
      fs3 (Join m.ReportDir (reportFileName h ts)) = some b ∧
      (∃ lastTs, fs3 (Join m.ReportDir (h ++ "_last")) = some lastTs ∧
        Join m.ReportDir (h ++ "-" ++ lastTs ++ ".json") =
          Join m.ReportDir (reportFileName h ts)) ∧
      m.LastSuccessReportForHandle J fs3 h =
        (match J.unmarshal b with
          | none => .error .fatal
          | some runReport => .ok (some runReport))) := by
  have hne := last_path_ne_report_path m.ReportDir h h ts
  have hfresh1 : (fs.write (Join m.ReportDir (reportFileName h ts)) b)
      (Join m.ReportDir (h ++ "_last")) = none := by
    rw [FS.write_other _ _ _ _ hne]
    exact hfresh
  refine ⟨rfl, ⟨_, LoadManager.writeLastSuccess_fresh m fs h ts hfresh, FS.write_same _ _ _⟩, ?_⟩
  have hw := LoadManager.writeLastSuccess_fresh m
    (fs.write (Join m.ReportDir (reportFileName h ts)) b) h ts hfresh1
  have hstore : ({ m with Reports := [(h, r)] } : LoadManager).StoreHandleReports J ts fs =
      (.ok (), ((fs.write (Join m.ReportDir (reportFileName h ts)) b).write
        (Join m.ReportDir (h ++ "_last")) "").write
          (Join m.ReportDir (h ++ "_last")) (Itoa ts)) := by
    have hw2 : ∀ m2 : LoadManager, m2.ReportDir = m.ReportDir →
        m2.WriteLastSuccess (fs.write (Join m.ReportDir (reportFileName h ts)) b) h ts =
          (.ok (), ((fs.write (Join m.ReportDir (reportFileName h ts)) b).write
            (Join m.ReportDir (h ++ "_last")) "").write
              (Join m.ReportDir (h ++ "_last")) (Itoa ts)) := by
      intro m2 h2
      rw [← hw]
      simp only [LoadManager.WriteLastSuccess, h2]
    simp only [LoadManager.StoreHandleReports, LoadManager.storeLoop, hb, hnd, Bool.not_false,
      if_true]
    exact congrArg
      (fun x : Except Abort Unit × FS =>
        match x with
        | (.error e, fs2) => ((.error e : Except Abort Unit), fs2)
        | (.ok _, fs2) => (.ok (), fs2))
      (hw2 ⟨[(h, r)], m.ReportDir, false, m.Failed⟩ rfl)
  have hrep : (((fs.write (Join m.ReportDir (reportFileName h ts)) b).write
      (Join m.ReportDir (h ++ "_last")) "").write
        (Join m.ReportDir (h ++ "_last")) (Itoa ts))
      (Join m.ReportDir (reportFileName h ts)) = some b := by
    rw [FS.write_other _ _ _ _ (Ne.symm hne), FS.write_other _ _ _ _ (Ne.symm hne)]
    exact FS.write_same _ _ _
  refine ⟨_, hstore, hrep, ⟨Itoa ts, FS.write_same _ _ _, rfl⟩, ?_⟩
  have hrep2 : (((fs.write (Join m.ReportDir (reportFileName h ts)) b).write
      (Join m.ReportDir (h ++ "_last")) "").write
        (Join m.ReportDir (h ++ "_last")) (Itoa ts))
      (Join m.ReportDir (h ++ "-" ++ Itoa ts ++ ".json")) = some b := hrep
  simp only [LoadManager.LastSuccessReportForHandle, FS.write_same, hrep2]

/-- C15 (witness): handle "h", stamp 100, an empty report directory. -/
theorem last_marker_names_report_file_witness :
    reportFileName "h" 100 = "h" ++ "-" ++ Itoa 100 ++ ".json" ∧
    (∃ fs2, NewLoadManager.WriteLastSuccess emptyFS "h" 100 = (.ok (), fs2) ∧
      fs2 (Join NewLoadManager.ReportDir ("h" ++ "_last")) = some (Itoa 100)) ∧
    (∃ fs3, ({ NewLoadManager with Reports := [("h", reportP50Current)] } :
          LoadManager).StoreHandleReports baselineCodec 100 emptyFS = (.ok (), fs3) ∧
      fs3 (Join NewLoadManager.ReportDir (reportFileName "h" 100)) = some "current" ∧
      (∃ lastTs, fs3 (Join NewLoadManager.ReportDir ("h" ++ "_last")) = some lastTs ∧
        Join NewLoadManager.ReportDir ("h" ++ "-" ++ lastTs ++ ".json") =
          Join NewLoadManager.ReportDir (reportFileName "h" 100)) ∧
      NewLoadManager.LastSuccessReportForHandle baselineCodec fs3 "h" =
        (match baselineCodec.unmarshal "current" with
          | none => .error .fatal
          | some runReport => .ok (some runReport))) :=
  last_marker_names_report_file NewLoadManager baselineCodec emptyFS "h" 100 reportP50Current
    "current" rfl rfl (by decide)

/-! ### The sequence mode -/

theorem insertBySequence_perm (x : Runner) :
    ∀ l : List Runner, (insertBySequence x l).Perm (x :: l) := by
  intro l
  induction l with
  | nil => exact List.Perm.refl _
  | cons y l ih =>
    by_cases h : x.sequence < y.sequence
    · simp only [insertBySequence, h, if_true]
      exact List.Perm.refl _
    · simp only [insertBySequence, h, if_false]
      exact (List.Perm.cons y ih).trans (List.Perm.swap x y l)

theorem insertBySequence_sorted (x : Runner) :
    ∀ l : List Runner, l.Pairwise (fun a b => a.sequence ≤ b.sequence) →
      (insertBySequence x l).Pairwise (fun a b => a.sequence ≤ b.sequence) := by
  intro l
  induction l with
  | nil => intro _; simp [insertBySequence]
  | cons y l ih =>
    intro h
    have hy : ∀ b ∈ l, y.sequence ≤ b.sequence := fun b hb => List.rel_of_pairwise_cons h hb
    have hl := List.Pairwise.of_cons h
    by_cases hx : x.sequence < y.sequence
    · simp only [insertBySequence, hx, if_true]
      refine List.Pairwise.cons ?_ h
      intro b hb
      rcases List.mem_cons.mp hb with hb | hb
      · rw [hb]; omega
      · have := hy b hb
        omega
    · simp only [insertBySequence, hx, if_false]
      refine List.Pairwise.cons ?_ (ih hl)
      intro b hb
      have hb2 := (insertBySequence_perm x l).mem_iff.mp hb
      rcases List.mem_cons.mp hb2 with hb2 | hb2
      · rw [hb2]; omega
      · exact hy b hb2

theorem sortFold_spec (l : List Runner) :
    ∀ acc : List Runner, acc.Pairwise (fun a b => a.sequence ≤ b.sequence) →
      (l.foldl (fun sorted x => insertBySequence x sorted) acc).Perm (l ++ acc) ∧
      (l.foldl (fun sorted x => insertBySequence x sorted) acc).Pairwise
        (fun a b => a.sequence ≤ b.sequence) := by
  induction l with
  | nil => intro acc h; exact ⟨List.Perm.refl _, h⟩
  | cons x l ih =>
    intro acc h
    obtain ⟨h1, h2⟩ := ih (insertBySequence x acc) (insertBySequence_sorted x acc h)
    refine ⟨?_, h2⟩
    simp only [List.foldl_cons, List.cons_append]
    exact h1.trans ((List.Perm.append_left l (insertBySequence_perm x acc)).trans
      List.perm_middle)

theorem LoadManager.runGroups_order (A : FloatArith) (M : MetricsOps) (W : String → World)
    (store : Runner → Except Abort Unit) (l : List Runner) :
    ∀ lm : LoadManager,
      (LoadManager.runGroups A M W store l lm).1 <+: l.map (fun r => r.name) ∧
      (∀ lm2, (LoadManager.runGroups A M W store l lm).2 = .ok lm2 →
        (LoadManager.runGroups A M W store l lm).1 = l.map (fun r => r.name)) := by
  induction l with
  | nil =>
    intro lm
    exact ⟨List.prefix_refl _, fun _ _ => rfl⟩
  | cons r rest ih =>
    intro lm
    simp only [LoadManager.runGroups, List.map_cons]
    split
    · refine ⟨List.nil_prefix, ?_⟩
      intro lm2 h
      cases h
    · split
      · refine ⟨?_, ?_⟩
        · exact List.prefix_iff_eq_append.mpr (by simp)
        · intro lm2 h
          cases h
      · rename_i lm3 _ _
        obtain ⟨h1, h2⟩ := ih lm3
        refine ⟨?_, ?_⟩
        · obtain ⟨t, ht⟩ := h1
          exact ⟨t, by simp only [List.cons_append, ht]⟩
        · intro lm2 h
          simp only at h ⊢
          rw [h2 lm2 h]

/-- C16: `SortGroupsBySequenceNum` rearranges the runners into a permutation
of the original slice that is non-decreasing by sequence number; and the
sequence mode of `RunSuite` calls `Run` on the runners one at a time in that
order: the names of the runners run are an initial part of the sorted
slice's names, and all of them when no run ends the process. -/
theorem sequence_mode_runs_in_sorted_order (A : FloatArith) (M : MetricsOps)
    (W : String → World) (store : Runner → Except Abort Unit) (groups : List Runner)
    (lm : LoadManager) :
    (SortGroupsBySequenceNum groups).Perm groups ∧
    (SortGroupsBySequenceNum groups).Pairwise (fun a b => a.sequence ≤ b.sequence) ∧
    (LoadManager.RunSuiteSequence A M W store groups lm).1 <+:
      (SortGroupsBySequenceNum groups).map (fun r => r.name) ∧
    (∀ lm2, (LoadManager.RunSuiteSequence A M W store groups lm).2 = .ok lm2 →
      (LoadManager.RunSuiteSequence A M W store groups lm).1 =
        (SortGroupsBySequenceNum groups).map (fun r => r.name)) := by
  obtain ⟨h1, h2⟩ := sortFold_spec groups [] List.Pairwise.nil
  obtain ⟨h3, h4⟩ := LoadManager.runGroups_order A M W store (SortGroupsBySequenceNum groups) lm
  refine ⟨?_, h2, h3, h4⟩
  simpa using h1

/-! ### Flag overrides and the default strategy -/

theorem applyFlag_cases (F : Flags) (c : Config) (name : String) :
    (name = "rps" ∧ applyFlag F c name = { c with RPS := F.oRPS }) ∨
    (name = "attack" ∧ applyFlag F c name = { c with AttackTimeSec := F.oAttackTime }) ∨
    (name = "ramp" ∧ applyFlag F c name = { c with RampUpTimeSec := F.oRampupTime }) ∨
    (name = "verbose" ∧ applyFlag F c name = { c with Verbose := F.oVerbose }) ∨
    (name = "max" ∧ applyFlag F c name = { c with MaxAttackers := F.oMaxAttackers }) ∨
    (name = "o" ∧ applyFlag F c name = { c with OutputFilename := F.oOutput }) ∨
    (name = "timeout" ∧ applyFlag F c name = { c with DoTimeoutSec := F.oDoTimeout }) ∨
    ((name ≠ "rps" ∧ name ≠ "attack" ∧ name ≠ "ramp" ∧ name ≠ "verbose" ∧ name ≠ "max" ∧
      name ≠ "o" ∧ name ≠ "timeout") ∧ applyFlag F c name = c) := by
  unfold applyFlag fRPS fAttackTime fRampupTime fVerbose fMaxAttackers fOutput fDoTimeout
  by_cases h1 : name = "rps"
  · exact Or.inl ⟨h1, by simp [h1]⟩
  by_cases h2 : name = "attack"
  · exact Or.inr (Or.inl ⟨h2, by simp [h2]⟩)
  by_cases h3 : name = "ramp"
  · exact Or.inr (Or.inr (Or.inl ⟨h3, by simp [h3]⟩))
  by_cases h4 : name = "verbose"
  · exact Or.inr (Or.inr (Or.inr (Or.inl ⟨h4, by simp [h4]⟩)))
  by_cases h5 : name = "max"
  · exact Or.inr (Or.inr (Or.inr (Or.inr (Or.inl ⟨h5, by simp [h5]⟩))))
  by_cases h6 : name = "o"
  · exact Or.inr (Or.inr (Or.inr (Or.inr (Or.inr (Or.inl ⟨h6, by simp [h6]⟩)))))
  by_cases h7 : name = "timeout"
  · exact Or.inr (Or.inr (Or.inr (Or.inr (Or.inr (Or.inr (Or.inl ⟨h7, by simp [h7]⟩))))))
  · exact Or.inr (Or.inr (Or.inr (Or.inr (Or.inr (Or.inr (Or.inr
      ⟨⟨h1, h2, h3, h4, h5, h6, h7⟩, by simp [h1, h2, h3, h4, h5, h6, h7]⟩))))))

/-- C17: for every configuration and every sequence of flags set on the
command line, `applyFlagOverrides` returns the configuration in which RPS,
AttackTimeSec, RampUpTimeSec, Verbose, MaxAttackers, OutputFilename and
DoTimeoutSec hold the flag's value when their flag (`rps`, `attack`, `ramp`,
`verbose`, `max`, `o`, `timeout`) was set and their old value otherwise, and
every other field is as it was. -/
theorem applyFlagOverrides_changes_only_set_flags (F : Flags) (visited : List String)
    (c : Config) :
    applyFlagOverrides F visited c =
      { c with
        RPS := if "rps" ∈ visited then F.oRPS else c.RPS,
        AttackTimeSec := if "attack" ∈ visited then F.oAttackTime else c.AttackTimeSec,
        RampUpTimeSec := if "ramp" ∈ visited then F.oRampupTime else c.RampUpTimeSec,
        Verbose := if "verbose" ∈ visited then F.oVerbose else c.Verbose,
        MaxAttackers := if "max" ∈ visited then F.oMaxAttackers else c.MaxAttackers,
        OutputFilename := if "o" ∈ visited then F.oOutput else c.OutputFilename,
        DoTimeoutSec := if "timeout" ∈ visited then F.oDoTimeout else c.DoTimeoutSec } := by
  unfold applyFlagOverrides
  induction visited generalizing c with
  | nil => simp
  | cons x l ih =>
    rw [List.foldl_cons, ih]
    rcases applyFlag_cases F c x with ⟨hx, he⟩ | ⟨hx, he⟩ | ⟨hx, he⟩ | ⟨hx, he⟩ | ⟨hx, he⟩ |
      ⟨hx, he⟩ | ⟨hx, he⟩ | ⟨⟨h1, h2, h3, h4, h5, h6, h7⟩, he⟩
    · rw [he, hx]; simp
    · rw [he, hx]; simp
    · rw [he, hx]; simp
    · rw [he, hx]; simp
    · rw [he, hx]; simp
    · rw [he, hx]; simp
    · rw [he, hx]; simp
    · rw [he]
      simp [List.mem_cons, Ne.symm h1, Ne.symm h2, Ne.symm h3, Ne.symm h4, Ne.symm h5,
        Ne.symm h6, Ne.symm h7]

theorem string_length_eq_zero (s : String) : s.length = 0 ↔ s = "" := by
  constructor
  · intro h
    cases s with
    | mk d =>
      simp only [String.length, List.length_eq_zero] at h
      simp [h]
  · intro h
    rw [h]
    rfl

/-- C18: `Config.rampupStrategy` returns "exp2" when `RampUpStrategy` is
empty and `RampUpStrategy` itself otherwise; so for an empty strategy name,
as for the name "exp2", `Runner.rampUp` runs the exp2 strategy and then
restores the pipeline. -/
theorem rampupStrategy_defaults_to_exp2 (c : Config) :
    (c.RampUpStrategy = "" → c.rampupStrategy = "exp2") ∧
    (c.RampUpStrategy ≠ "" → c.rampupStrategy = c.RampUpStrategy) ∧
    (∀ (A : FloatArith) (M : MetricsOps) (w : World) (r : Runner), r.config = c →
      (c.RampUpStrategy = "" ∨ c.RampUpStrategy = "exp2") →
      r.rampUp A M w =
        { exp2Execute A M w r with resultsPipeline := Pipeline.addResult }) := by
  have h1 : c.RampUpStrategy = "" → c.rampupStrategy = "exp2" := by
    intro h
    simp [Config.rampupStrategy, h, defaultRampupStrategy]
  have h2 : c.RampUpStrategy ≠ "" → c.rampupStrategy = c.RampUpStrategy := by
    intro h
    have : ¬ c.RampUpStrategy.length = 0 := fun hl => h ((string_length_eq_zero _).mp hl)
    simp [Config.rampupStrategy, this]
  refine ⟨h1, h2, ?_⟩
  intro A M w r hc hs
  have hst : r.config.rampupStrategy = "exp2" := by
    rw [hc]
    rcases hs with hs | hs
    · exact h1 hs
    · rw [h2 (by rw [hs]; decide), hs]
  simp only [Runner.rampUp, hst]
  rfl

/-! ### What the phases of a run leave alone -/

theorem Runner.Advances.refl (r : Runner) : r.Advances r :=
  ⟨rfl, rfl, rfl, rfl, [], by simp, by simp⟩

theorem Runner.Advances.trans {r r2 r3 : Runner} (h1 : r.Advances r2) (h2 : r2.Advances r3) :
    r.Advances r3 := by
  obtain ⟨a1, b1, c1, d1, e1, f1, g1⟩ := h1
  obtain ⟨a2, b2, c2, d2, e2, f2, g2⟩ := h2
  refine ⟨a2.trans a1, b2.trans b1, c2.trans c1, d2.trans d1, e1 ++ e2, ?_, ?_⟩
  · rw [f2, f1, List.append_assoc]
  · intro e he
    rcases List.mem_append.mp he with he | he
    · exact g1 e he
    · exact g2 e he

theorem Runner.spawnAttacker_advances (w : World) (r : Runner) :
    r.Advances (r.spawnAttacker w) := by
  cases hs : w.setupOk r.clones with
  | false =>
    refine ⟨?_, ?_, ?_, ?_, [Event.clone r.clones, Event.setupFailed r.clones], ?_, ?_⟩
    all_goals simp [Runner.spawnAttacker, hs, Event.isHook]
  | true =>
    refine ⟨?_, ?_, ?_, ?_,
      [Event.clone r.clones, Event.spawned r.clones (r.attackers.length + 1)], ?_, ?_⟩
    all_goals simp [Runner.spawnAttacker, hs, Event.isHook]

theorem spawnLoop_advances (w : World) :
    ∀ (n : Nat) (r : Runner), r.Advances (spawnLoop w n r) := by
  intro n
  induction n with
  | zero => intro r; exact Runner.Advances.refl r
  | succ n ih =>
    intro r
    rw [spawnLoop]
    exact (Runner.spawnAttacker_advances w r).trans (ih _)

theorem spawnAttackersToSize_advances (w : World) (r : Runner) (count : Int) :
    r.Advances (spawnAttackersToSize w r count) :=
  spawnLoop_advances w _ r

theorem Runner.route_rampLocal (M : MetricsOps) (r : Runner) (s : result) (second : Int)
    (h : r.resultsPipeline = Pipeline.rampLocal second) : r.route M s = r := by
  simp [Runner.route, h]

theorem Runner.collectResults_rampLocal (M : MetricsOps) (results : List result) (r : Runner)
    (second : Int) (h : r.resultsPipeline = Pipeline.rampLocal second) :
    r.collectResults M results = r := by
  induction results with
  | nil => rfl
  | cons s rest ih =>
    simp only [Runner.collectResults, List.foldl_cons, Runner.route_rampLocal M r s second h]
    exact ih

theorem takeDuringOneRampupSecond_advances (M : MetricsOps) (w : World) (r : Runner)
    (second : Int) : r.Advances (takeDuringOneRampupSecond M w r second).2 := by
  by_cases he : r.attackers.length = 0
  · simp only [takeDuringOneRampupSecond, he, if_true]
    exact Runner.Advances.refl r
  · simp only [takeDuringOneRampupSecond, he, if_false]
    rw [Runner.collectResults_rampLocal M _ _ second rfl]
    refine ⟨rfl, rfl, rfl, rfl, _, rfl, ?_⟩
    intro e hmem
    rcases List.mem_cons.mp hmem with hmem | hmem
    · rw [hmem]; rfl
    · rw [List.eq_of_mem_replicate hmem]; rfl

theorem takeDuringOneRampupSecond_pipeline (M : MetricsOps) (w : World) (r : Runner)
    (second : Int) (hpool : r.attackers ≠ []) :
    (takeDuringOneRampupSecond M w r second).2.resultsPipeline = Pipeline.rampLocal second := by
  have he : ¬ r.attackers.length = 0 := fun h => hpool (List.length_eq_zero.mp h)
  simp only [takeDuringOneRampupSecond, he, if_false]
  rw [Runner.collectResults_rampLocal M _ _ second rfl]

theorem linearLoop_advances (M : MetricsOps) (w : World) :
    ∀ (n : Nat) (i : Int) (r : Runner), r.Advances (linearLoop M w n i r) := by
  intro n
  induction n with
  | zero => intro i r; exact Runner.Advances.refl r
  | succ n ih =>
    intro i r
    rw [linearLoop_succ]
    refine Runner.Advances.trans ?_ (ih (i + 1) _)
    unfold linearStep
    exact (spawnAttackersToSize_advances w r _).trans
      (takeDuringOneRampupSecond_advances M w _ i)

theorem exp2Loop_advances (A : FloatArith) (M : MetricsOps) (w : World) :
    ∀ (n : Nat) (i : Int) (r : Runner), r.Advances (exp2Loop A M w n i r) := by
  intro n
  induction n with
  | zero => intro i r; exact Runner.Advances.refl r
  | succ n ih =>
    intro i r
    rw [exp2Loop_succ]
    refine Runner.Advances.trans ?_ (ih (i + 1) _)
    unfold exp2Step
    simp only
    split
    · exact (takeDuringOneRampupSecond_advances M w r i).trans
        (spawnAttackersToSize_advances w _ _)
    · exact takeDuringOneRampupSecond_advances M w r i

theorem Runner.rampUp_advances (A : FloatArith) (M : MetricsOps) (w : World) (r : Runner) :
    r.Advances (r.rampUp A M w) ∧ (r.rampUp A M w).resultsPipeline = Pipeline.addResult := by
  refine ⟨?_, rfl⟩
  unfold Runner.rampUp
  simp only
  split
  · exact (Runner.spawnAttacker_advances w r).trans (linearLoop_advances M w _ 1 _)
  · split
    · exact (Runner.spawnAttacker_advances w r).trans (exp2Loop_advances A M w _ 1 _)
    · exact Runner.Advances.refl r

theorem Runner.fullAttack_advances (w : World) (r : Runner) :
    r.Advances (r.fullAttack w) ∧ (r.fullAttack w).resultsPipeline = r.resultsPipeline := by
  by_cases he : r.attackers.length = 0
  · simp only [Runner.fullAttack, he, if_true]
    exact ⟨Runner.Advances.refl r, trivial⟩
  · simp only [Runner.fullAttack, he, if_false]
    refine ⟨⟨rfl, rfl, rfl, rfl, _, rfl, ?_⟩, trivial⟩
    intro e hmem
    rcases List.mem_cons.mp hmem with hmem | hmem
    · rw [hmem]; rfl
    · rw [List.eq_of_mem_replicate hmem]; rfl

theorem Runner.quit_teardown_advances (r : Runner) :
    r.Advances r.quitAttackers.tearDownAttackers := by
  refine ⟨rfl, rfl, rfl, rfl,
    r.attackers.map (fun _ => Event.quit) ++ r.attackers.map Event.teardown, ?_, ?_⟩
  · simp [Runner.tearDownAttackers, Runner.quitAttackers]
  · intro e hmem
    simp only [List.mem_append, List.mem_map] at hmem
    rcases hmem with ⟨_, _, h⟩ | ⟨_, _, h⟩ <;> rw [← h] <;> rfl

theorem Runner.route_frame_more (M : MetricsOps) (r : Runner) (s : result) :
    (r.route M s).name = r.name ∧ (r.route M s).prototype = r.prototype ∧
      (r.route M s).resultsPipeline = r.resultsPipeline := by
  unfold Runner.route
  split
  · exact ⟨rfl, rfl, rfl⟩
  · split <;> exact ⟨rfl, rfl, rfl⟩

theorem Runner.collectResults_frame_more (M : MetricsOps) (results : List result) :
    ∀ r : Runner, (r.collectResults M results).name = r.name ∧
      (r.collectResults M results).prototype = r.prototype ∧
      (r.collectResults M results).resultsPipeline = r.resultsPipeline := by
  induction results with
  | nil => intro r; exact ⟨rfl, rfl, rfl⟩
  | cons s rest ih =>
    intro r
    obtain ⟨h1, h2, h3⟩ := ih (r.route M s)
    obtain ⟨g1, g2, g3⟩ := r.route_frame_more M s
    simp only [Runner.collectResults, List.foldl_cons] at h1 h2 h3 ⊢
    exact ⟨h1.trans g1, h2.trans g2, h3.trans g3⟩

theorem Runner.route_metrics_congr (M : MetricsOps) (r r2 : Runner) (s : result)
    (hm : r.metrics = r2.metrics) (hp : r.resultsPipeline = r2.resultsPipeline) :
    (r.route M s).metrics = (r2.route M s).metrics := by
  unfold Runner.route
  rw [hp, hm]
  split
  · exact hm
  · split <;> simp only [hm]

theorem Runner.collectResults_metrics_congr (M : MetricsOps) (results : List result) :
    ∀ r r2 : Runner, r.metrics = r2.metrics → r.resultsPipeline = r2.resultsPipeline →
      (r.collectResults M results).metrics = (r2.collectResults M results).metrics := by
  induction results with
  | nil => intro r r2 hm _; exact hm
  | cons s rest ih =>
    intro r r2 hm hp
    simp only [Runner.collectResults, List.foldl_cons]
    apply ih
    · exact Runner.route_metrics_congr M r r2 s hm hp
    · rw [(r.route_frame_more M s).2.2, (r2.route_frame_more M s).2.2, hp]

/-! ### Which results reach the metrics map -/

theorem lookup_map_update {β : Type} (l : List (String × β)) (k k2 : String) (v : β) :
    (l.map (fun p => if p.1 = k then (p.1, v) else p)).lookup k2 =
      if k2 = k then (l.lookup k).map (fun _ => v) else l.lookup k2 := by
  induction l with
  | nil => simp
  | cons p t ih =>
    obtain ⟨a, b⟩ := p
    rw [List.map_cons]
    by_cases ha : a = k
    · have e1 : (if (a, b).1 = k then ((a, b).1, v) else (a, b)) = (a, v) := by simp [ha]
      rw [e1, List.lookup_cons, List.lookup_cons, List.lookup_cons, ih]
      by_cases h2 : k2 = a
      · have hb : (k2 == a) = true := by simpa using h2
        have hb2 : (k == a) = true := by simpa using ha.symm
        simp [hb, hb2, h2, ha]
      · have hb : (k2 == a) = false := by simpa using h2
        have hb2 : (k == a) = true := by simpa using ha.symm
        have hk : ¬ k2 = k := fun h => h2 (h.trans ha.symm)
        simp [hb, hb2, hk]
    · have e1 : (if (a, b).1 = k then ((a, b).1, v) else (a, b)) = (a, b) := by simp [ha]
      rw [e1, List.lookup_cons, List.lookup_cons, List.lookup_cons, ih]
      have hb2 : (k == a) = false := by simpa using fun h : k = a => ha h.symm
      by_cases h2 : k2 = a
      · have hb : (k2 == a) = true := by simpa using h2
        have hk : ¬ k2 = k := fun h => ha (h2.symm.trans h)
        simp [hb, hb2, hk]
      · have hb : (k2 == a) = false := by simpa using h2
        simp [hb, hb2]

theorem Runner.route_addResult (M : MetricsOps) (r : Runner) (s : result)
    (h : r.resultsPipeline = Pipeline.addResult) :
    (r.route M s).metrics.lookup s.doResult.RequestLabel =
        some (M.add ((r.metrics.lookup s.doResult.RequestLabel).getD {}) s) ∧
      ∀ l : String, l ≠ s.doResult.RequestLabel →
        (r.route M s).metrics.lookup l = r.metrics.lookup l := by
  cases hl : r.metrics.lookup s.doResult.RequestLabel with
  | none =>
    simp only [Runner.route, h, hl, Option.getD_none]
    constructor
    · rw [List.lookup_append, hl]
      simp [List.lookup]
    · intro l hne
      have hb : (l == s.doResult.RequestLabel) = false := by simpa using hne
      rw [List.lookup_append]
      simp [List.lookup, hb]
  | some m =>
    simp only [Runner.route, h, hl, Option.getD_some]
    constructor
    · rw [lookup_map_update, hl]
      simp
    · intro l hne
      rw [lookup_map_update]
      simp [hne]

/-- C21: with a non-empty pool `takeDuringOneRampupSecond` leaves the
ramp-local closure installed as the pipeline, and a result routed through
that closure leaves the runner, its metrics map included, as it is; so a
ramp-up second, and `rampUp` as a whole, leave the metrics map unchanged.
After `rampUp` the pipeline is `addResult` again, and a result routed then
is added to the bucket keyed by its request label, created when absent,
every other bucket staying as it is.  Hence the `Metrics` of the report made
at the end of a run are built from the results routed after ramp-up alone. -/
theorem ramp_results_stay_out_of_metrics (A : FloatArith) (M : MetricsOps) (w : World)
    (name : String) (a : Prototype) (c : Config) :
    (∀ (r : Runner) (s : Int), r.attackers ≠ [] →
      (takeDuringOneRampupSecond M w r s).2.resultsPipeline = Pipeline.rampLocal s) ∧
    (∀ (r : Runner) (s : Int) (res : result), r.resultsPipeline = Pipeline.rampLocal s →
      r.route M res = r ∧ (r.route M res).metrics = r.metrics) ∧
    (∀ (r : Runner) (s : Int), (takeDuringOneRampupSecond M w r s).2.metrics = r.metrics) ∧
    (∀ r : Runner, (r.rampUp A M w).resultsPipeline = Pipeline.addResult ∧
      (r.rampUp A M w).metrics = r.metrics) ∧
    (∀ (r : Runner) (res : result), r.resultsPipeline = Pipeline.addResult →
      (r.route M res).metrics.lookup res.doResult.RequestLabel =
        some (M.add ((r.metrics.lookup res.doResult.RequestLabel).getD {}) res) ∧
      ∀ l : String, l ≠ res.doResult.RequestLabel →
        (r.route M res).metrics.lookup l = r.metrics.lookup l) ∧
    ((((((Runner.init name a c).rampUp A M w).fullAttack w).collectResults M
        w.fullResults).quitAttackers.tearDownAttackers).reportMetrics M w).Metrics =
      (((Runner.init name a c).collectResults M w.fullResults).metrics).map
        (fun p => (p.1, M.updateLatencies p.2)) := by
  refine ⟨fun r s h => takeDuringOneRampupSecond_pipeline M w r s h, ?_,
    fun r s => (takeDuringOneRampupSecond_advances M w r s).2.2.2.1,
    fun r => ⟨(Runner.rampUp_advances A M w r).2, (Runner.rampUp_advances A M w r).1.2.2.2.1⟩,
    fun r res h => Runner.route_addResult M r res h, ?_⟩
  · intro r s res h
    have := Runner.route_rampLocal M r res s h
    exact ⟨this, by rw [this]⟩
  · have h1 := Runner.rampUp_advances A M w (Runner.init name a c)
    have h2 := Runner.fullAttack_advances w ((Runner.init name a c).rampUp A M w)
    have hm : (((Runner.init name a c).rampUp A M w).fullAttack w).metrics =
        (Runner.init name a c).metrics := h2.1.2.2.2.1.trans h1.1.2.2.2.1
    have hp : (((Runner.init name a c).rampUp A M w).fullAttack w).resultsPipeline =
        (Runner.init name a c).resultsPipeline := h2.2.trans h1.2
    have hc := Runner.collectResults_metrics_congr M w.fullResults _ _ hm hp
    have hq := (Runner.quit_teardown_advances
      ((((Runner.init name a c).rampUp A M w).fullAttack w).collectResults M
        w.fullResults)).2.2.2.1
    simp only [Runner.reportMetrics]
    rw [hq, hc]

/-! ### Timed-out invocations -/

theorem timeouts_leave_label_empty (M : MetricsOps) (name : String) (hname : name ≠ "")
    (results : List result)
    (hall : ∀ s ∈ results, ∃ d b e, s = attackRecord true d b e) :
    ∀ r : Runner, r.resultsPipeline = Pipeline.addResult → r.metrics.lookup name = none →
      (r.collectResults M results).metrics.lookup name = none ∧
      ((results ≠ [] ∨ (r.metrics.lookup "").isSome = true) →
        ((r.collectResults M results).metrics.lookup "").isSome = true) := by
  induction results with
  | nil =>
    intro r _ hn
    refine ⟨hn, ?_⟩
    rintro (h | h)
    · exact absurd rfl h
    · exact h
  | cons s rest ih =>
    intro r hp hn
    obtain ⟨d, b, e, hs⟩ := hall s (List.mem_cons_self _ _)
    have hlabel : s.doResult.RequestLabel = "" := by rw [hs]; rfl
    obtain ⟨h1, h2⟩ := Runner.route_addResult M r s hp
    have hp2 : (r.route M s).resultsPipeline = Pipeline.addResult :=
      (r.route_frame_more M s).2.2.trans hp
    have hn2 : (r.route M s).metrics.lookup name = none := by
      rw [h2 name (by rw [hlabel]; exact hname)]
      exact hn
    obtain ⟨g1, g2⟩ := ih (fun s hs => hall s (List.mem_cons_of_mem _ hs)) (r.route M s) hp2 hn2
    simp only [Runner.collectResults, List.foldl_cons] at g1 g2 ⊢
    refine ⟨g1, fun _ => g2 (Or.inr ?_)⟩
    rw [hlabel] at h1
    rw [h1]
    rfl

/-- C22 (counterexample): a handle with the empty name, all of whose
requests time out.  The configuration passes `Validate`, the two timed-out
records are counted in the bucket keyed by the empty string, and that is the
bucket under the handle's own name. -/
theorem unnamed_handle_keeps_timeouts_in_own_bucket :
    cfgUnnamed.Validate = [] ∧
      ((Runner.init cfgUnnamed.HandleName {} cfgUnnamed).collectResults countingOps
        [attackRecord true doCheckout 0 5, attackRecord true doCheckout 5 9]).metrics.lookup
          cfgUnnamed.HandleName =
        some { Requests := 2, Errors := [errAttackDoTimedOut, errAttackDoTimedOut] } := by
  refine ⟨by decide, rfl⟩

/-- C22 (amended): the record the worker emits for an invocation that times
out has an empty request label, status code 0 and the error
`errAttackDoTimedOut`, whatever `Do` would have returned; `addResult` adds
it to the bucket keyed by the empty string and leaves every other bucket as
it is; so a handle with a non-empty name whose requests all time out has no
bucket under its own handle name (its records are in the bucket "", and
`CheckErrors` then dereferences a nil bucket). -/
theorem timeouts_counted_under_empty_label (M : MetricsOps) (name : String)
    (hname : name ≠ "") :
    (∀ (d : DoResult) (b e : Int),
      (attackRecord true d b e).doResult.RequestLabel = "" ∧
      (attackRecord true d b e).doResult.StatusCode = 0 ∧
      (attackRecord true d b e).doResult.Error = some errAttackDoTimedOut ∧
      (attackRecord true d b e).elapsed = e - b) ∧
    (∀ (r : Runner) (d : DoResult) (b e : Int), r.resultsPipeline = Pipeline.addResult →
      (r.route M (attackRecord true d b e)).metrics.lookup "" =
        some (M.add ((r.metrics.lookup "").getD {}) (attackRecord true d b e)) ∧
      ∀ l : String, l ≠ "" →
        (r.route M (attackRecord true d b e)).metrics.lookup l = r.metrics.lookup l) ∧
    (∀ (a : Prototype) (c : Config) (results : List result),
      (∀ s ∈ results, ∃ d b e, s = attackRecord true d b e) →
      ((Runner.init name a c).collectResults M results).metrics.lookup name = none ∧
      (results ≠ [] →
        (((Runner.init name a c).collectResults M results).metrics.lookup "").isSome = true)) ∧
    (∀ (lm : LoadManager) (rep : RunReport), rep.Metrics.lookup name = none →
      ({ lm with Reports := [(name, rep)] } : LoadManager).CheckErrors = .error .panic) := by
  refine ⟨fun d b e => ⟨rfl, rfl, rfl, rfl⟩, ?_, ?_, ?_⟩
  · intro r d b e hp
    exact Runner.route_addResult M r (attackRecord true d b e) hp
  · intro a c results hall
    obtain ⟨h1, h2⟩ := timeouts_leave_label_empty M name hname results hall
      (Runner.init name a c) rfl rfl
    exact ⟨h1, fun hne => h2 (Or.inl hne)⟩
  · intro lm rep hnone
    simp [LoadManager.CheckErrors, LoadManager.checkErrorsLoop, hnone]

/-- C22 (witness): the amended statement for the handle "h". -/
theorem timeouts_counted_under_empty_label_witness :
    (∀ (d : DoResult) (b e : Int),
      (attackRecord true d b e).doResult.RequestLabel = "" ∧
      (attackRecord true d b e).doResult.StatusCode = 0 ∧
      (attackRecord true d b e).doResult.Error = some errAttackDoTimedOut ∧
      (attackRecord true d b e).elapsed = e - b) ∧
    (∀ (r : Runner) (d : DoResult) (b e : Int), r.resultsPipeline = Pipeline.addResult →
      (r.route countingOps (attackRecord true d b e)).metrics.lookup "" =
        some (countingOps.add ((r.metrics.lookup "").getD {}) (attackRecord true d b e)) ∧
      ∀ l : String, l ≠ "" →
        (r.route countingOps (attackRecord true d b e)).metrics.lookup l =
          r.metrics.lookup l) ∧
    (∀ (a : Prototype) (c : Config) (results : List result),
      (∀ s ∈ results, ∃ d b e, s = attackRecord true d b e) →
      ((Runner.init "h" a c).collectResults countingOps results).metrics.lookup "h" = none ∧
      (results ≠ [] →
        (((Runner.init "h" a c).collectResults countingOps results).metrics.lookup
          "").isSome = true)) ∧
    (∀ (lm : LoadManager) (rep : RunReport), rep.Metrics.lookup "h" = none →
      ({ lm with Reports := [("h", rep)] } : LoadManager).CheckErrors = .error .panic) :=
  timeouts_counted_under_empty_label countingOps "h" (by decide)

/-! ### The hooks around a run -/

theorem Runner.phases_frame (A : FloatArith) (M : MetricsOps) (w : World) (r : Runner) :
    (r.phases A M w).name = r.name ∧ (r.phases A M w).config = r.config ∧
      (r.phases A M w).prototype = r.prototype ∧
      ∃ ext : List Event, (r.phases A M w).log = r.log ++ ext ∧
        ∀ e ∈ ext, e.isHook = false := by
  have h1 := (Runner.rampUp_advances A M w r).1.trans
    (Runner.fullAttack_advances w (r.rampUp A M w)).1
  obtain ⟨a1, b1, c1, _, e1, f1, g1⟩ := h1
  obtain ⟨a2, c2, _⟩ := Runner.collectResults_frame_more M w.fullResults
    ((r.rampUp A M w).fullAttack w)
  obtain ⟨_, b2, f2⟩ := Runner.collectResults_frame M w.fullResults
    ((r.rampUp A M w).fullAttack w)
  obtain ⟨a3, b3, c3, _, e3, f3, g3⟩ := Runner.quit_teardown_advances
    (((r.rampUp A M w).fullAttack w).collectResults M w.fullResults)
  refine ⟨a3.trans (a2.trans a1), b3.trans (b2.trans b1), c3.trans (c2.trans c1),
    e1 ++ e3, ?_, ?_⟩
  · unfold Runner.phases
    rw [f3, f2, f1, List.append_assoc]
  · intro e he
    rcases List.mem_append.mp he with he | he
    · exact g1 e he
    · exact g3 e he

theorem Runner.Run_eq (A : FloatArith) (M : MetricsOps) (w : World) (r : Runner)
    (lm : LoadManager)
    (hb : ∀ f, r.prototype.BeforeRun = some f → f r.config = none)
    (ha : ∀ f, r.prototype.AfterRun = some f → (f {}).2 = none) :
    ∃ rep, r.Run A M w lm =
      .ok ((r.beforeRunStep.phases A M w).afterRunStep,
        { lm with Reports := (mapSet lm.Reports r.name
            ((r.beforeRunStep.phases A M w).afterRunStep.reportMetrics M w)) },
        rep) := by
  have hp0 : r.beforeRunStep.prototype = r.prototype := by
    unfold Runner.beforeRunStep
    split <;> rfl
  have hn0 : r.beforeRunStep.name = r.name := by
    unfold Runner.beforeRunStep
    split <;> rfl
  have hp := (Runner.phases_frame A M w r.beforeRunStep).2.2.1.trans hp0
  have hn := (Runner.phases_frame A M w r.beforeRunStep).1.trans hn0
  have hstart : (match r.prototype.BeforeRun with
      | none => (Except.ok r : Except Abort Runner)
      | some f =>
        match f r.config with
        | some _ => .error .fatal
        | none => .ok { r with log := r.log ++ [Event.beforeRun r.config] }) =
      .ok r.beforeRunStep := by
    cases hB : r.prototype.BeforeRun with
    | none => simp [Runner.beforeRunStep, hB]
    | some f => simp [Runner.beforeRunStep, hB, hb f hB]
  cases hA : r.prototype.AfterRun with
  | none =>
    refine ⟨{}, ?_⟩
    have hA2 : (r.beforeRunStep.phases A M w).prototype.AfterRun = none := by rw [hp, hA]
    have hstep : (r.beforeRunStep.phases A M w).afterRunStep = r.beforeRunStep.phases A M w := by
      simp [Runner.afterRunStep, hA2]
    rw [hstep]
    unfold Runner.phases at hA2 hn ⊢
    simp only [Runner.Run, hstart, hA2, hn]
  | some g =>
    have hg := ha g hA
    refine ⟨(g {}).1, ?_⟩
    have hA2 : (r.beforeRunStep.phases A M w).prototype.AfterRun = some g := by rw [hp, hA]
    have hg2 : g {} = ((g {}).1, none) := by rw [← hg]
    have hstep : (r.beforeRunStep.phases A M w).afterRunStep =
        { r.beforeRunStep.phases A M w with
          log := (r.beforeRunStep.phases A M w).log ++ [Event.afterRun] } := by
      simp [Runner.afterRunStep, hA2]
    rw [hstep]
    unfold Runner.phases at hA2 hn ⊢
    simp only [Runner.Run, hstart, hA2]
    rw [hg2]
    simp only [hn]

theorem Runner.rampUp_unknown (A : FloatArith) (M : MetricsOps) (w : World) (r : Runner)
    (hs1 : r.config.RampUpStrategy ≠ "") (hs2 : r.config.RampUpStrategy ≠ "linear")
    (hs3 : r.config.RampUpStrategy ≠ "exp2") :
    r.rampUp A M w = { r with resultsPipeline := Pipeline.addResult } := by
  have hl : ¬ r.config.RampUpStrategy.length = 0 :=
    fun h => hs1 ((string_length_eq_zero _).mp h)
  simp [Runner.rampUp, Config.rampupStrategy, hl, hs2, hs3]

theorem Runner.phases_unknown (A : FloatArith) (M : MetricsOps) (w : World) (r : Runner)
    (hs1 : r.config.RampUpStrategy ≠ "") (hs2 : r.config.RampUpStrategy ≠ "linear")
    (hs3 : r.config.RampUpStrategy ≠ "exp2") (hatt : r.attackers = [])
    (hres : w.fullResults = []) :
    (r.phases A M w).attackers = [] ∧ (r.phases A M w).metrics = r.metrics ∧
      (r.phases A M w).log = r.log := by
  unfold Runner.phases
  rw [Runner.rampUp_unknown A M w r hs1 hs2 hs3, hres]
  simp [Runner.fullAttack, Runner.collectResults, Runner.quitAttackers,
    Runner.tearDownAttackers, hatt]

/-- C23: for a configuration whose `RampUpStrategy` is a non-empty name other
than "linear" and "exp2" (`Validate` never looks at the name, so it passes
or fails as with any other name), `rampUp` leaves the new runner as it is:
no clone, no spawn, no go signal; `fullAttack` returns at once on the empty
pool; and `Run`, with hooks that return no error and no result reaching the
collector (there is no worker to send one), ends normally with an empty
pool, a log holding nothing but the hook calls, and a report with an empty
metrics map inserted under the handle name. -/
theorem unknown_strategy_runs_nothing (A : FloatArith) (M : MetricsOps) (w : World)
    (name : String) (a : Prototype) (c : Config) (lm : LoadManager)
    (hs1 : c.RampUpStrategy ≠ "") (hs2 : c.RampUpStrategy ≠ "linear")
    (hs3 : c.RampUpStrategy ≠ "exp2")
    (hb : ∀ f, a.BeforeRun = some f → f c = none)
    (ha : ∀ f, a.AfterRun = some f → (f {}).2 = none)
    (hres : w.fullResults = []) :
    (∀ s : String, ({ c with RampUpStrategy := s } : Config).Validate = c.Validate) ∧
    (Runner.init name a c).rampUp A M w = Runner.init name a c ∧
    ((Runner.init name a c).rampUp A M w).fullAttack w = Runner.init name a c ∧
    ∃ r2 lm2 rep, (Runner.init name a c).Run A M w lm = .ok (r2, lm2, rep) ∧
      r2.attackers = [] ∧ (∀ e ∈ r2.log, e.isHook = true) ∧ r2.metrics = [] ∧
      ∃ inserted, lm2.Reports.lookup name = some inserted ∧ inserted.Metrics = [] := by
  have hramp : (Runner.init name a c).rampUp A M w = Runner.init name a c := by
    rw [Runner.rampUp_unknown A M w _ hs1 hs2 hs3]
    rfl
  refine ⟨fun s => rfl, hramp, ?_, ?_⟩
  · rw [hramp]
    simp [Runner.fullAttack, Runner.init]
  · obtain ⟨rep, hrun⟩ := Runner.Run_eq A M w (Runner.init name a c) lm hb ha
    have hcfg : (Runner.init name a c).beforeRunStep.config = c := by
      unfold Runner.beforeRunStep
      split <;> rfl
    have hatt : (Runner.init name a c).beforeRunStep.attackers = [] := by
      unfold Runner.beforeRunStep
      split <;> rfl
    have hmet : (Runner.init name a c).beforeRunStep.metrics = [] := by
      unfold Runner.beforeRunStep
      split <;> rfl
    have hlog : ∀ e ∈ (Runner.init name a c).beforeRunStep.log, e.isHook = true := by
      unfold Runner.beforeRunStep
      split
      · intro e he
        simp only [Runner.init, List.nil_append, List.mem_singleton] at he
        rw [he]
        rfl
      · intro e he
        simp [Runner.init] at he
    obtain ⟨p1, p2, p3⟩ := Runner.phases_unknown A M w (Runner.init name a c).beforeRunStep
      (by rw [hcfg]; exact hs1) (by rw [hcfg]; exact hs2) (by rw [hcfg]; exact hs3) hatt hres
    refine ⟨_, _, rep, hrun, ?_, ?_, ?_, _, mapSet_lookup_self _ _ _, ?_⟩
    · unfold Runner.afterRunStep
      split <;> exact p1
    · unfold Runner.afterRunStep
      split
      · intro e he
        simp only [List.mem_append, List.mem_singleton] at he
        rcases he with he | he
        · rw [p3] at he
          exact hlog e he
        · rw [he]
          rfl
      · intro e he
        rw [p3] at he
        exact hlog e he
    · unfold Runner.afterRunStep
      split <;> exact p2.trans hmet
    · have hm : ((Runner.init name a c).beforeRunStep.phases A M w).afterRunStep.metrics = [] := by
        unfold Runner.afterRunStep
        split <;> exact p2.trans hmet
      simp [Runner.reportMetrics, hm]

/-- C23 (witness): the statement for the strategy name "quadratic". -/
theorem unknown_strategy_runs_nothing_witness :
    (∀ s : String,
      ({ cfgUnknownStrategy with RampUpStrategy := s } : Config).Validate =
        cfgUnknownStrategy.Validate) ∧
    (Runner.init "h" protoBothHooks cfgUnknownStrategy).rampUp exactArith countingOps quietWorld =
      Runner.init "h" protoBothHooks cfgUnknownStrategy ∧
    ((Runner.init "h" protoBothHooks cfgUnknownStrategy).rampUp exactArith countingOps
        quietWorld).fullAttack quietWorld =
      Runner.init "h" protoBothHooks cfgUnknownStrategy ∧
    ∃ r2 lm2 rep,
      (Runner.init "h" protoBothHooks cfgUnknownStrategy).Run exactArith countingOps quietWorld
        NewLoadManager = .ok (r2, lm2, rep) ∧
      r2.attackers = [] ∧ (∀ e ∈ r2.log, e.isHook = true) ∧ r2.metrics = [] ∧
      ∃ inserted, lm2.Reports.lookup "h" = some inserted ∧ inserted.Metrics = [] :=
  unknown_strategy_runs_nothing exactArith countingOps quietWorld "h" protoBothHooks
    cfgUnknownStrategy NewLoadManager (by decide) (by decide) (by decide)
    (by intro f hf; cases hf; rfl) (by intro f hf; cases hf; rfl) rfl

/-- C24: for a valid configuration, sample mode off, and a prototype whose
`BeforeRun` returns no error (and whose `AfterRun`, if implemented, returns
none either): `NewRunner` returns a runner whose log holds one call
`BeforeRun(c)`; `Run` on that runner returns, and the log of the runner it
leaves is the two calls `BeforeRun(c)`, then the events of ramp-up, full
attack, quit and teardown, none of them a hook call, then one call of
`AfterRun` when the prototype implements it and nothing otherwise; the
report inserted under the handle name is made after that call. -/
theorem hooks_called_around_run (A : FloatArith) (M : MetricsOps) (w : World)
    (name : String) (a : Prototype) (c : Config) (oSample : Int) (lm : LoadManager)
    (fb : Config → Option String)
    (hvalid : c.Validate = []) (hsample : oSample ≤ 0)
    (hB : a.BeforeRun = some fb) (hfb : fb c = none)
    (ha : ∀ f, a.AfterRun = some f → (f {}).2 = none) :
    ∃ (r0 r6 : Runner) (lm2 : LoadManager) (rep : RunReport) (ext : List Event),
      NewRunner name a c oSample = .ok r0 ∧ r0.log = [Event.beforeRun c] ∧
      r0.Run A M w lm = .ok (r6, lm2, rep) ∧
      (∀ e ∈ ext, e.isHook = false) ∧
      (r0.beforeRunStep.phases A M w).log =
        [Event.beforeRun c, Event.beforeRun c] ++ ext ∧
      r6.log = [Event.beforeRun c, Event.beforeRun c] ++ ext ++
        (if a.AfterRun.isSome then [Event.afterRun] else []) ∧
      r6.log.filter Event.isHook = [Event.beforeRun c, Event.beforeRun c] ++
        (if a.AfterRun.isSome then [Event.afterRun] else []) ∧
      lm2.Reports = mapSet lm.Reports name (r6.reportMetrics M w) := by
  have hnew : NewRunner name a c oSample =
      .ok { Runner.init name a c with log := [Event.beforeRun c] } := by
    have hs : ¬ oSample > 0 := by omega
    simp [NewRunner, hvalid, hB, hfb, hs]
  have hb0 : ∀ f, ({ Runner.init name a c with log := [Event.beforeRun c] } :
      Runner).prototype.BeforeRun = some f →
      f ({ Runner.init name a c with log := [Event.beforeRun c] } : Runner).config = none := by
    intro f hf
    have : some fb = some f := hB.symm.trans hf
    cases this
    exact hfb
  obtain ⟨rep, hrun⟩ := Runner.Run_eq A M w
    { Runner.init name a c with log := [Event.beforeRun c] } lm hb0 ha
  have hstep : ({ Runner.init name a c with log := [Event.beforeRun c] } :
      Runner).beforeRunStep =
      { Runner.init name a c with log := [Event.beforeRun c, Event.beforeRun c] } := by
    simp [Runner.beforeRunStep, Runner.init, hB]
  obtain ⟨_, _, hp, ext, hlog, hext⟩ := Runner.phases_frame A M w
    ({ Runner.init name a c with log := [Event.beforeRun c] } : Runner).beforeRunStep
  have hlog2 : (({ Runner.init name a c with log := [Event.beforeRun c] } :
      Runner).beforeRunStep.phases A M w).log =
      [Event.beforeRun c, Event.beforeRun c] ++ ext := by
    rw [hlog, hstep]
  have hproto : (({ Runner.init name a c with log := [Event.beforeRun c] } :
      Runner).beforeRunStep.phases A M w).prototype = a := by
    rw [hp, hstep]
    rfl
  have hfinal : ((({ Runner.init name a c with log := [Event.beforeRun c] } :
      Runner).beforeRunStep.phases A M w).afterRunStep).log =
      [Event.beforeRun c, Event.beforeRun c] ++ ext ++
        (if a.AfterRun.isSome then [Event.afterRun] else []) := by
    unfold Runner.afterRunStep
    rw [hproto]
    split
    · simp only [hlog2]
    · simp only [hlog2, List.append_nil]
  have hextf : ext.filter Event.isHook = [] := by
    rw [List.filter_eq_nil_iff]
    intro e he
    rw [hext e he]
    simp
  refine ⟨_, _, _, rep, ext, hnew, rfl, hrun, hext, hlog2, hfinal, ?_, rfl⟩
  rw [hfinal, List.filter_append, List.filter_append, hextf]
  cases a.AfterRun <;> simp [List.filter, Event.isHook]

/-- C24 (witness): the statement for a prototype with both hooks, one
attacker and a steady environment. -/
theorem hooks_called_around_run_witness :
    cfgOneAttacker.Validate = [] ∧ (0 : Int) ≤ 0 ∧
    ∃ (r0 r6 : Runner) (lm2 : LoadManager) (rep : RunReport) (ext : List Event),
      NewRunner "h" protoBothHooks cfgOneAttacker 0 = .ok r0 ∧
      r0.log = [Event.beforeRun cfgOneAttacker] ∧
      r0.Run exactArith countingOps steadyWorld NewLoadManager = .ok (r6, lm2, rep) ∧
      (∀ e ∈ ext, e.isHook = false) ∧
      (r0.beforeRunStep.phases exactArith countingOps steadyWorld).log =
        [Event.beforeRun cfgOneAttacker, Event.beforeRun cfgOneAttacker] ++ ext ∧
      r6.log = [Event.beforeRun cfgOneAttacker, Event.beforeRun cfgOneAttacker] ++ ext ++
        (if protoBothHooks.AfterRun.isSome then [Event.afterRun] else []) ∧
      r6.log.filter Event.isHook =
        [Event.beforeRun cfgOneAttacker, Event.beforeRun cfgOneAttacker] ++
          (if protoBothHooks.AfterRun.isSome then [Event.afterRun] else []) ∧
      lm2.Reports = mapSet NewLoadManager.Reports "h"
        (r6.reportMetrics countingOps steadyWorld) :=
  ⟨rfl, le_refl 0,
    hooks_called_around_run exactArith countingOps steadyWorld "h" protoBothHooks
      cfgOneAttacker 0 NewLoadManager (fun _ => none) rfl (le_refl 0) rfl rfl
      (by intro f hf; cases hf; rfl)⟩

end Loadgen
